import Mathlib

/-!
The chained hash table `xns` of `include/ns.hh`.

A shallow embedding of the `xns<K, V, HF>` name-space table and of the
`xelem<K, V>` nodes it links, followed by the properties proved about it.

The table is a pointer structure, so it is embedded over an explicit heap:
a node is an address (a natural number, `0` is the null pointer), `mem` maps an address
to the `xelem` stored there, and every `->` of the source is a read or a
write of `mem`.  A read of an address that holds no node is a fault and the
operation yields `none`.  The unbounded loops of the source (`for (;;)`,
`while (e)`) are embedded with a fuel argument; running out of fuel also
yields `none`.

Operations are run one at a time (no operation is in flight when the next
one starts).  The per-core spinlocks are therefore always free on entry and
`acquire`/`release` have no observable effect; they are left out.  Entering
and leaving a gc epoch (`scoped_gc_epoch`) does not touch the table either;
for the iterator, which opens and closes an epoch by hand, the number of
open epochs is carried as a counter.
-/

set_option autoImplicit false

namespace Xns

/-! ## Build-time constants -/

/-- The constants the header depends on: `SPINLOCK_DEBUG` selects `NHASH`,
and `NCPU` (declared outside this header) sizes the per-core arrays. -/
structure Build where
  SPINLOCK_DEBUG : Bool
  NCPU : Nat
  deriving DecidableEq, Repr

/-- `#define NHASH 10` under `SPINLOCK_DEBUG`, `257` otherwise. -/
def NHASH (b : Build) : Nat := if b.SPINLOCK_DEBUG then 10 else 257

/-! ## Data model -/

/-- A value of type `std::atomic<xelem*>*` used for `percore_pprev`: the
address of `percore[c]` or of the `percore_next` field of a node. -/
inductive PercoreRef where
  | head (c : Nat)
  | next (p : Nat)
  deriving DecidableEq, Repr

/-- The `pe` variable of `remove`: the address of `table[i].chain` or of the
`next` field of a node. -/
inductive LinkRef where
  | bucket (i : Nat)
  | next (p : Nat)
  deriving DecidableEq, Repr

/-- The `pelock` variable of `remove`: the address of the local `fakelock`
or of the `next_lock` field of a node. -/
inductive LockRef where
  | fake
  | elem (p : Nat)
  deriving DecidableEq, Repr

/-- The fields of `class xelem`. -/
structure xelem (K V : Type) where
  val : V
  key : K
  next_lock : Int
  next : Nat
  percore_c : Nat
  percore_next : Nat
  percore_pprev : Option PercoreRef
  deriving DecidableEq, Repr

/-- The constructor `xelem(const K &k, const V &v)`.  It leaves `percore_c`
uninitialised; the field is written by `insert` before it is ever read, and
is given the value `0` here. -/
def xelem.ctor {K V : Type} (k : K) (v : V) : xelem K V :=
  { val := v, key := k, next_lock := 0, next := 0,
    percore_c := 0, percore_next := 0, percore_pprev := none }

/-- The fields of `class xns`, together with the heap its nodes live in:
`mem` is the contents of the allocated nodes, `brk` the next address the
allocator hands out, and `delayed` the nodes passed to `gc_delayed` and not
yet destroyed. -/
structure xns (K V : Type) where
  allowdup : Bool
  nextkey : Nat
  table : Nat → Nat
  percore : Nat → Nat
  mem : Nat → Option (xelem K V)
  brk : Nat
  delayed : List Nat

section Ops

variable {K V : Type}

/-- The constructor `xns(bool dup)` on a heap that holds no node yet. -/
def xns.ctor (dup : Bool) : xns K V :=
  { allowdup := dup, nextkey := 1, table := fun _ => 0, percore := fun _ => 0,
    mem := fun _ => none, brk := 1, delayed := [] }

/-- `u64 h(const K &key) { return HF(key) % NHASH; }`, with `HF` returning a
`u64`. -/
def h (b : Build) (HF : K → Nat) (key : K) : Nat :=
  (HF key % 2 ^ 64) % NHASH b

/-- A write `p->field = ...`, as an update `f` of the node at `p`. -/
def xns.upd (s : xns K V) (p : Nat) (f : xelem K V → xelem K V) : Option (xns K V) :=
  match s.mem p with
  | none => none
  | some x => some { s with mem := Function.update s.mem p (some (f x)) }

/-- `new xelem<K, V>(key, val)`: when the allocator has memory (`ok`), the
node is built at the fresh address `brk`; otherwise the result is null. -/
def new_xelem (s : xns K V) (ok : Bool) (key : K) (val : V) : Nat × xns K V :=
  if ok then
    (s.brk, { s with mem := Function.update s.mem s.brk (some (xelem.ctor key val)),
                     brk := s.brk + 1 })
  else (0, s)

/-- Modelled from the spec: `gc_delayed(e)` of the reclamation collaborator
(`gc.hh`), which queues `e` for destruction at a later time. -/
def gc_delayed (s : xns K V) (e : Nat) : xns K V :=
  { s with delayed := e :: s.delayed }

/-- Modelled from the spec: the reclamation collaborator destroying one
queued node (`do_gc`, that is `delete this`) between two operations. -/
def gc_collect (s : xns K V) (p : Nat) : xns K V :=
  if p ∈ s.delayed then
    { s with mem := Function.update s.mem p none, delayed := s.delayed.erase p }
  else s

/-- `pe->load()`. -/
def loadLink (s : xns K V) : LinkRef → Option Nat
  | .bucket i => some (s.table i)
  | .next p => (s.mem p).map (fun x => x.next)

/-- `*pe = v`. -/
def storeLink (s : xns K V) : LinkRef → Nat → Option (xns K V)
  | .bucket i, v => some { s with table := Function.update s.table i v }
  | .next p, v => s.upd p (fun x => { x with next := v })

/-- `cmpxch(pe, expected, desired)` on a chain link. -/
def cmpxchLink (s : xns K V) (pe : LinkRef) (expected desired : Nat) :
    Option (Bool × xns K V) :=
  match loadLink s pe with
  | none => none
  | some cur =>
    if cur = expected then (storeLink s pe desired).map (fun s1 => (true, s1))
    else some (false, s)

/-- `*pelock`, where `fl` is the current value of the local `fakelock`. -/
def loadLock (s : xns K V) (fl : Int) : LockRef → Option Int
  | .fake => some fl
  | .elem p => (s.mem p).map (fun x => x.next_lock)

/-- `*pelock = v`; the result carries the new value of `fakelock`. -/
def storeLock (s : xns K V) (fl : Int) : LockRef → Int → Option (xns K V × Int)
  | .fake, v => some (s, v)
  | .elem p, v => (s.upd p (fun x => { x with next_lock := v })).map (fun s1 => (s1, fl))

/-- `cmpxch(pelock, expected, desired)` on a lock word. -/
def cmpxchLock (s : xns K V) (fl : Int) (pelock : LockRef) (expected desired : Int) :
    Option (Bool × xns K V × Int) :=
  match loadLock s fl pelock with
  | none => none
  | some cur =>
    if cur = expected then (storeLock s fl pelock desired).map (fun r => (true, r))
    else some (false, s, fl)

/-- `*pprev = v` for a `percore_pprev` value. -/
def storePercore (s : xns K V) : PercoreRef → Nat → Option (xns K V)
  | .head c, v => some { s with percore := Function.update s.percore c v }
  | .next p, v => s.upd p (fun x => { x with percore_next := v })

/-! ## insert -/

/-- The duplicate scan of `insert`:
`for (auto x = root.load(); x; x = x->next) if (x->key == key) ...`;
the result says whether an equal key was met. -/
def insert.scan [DecidableEq K] (s : xns K V) (key : K) : Nat → Nat → Option Bool
  | 0, _ => none
  | fuel + 1, x =>
    if x = 0 then some false
    else
      match s.mem x with
      | none => none
      | some xe => if xe.key = key then some true else insert.scan s key fuel xe.next

/-- The part of `insert` that runs once the `cmpxch` on the bucket has
succeeded: linking `e` at the head of `percore[c]`, `c = myid()`. -/
def insert.link (s : xns K V) (c : Nat) (e : Nat) : Option (xns K V) := do
  let s1 ← s.upd e (fun x => { x with percore_c := c })
  let s2 ← s1.upd e (fun x => { x with percore_next := s1.percore c })
  let s3 ← if s2.percore c ≠ 0 then
      s2.upd (s2.percore c) (fun x => { x with percore_pprev := some (.next e) })
    else some s2
  let s4 ← s3.upd e (fun x => { x with percore_pprev := some (.head c) })
  some { s4 with percore := Function.update s4.percore c e }

/-- The `for (;;)` loop of `insert`; `n` bounds the number of retries and
`fuel` the length of each duplicate scan. -/
def insert.loop [DecidableEq K] (c : Nat) (key : K) (e : Nat) (i : Nat) (fuel : Nat) :
    Nat → xns K V → Option (Int × xns K V)
  | 0, _ => none
  | n + 1, s =>
    let root := s.table i
    match (if !s.allowdup then insert.scan s key fuel root else some false) with
    | none => none
    | some true => some (-1, gc_delayed s e)
    | some false => do
      let s1 ← s.upd e (fun x => { x with next := root })
      let en ← loadLink s1 (.next e)
      let (ok, s2) ← cmpxchLink s1 (.bucket i) en e
      if ok then
        let s3 ← insert.link s2 c e
        some (0, s3)
      else insert.loop c key e i fuel n s2

/-- `int insert(const K &key, const V &val)` run by the worker `c = myid()`;
`ok` says whether `new` succeeds. -/
def insert [DecidableEq K] (b : Build) (HF : K → Nat) (fuel : Nat) (s : xns K V)
    (c : Nat) (ok : Bool) (key : K) (val : V) : Option (Int × xns K V) :=
  let (e, s1) := new_xelem s ok key val
  if e = 0 then some (-1, s1)
  else insert.loop c key e (h b HF key) fuel fuel s1

/-! ## lookup -/

/-- The `while (e)` loop of `lookup`; falling off the chain gives
`return 0`. -/
def lookup.walk [DecidableEq K] [Zero V] (s : xns K V) (key : K) : Nat → Nat → Option V
  | 0, _ => none
  | fuel + 1, e =>
    if e = 0 then some 0
    else
      match s.mem e with
      | none => none
      | some x => if x.key = key then some x.val else lookup.walk s key fuel x.next

/-- `V lookup(const K &key)`. -/
def lookup [DecidableEq K] [Zero V] (b : Build) (HF : K → Nat) (fuel : Nat) (s : xns K V)
    (key : K) : Option V :=
  lookup.walk s key fuel (s.table (h b HF key))

/-! ## remove -/

/-- How one run of the inner `for (;;)` of `remove` ends: with a `return`,
or with a `break` that restarts the walk. -/
inductive remove.Exit (K V : Type) where
  | ret (r : Bool) (s : xns K V)
  | brk (s : xns K V)

/-- The unlinking of a claimed node `e` from its per-core list
(lines 162-167), followed by `*pelock = 0; gc_delayed(e); return true`. -/
def remove.unlink (s : xns K V) (fl : Int) (pelock : LockRef) (e : Nat) :
    Option (remove.Exit K V) := do
  let x ← s.mem e
  let pp ← x.percore_pprev
  let s1 ← storePercore s pp x.percore_next
  let x1 ← s1.mem e
  let s2 ← if x1.percore_next ≠ 0 then
      s1.upd x1.percore_next (fun y => { y with percore_pprev := x1.percore_pprev })
    else some s1
  let (s3, _) ← storeLock s2 fl pelock 0
  some (.ret true (gc_delayed s3 e))

/-- The body of `if (e->key == key && (!vp || e->val == *vp))` in `remove`:
claiming `e` and its predecessor, redirecting `*pe`, and unlinking; each
failed `cmpxch` undoes the claims and ends with `break`. -/
def remove.claim (s : xns K V) (fl : Int) (pelock : LockRef) (pe : LinkRef) (e : Nat) :
    Option (remove.Exit K V) := do
  let (ok1, s1, fl1) ← cmpxchLock s fl (.elem e) 0 1
  if !ok1 then some (.brk s1)
  else
    let (ok2, s2, fl2) ← cmpxchLock s1 fl1 pelock 0 1
    if !ok2 then
      let (s3, _) ← storeLock s2 fl2 (.elem e) 0
      some (.brk s3)
    else
      let en ← loadLink s2 (.next e)
      let (ok3, s3) ← cmpxchLink s2 pe e en
      if !ok3 then
        let (s4, fl4) ← storeLock s3 fl2 pelock 0
        let (s5, _) ← storeLock s4 fl4 (.elem e) 0
        some (.brk s5)
      else remove.unlink s3 fl2 pelock e

/-- The inner `for (;;)` of `remove`, started with the given `fakelock`
value, `pelock` and `pe`. -/
def remove.inner [DecidableEq K] [DecidableEq V] (key : K) (vp : Option V) :
    Nat → xns K V → Int → LockRef → LinkRef → Option (remove.Exit K V)
  | 0, _, _, _, _ => none
  | fuel + 1, s, fl, pelock, pe =>
    match loadLink s pe with
    | none => none
    | some e =>
      if e = 0 then some (.ret false s)
      else
        match s.mem e with
        | none => none
        | some x =>
          if x.key = key ∧ (vp = none ∨ vp = some x.val) then remove.claim s fl pelock pe e
          else remove.inner key vp fuel s fl (.elem e) (.next e)

/-- The outer `for (;;)` of `remove`; `n` bounds the number of restarts and
`fuel` the length of each walk. -/
def remove.outer [DecidableEq K] [DecidableEq V] (key : K) (vp : Option V) (i : Nat)
    (fuel : Nat) : Nat → xns K V → Option (Bool × xns K V)
  | 0, _ => none
  | n + 1, s =>
    match remove.inner key vp fuel s 0 .fake (.bucket i) with
    | none => none
    | some (.ret r s1) => some (r, s1)
    | some (.brk s1) => remove.outer key vp i fuel n s1

/-- `bool remove(const K &key, const V *vp = 0)`; `vp = none` is the null
filter. -/
def remove [DecidableEq K] [DecidableEq V] (b : Build) (HF : K → Nat) (fuel : Nat)
    (s : xns K V) (key : K) (vp : Option V) : Option (Bool × xns K V) :=
  remove.outer key vp (h b HF key) fuel fuel s

/-! ## enumerate, enumerate_key -/

/-- The `while (e)` loop of `enumerate` over one per-core list.  The
callback is a closure with state `σ`; the boolean of the result says whether
the callback asked to stop (`return`). -/
def enumerate.list {σ : Type} (cb : σ → K → V → Bool × σ) (s : xns K V) :
    Nat → Nat → σ → Option (Bool × σ)
  | 0, _, _ => none
  | fuel + 1, e, acc =>
    if e = 0 then some (false, acc)
    else
      match s.mem e with
      | none => none
      | some x =>
        let r := cb acc x.key x.val
        if r.1 then some (true, r.2) else enumerate.list cb s fuel x.percore_next r.2

/-- The `for (int i = 0; i < NCPU; i++)` loop of `enumerate`, with `n`
iterations left to run from index `i`. -/
def enumerate.cores {σ : Type} (b : Build) (cb : σ → K → V → Bool × σ) (s : xns K V)
    (fuel : Nat) (cpuoffset : Nat) : Nat → Nat → σ → Option σ
  | 0, _, acc => some acc
  | n + 1, i, acc =>
    match enumerate.list cb s fuel (s.percore ((i + cpuoffset) % b.NCPU)) acc with
    | none => none
    | some (true, acc1) => some acc1
    | some (false, acc1) => enumerate.cores b cb s fuel cpuoffset n (i + 1) acc1

/-- `void enumerate(CB cb)` run by the worker `cpuoffset = myid()`; the
result is the final state of the callback. -/
def enumerate {σ : Type} (b : Build) (fuel : Nat) (s : xns K V) (cpuoffset : Nat)
    (cb : σ → K → V → Bool × σ) (init : σ) : Option σ :=
  enumerate.cores b cb s fuel cpuoffset b.NCPU 0 init

/-- The `while (e)` loop of `enumerate_key`. -/
def enumerate_key.walk [DecidableEq K] {σ : Type} (cb : σ → K → V → Bool × σ)
    (s : xns K V) (key : K) : Nat → Nat → σ → Option σ
  | 0, _, _ => none
  | fuel + 1, e, acc =>
    if e = 0 then some acc
    else
      match s.mem e with
      | none => none
      | some x =>
        if x.key = key then
          let r := cb acc x.key x.val
          if r.1 then some r.2 else enumerate_key.walk cb s key fuel x.next r.2
        else enumerate_key.walk cb s key fuel x.next acc

/-- `void enumerate_key(const K &key, CB cb)`. -/
def enumerate_key [DecidableEq K] {σ : Type} (b : Build) (HF : K → Nat) (fuel : Nat)
    (s : xns K V) (key : K) (cb : σ → K → V → Bool × σ) (init : σ) : Option σ :=
  enumerate_key.walk cb s key fuel (s.table (h b HF key)) init

/-! ## The destructor -/

/-- The loop `for (int i = 0; i < NHASH; i++) if (table[i].chain) panic(...)`
of `~xns()`, with `n` iterations left to run from index `i`; the result says
whether `panic("~xns: not empty")` was reached. -/
def xns.dtor_loop (s : xns K V) : Nat → Nat → Bool
  | 0, _ => false
  | n + 1, i => if s.table i ≠ 0 then true else xns.dtor_loop s n (i + 1)

/-- `~xns()`: `true` when the destructor panics. -/
def xns.dtor (b : Build) (s : xns K V) : Bool :=
  xns.dtor_loop s (NHASH b) 0

/-- `*pprev` for a `percore_pprev` value: the pointer held by the link it
designates. -/
def loadPercore (s : xns K V) : PercoreRef → Option Nat
  | .head c => some (s.percore c)
  | .next p => (s.mem p).map (fun x => x.percore_next)

/-- Modelled from the spec: `gc_begin_epoch()`, which is not under `src/`:
the calling thread enters a protected region. `ep` is the number of regions
the thread has open. -/
def gc_begin_epoch (ep : Int) : Int := ep + 1

/-- Modelled from the spec: `gc_end_epoch()`, which is not under `src/`: the
calling thread leaves a protected region. -/
def gc_end_epoch (ep : Int) : Int := ep - 1

/-- Class `xns::iterator`: `ns_` is the address of the table (0 for the null
pointer), `chain_` the current node, `ndx_` the next bucket to look at. -/
structure iterator where
  ns_ : Nat
  chain_ : Nat
  ndx_ : Nat

/-- The loop `for (; chain_ == 0 && ndx_ < NHASH; ndx_++) chain_ =
ns_->table[ndx_].chain;` shared by the constructor and `operator++`; `s` is
the table `ns_` points to. -/
def iterator.skip (b : Build) (s : xns K V) : Nat → iterator → Option iterator
  | 0, _ => none
  | fuel + 1, it =>
    if it.chain_ = 0 ∧ it.ndx_ < NHASH b then
      if it.ns_ = 0 then none
      else iterator.skip b s fuel { it with chain_ := s.table it.ndx_, ndx_ := it.ndx_ + 1 }
    else some it

/-- `iterator(xns *ns)`. The constructor tests `ns_` before assigning it, so
the result depends on `junk`, the content of the storage of `ns_` when the
constructor starts. `ns` is the address of the table `s`, `ep` the number of
protected regions open. -/
def iterator.ctor (b : Build) (s : xns K V) (fuel : Nat) (junk : Nat) (ns : Nat) (ep : Int) :
    Option (iterator × Int) :=
  let ep1 := if junk ≠ 0 then gc_begin_epoch ep else ep
  if ns = 0 then none
  else
    (iterator.skip b s fuel { ns_ := ns, chain_ := s.table 0, ndx_ := 1 }).map
      (fun it => (it, ep1))

/-- `iterator()`: the iterator `end()` returns. -/
def iterator.ctor_default (b : Build) : iterator :=
  { ns_ := 0, chain_ := 0, ndx_ := NHASH b }

/-- `~iterator()`. -/
def iterator.dtor (it : iterator) (ep : Int) : Int :=
  if it.ns_ ≠ 0 then gc_end_epoch ep else ep

/-- `operator!=`. -/
def iterator.ne (it other : iterator) : Bool :=
  decide (other.chain_ ≠ it.chain_)

/-- `operator++`. -/
def iterator.inc (b : Build) (s : xns K V) (fuel : Nat) (it : iterator) : Option iterator :=
  if it.chain_ = 0 then none
  else
    match s.mem it.chain_ with
    | none => none
    | some x => iterator.skip b s fuel { it with chain_ := x.next }

/-- `operator*`. -/
def iterator.deref (s : xns K V) (it : iterator) : Option V :=
  if it.chain_ = 0 then none else (s.mem it.chain_).map (fun x => x.val)

/-- `begin()`: `self` is the address of the table, `junk` the prior content
of the storage the iterator is built in. -/
def xns.begin (b : Build) (s : xns K V) (fuel : Nat) (junk : Nat) (self : Nat) (ep : Int) :
    Option (iterator × Int) :=
  iterator.ctor b s fuel junk self ep

/-- `end()`. -/
def xns.end_ (b : Build) : iterator :=
  iterator.ctor_default b

/-- The turns of `for (auto it = ns->begin(); it != ns->end(); ++it)` from
the iterator `it` on: the values `*it` of the turns, in order. -/
def iterate.loop (b : Build) (s : xns K V) (fuel : Nat) : Nat → iterator → Option (List V)
  | 0, _ => none
  | n + 1, it =>
    if it.ne (xns.end_ b) then do
      let v ← it.deref s
      let it1 ← it.inc b s fuel
      let rest ← iterate.loop b s fuel n it1
      pure (v :: rest)
    else some []

/-- A whole iteration: `begin()`, then `operator++` until the iterator
compares equal to `end()`. -/
def iterate (b : Build) (s : xns K V) (fuel : Nat) (junk : Nat) (self : Nat) :
    Option (List V) := do
  let r ← xns.begin b s fuel junk self 0
  iterate.loop b s fuel fuel r.1

end Ops

/-! ## Views of the heap

The four groups of fields of a node, read through the heap.  Every write of
the source changes one of them and leaves the others alone. -/

section Views

variable {K V : Type}

/-- The `next` field of the node at `a`, if there is one. -/
def nextOf (m : Nat → Option (xelem K V)) (a : Nat) : Option Nat :=
  (m a).map (fun x => x.next)

/-- The `key` and `val` fields of the node at `a`. -/
def kvOf (m : Nat → Option (xelem K V)) (a : Nat) : Option (K × V) :=
  (m a).map (fun x => (x.key, x.val))

/-- The `next_lock` field of the node at `a`. -/
def lockOf (m : Nat → Option (xelem K V)) (a : Nat) : Option Int :=
  (m a).map (fun x => x.next_lock)

/-- The `percore_c`, `percore_next` and `percore_pprev` fields of the node
at `a`. -/
def pcOf (m : Nat → Option (xelem K V)) (a : Nat) : Option (Nat × Nat × Option PercoreRef) :=
  (m a).map (fun x => (x.percore_c, x.percore_next, x.percore_pprev))

theorem nextOf_update (m : Nat → Option (xelem K V)) (p : Nat) (y : xelem K V) :
    nextOf (Function.update m p (some y)) = Function.update (nextOf m) p (some y.next) := by
  funext a
  by_cases hap : a = p
  · subst hap; simp [nextOf]
  · simp [nextOf, Function.update_noteq hap]

theorem kvOf_update (m : Nat → Option (xelem K V)) (p : Nat) (y : xelem K V) :
    kvOf (Function.update m p (some y)) = Function.update (kvOf m) p (some (y.key, y.val)) := by
  funext a
  by_cases hap : a = p
  · subst hap; simp [kvOf]
  · simp [kvOf, Function.update_noteq hap]

theorem lockOf_update (m : Nat → Option (xelem K V)) (p : Nat) (y : xelem K V) :
    lockOf (Function.update m p (some y)) = Function.update (lockOf m) p (some y.next_lock) := by
  funext a
  by_cases hap : a = p
  · subst hap; simp [lockOf]
  · simp [lockOf, Function.update_noteq hap]

theorem pcOf_update (m : Nat → Option (xelem K V)) (p : Nat) (y : xelem K V) :
    pcOf (Function.update m p (some y))
      = Function.update (pcOf m) p (some (y.percore_c, y.percore_next, y.percore_pprev)) := by
  funext a
  by_cases hap : a = p
  · subst hap; simp [pcOf]
  · simp [pcOf, Function.update_noteq hap]

theorem nextOf_update_none (m : Nat → Option (xelem K V)) (p : Nat) :
    nextOf (Function.update m p none) = Function.update (nextOf m) p none := by
  funext a
  by_cases hap : a = p
  · subst hap; simp [nextOf]
  · simp [nextOf, Function.update_noteq hap]

theorem kvOf_update_none (m : Nat → Option (xelem K V)) (p : Nat) :
    kvOf (Function.update m p none) = Function.update (kvOf m) p none := by
  funext a
  by_cases hap : a = p
  · subst hap; simp [kvOf]
  · simp [kvOf, Function.update_noteq hap]

theorem lockOf_update_none (m : Nat → Option (xelem K V)) (p : Nat) :
    lockOf (Function.update m p none) = Function.update (lockOf m) p none := by
  funext a
  by_cases hap : a = p
  · subst hap; simp [lockOf]
  · simp [lockOf, Function.update_noteq hap]

theorem pcOf_update_none (m : Nat → Option (xelem K V)) (p : Nat) :
    pcOf (Function.update m p none) = Function.update (pcOf m) p none := by
  funext a
  by_cases hap : a = p
  · subst hap; simp [pcOf]
  · simp [pcOf, Function.update_noteq hap]

theorem update_same_val {α : Type} (f : Nat → α) (p : Nat) (v : α) (hv : f p = v) :
    Function.update f p v = f := by
  subst hv; exact Function.update_eq_self p f

/-- `IsChain nx p l`: following `next` from `p` meets exactly the addresses
of `l`, in this order, and then the null pointer. -/
def IsChain (nx : Nat → Option Nat) : Nat → List Nat → Prop
  | p, [] => p = 0
  | p, a :: l => p = a ∧ a ≠ 0 ∧ ∃ n, nx a = some n ∧ IsChain nx n l

/-- `IsPList pc c r p l`: following `percore_next` from `p` meets exactly
the addresses of `l` and then null; every node met is tagged with the core
`c`, and its `percore_pprev` is the address of the link that points to it
(`r` for the first one). -/
def IsPList (pc : Nat → Option (Nat × Nat × Option PercoreRef)) (c : Nat) :
    PercoreRef → Nat → List Nat → Prop
  | _, p, [] => p = 0
  | r, p, a :: l => p = a ∧ a ≠ 0 ∧ ∃ n, pc a = some (c, n, some r) ∧ IsPList pc c (.next a) n l

theorem IsChain.chain_congr {nx nx1 : Nat → Option Nat} {l : List Nat}
    (hagree : ∀ a ∈ l, nx1 a = nx a) :
    ∀ {p : Nat}, IsChain nx p l → IsChain nx1 p l := by
  induction l with
  | nil => intro p hp; exact hp
  | cons a l ih =>
    intro p hp
    obtain ⟨hpa, ha0, n, hn, hrest⟩ := hp
    refine ⟨hpa, ha0, n, ?_, ih (fun a1 h1 => hagree a1 (List.mem_cons_of_mem _ h1)) hrest⟩
    rw [hagree a (List.mem_cons_self _ _)]; exact hn

theorem IsPList.plist_congr {pc pc1 : Nat → Option (Nat × Nat × Option PercoreRef)} {c : Nat}
    {l : List Nat} (hagree : ∀ a ∈ l, pc1 a = pc a) :
    ∀ {r : PercoreRef} {p : Nat}, IsPList pc c r p l → IsPList pc1 c r p l := by
  induction l with
  | nil => intro r p hp; exact hp
  | cons a l ih =>
    intro r p hp
    obtain ⟨hpa, ha0, n, hn, hrest⟩ := hp
    refine ⟨hpa, ha0, n, ?_, ih (fun a1 h1 => hagree a1 (List.mem_cons_of_mem _ h1)) hrest⟩
    rw [hagree a (List.mem_cons_self _ _)]; exact hn

theorem IsChain.unique {nx : Nat → Option Nat} {l : List Nat} :
    ∀ {l1 : List Nat} {p : Nat}, IsChain nx p l → IsChain nx p l1 → l = l1 := by
  induction l with
  | nil =>
    intro l1 p hp hp1
    cases l1 with
    | nil => rfl
    | cons a1 l1 =>
      obtain ⟨hpa, ha0, _⟩ := hp1
      exact absurd (hpa.symm.trans hp) ha0
  | cons a l ih =>
    intro l1 p hp hp1
    obtain ⟨hpa, ha0, n, hn, hrest⟩ := hp
    cases l1 with
    | nil => exact absurd (hpa.symm.trans hp1) ha0
    | cons a1 l1 =>
      obtain ⟨hpa1, _, n1, hn1, hrest1⟩ := hp1
      have haa : a = a1 := hpa.symm.trans hpa1
      subst haa
      rw [hn] at hn1
      cases hn1
      rw [ih hrest hrest1]

theorem IsChain.ne_zero {nx : Nat → Option Nat} {l : List Nat} :
    ∀ {p : Nat}, IsChain nx p l → ∀ a ∈ l, a ≠ 0 := by
  induction l with
  | nil => intro p _ a ha; cases ha
  | cons a l ih =>
    intro p hp a1 ha1
    obtain ⟨_, ha0, n, _, hrest⟩ := hp
    rcases List.mem_cons.1 ha1 with h1 | h1
    · rw [h1]; exact ha0
    · exact ih hrest a1 h1

theorem IsPList.tagged {pc : Nat → Option (Nat × Nat × Option PercoreRef)} {c : Nat}
    {l : List Nat} :
    ∀ {r : PercoreRef} {p : Nat}, IsPList pc c r p l →
      ∀ a ∈ l, a ≠ 0 ∧ ∃ n r1, pc a = some (c, n, some r1) := by
  induction l with
  | nil => intro r p _ a ha; cases ha
  | cons a l ih =>
    intro r p hp a1 ha1
    obtain ⟨_, ha0, n, hn, hrest⟩ := hp
    rcases List.mem_cons.1 ha1 with h1 | h1
    · rw [h1]; exact ⟨ha0, n, r, hn⟩
    · exact ih hrest a1 h1

/-- What the operations can see of a state: the fields of the table and the
four views of the heap. -/
structure Views (K V : Type) where
  allowdup : Bool
  table : Nat → Nat
  percore : Nat → Nat
  nx : Nat → Option Nat
  kv : Nat → Option (K × V)
  lk : Nat → Option Int
  pc : Nat → Option (Nat × Nat × Option PercoreRef)
  brk : Nat
  delayed : List Nat

/-- The views of a state. -/
def xns.views (s : xns K V) : Views K V :=
  { allowdup := s.allowdup, table := s.table, percore := s.percore,
    nx := nextOf s.mem, kv := kvOf s.mem, lk := lockOf s.mem, pc := pcOf s.mem,
    brk := s.brk, delayed := s.delayed }

theorem mem_of_nx {s : xns K V} {a n : Nat} (hn : s.views.nx a = some n) :
    ∃ x, s.mem a = some x ∧ x.next = n := by
  simp only [xns.views, nextOf, Option.map_eq_some'] at hn
  exact hn

theorem mem_of_kv {s : xns K V} {a : Nat} {k : K} {v : V} (hn : s.views.kv a = some (k, v)) :
    ∃ x, s.mem a = some x ∧ x.key = k ∧ x.val = v := by
  simp only [xns.views, kvOf, Option.map_eq_some', Prod.mk.injEq] at hn
  exact hn

theorem mem_of_lk {s : xns K V} {a : Nat} {n : Int} (hn : s.views.lk a = some n) :
    ∃ x, s.mem a = some x ∧ x.next_lock = n := by
  simp only [xns.views, lockOf, Option.map_eq_some'] at hn
  exact hn

theorem mem_of_pc {s : xns K V} {a : Nat} {c : Nat} {n : Nat} {r : Option PercoreRef}
    (hn : s.views.pc a = some (c, n, r)) :
    ∃ x, s.mem a = some x ∧ x.percore_c = c ∧ x.percore_next = n ∧ x.percore_pprev = r := by
  simp only [xns.views, pcOf, Option.map_eq_some', Prod.mk.injEq] at hn
  exact hn

theorem nx_of_mem {s : xns K V} {a : Nat} {x : xelem K V} (hx : s.mem a = some x) :
    s.views.nx a = some x.next := by
  simp [xns.views, nextOf, hx]

theorem kv_of_mem {s : xns K V} {a : Nat} {x : xelem K V} (hx : s.mem a = some x) :
    s.views.kv a = some (x.key, x.val) := by
  simp [xns.views, kvOf, hx]

theorem lk_of_mem {s : xns K V} {a : Nat} {x : xelem K V} (hx : s.mem a = some x) :
    s.views.lk a = some x.next_lock := by
  simp [xns.views, lockOf, hx]

theorem pc_of_mem {s : xns K V} {a : Nat} {x : xelem K V} (hx : s.mem a = some x) :
    s.views.pc a = some (x.percore_c, x.percore_next, x.percore_pprev) := by
  simp [xns.views, pcOf, hx]

theorem upd_some {s : xns K V} {p : Nat} {x : xelem K V} (hx : s.mem p = some x)
    (f : xelem K V → xelem K V) :
    s.upd p f = some { s with mem := Function.update s.mem p (some (f x)) } := by
  simp only [xns.upd, hx]

/-- A write of `next`. -/
theorem upd_next {s : xns K V} {p : Nat} {x : xelem K V} (hx : s.mem p = some x) (v : Nat) :
    ∃ s1, s.upd p (fun y => { y with next := v }) = some s1 ∧
      s1.views = { s.views with nx := Function.update s.views.nx p (some v) } := by
  refine ⟨_, upd_some hx _, ?_⟩
  simp only [xns.views, nextOf_update, kvOf_update, lockOf_update, pcOf_update]
  rw [update_same_val (kvOf s.mem) p _ (by simp [kvOf, hx]),
    update_same_val (lockOf s.mem) p _ (by simp [lockOf, hx]),
    update_same_val (pcOf s.mem) p _ (by simp [pcOf, hx])]

/-- A write of `next_lock`. -/
theorem upd_lock {s : xns K V} {p : Nat} {x : xelem K V} (hx : s.mem p = some x) (v : Int) :
    ∃ s1, s.upd p (fun y => { y with next_lock := v }) = some s1 ∧
      s1.views = { s.views with lk := Function.update s.views.lk p (some v) } := by
  refine ⟨_, upd_some hx _, ?_⟩
  simp only [xns.views, nextOf_update, kvOf_update, lockOf_update, pcOf_update]
  rw [update_same_val (kvOf s.mem) p _ (by simp [kvOf, hx]),
    update_same_val (nextOf s.mem) p _ (by simp [nextOf, hx]),
    update_same_val (pcOf s.mem) p _ (by simp [pcOf, hx])]

/-- A write of `percore_c`. -/
theorem upd_percore_c {s : xns K V} {p : Nat} {x : xelem K V} (hx : s.mem p = some x)
    (v : Nat) :
    ∃ s1, s.upd p (fun y => { y with percore_c := v }) = some s1 ∧
      s1.views = { s.views with
        pc := Function.update s.views.pc p (some (v, x.percore_next, x.percore_pprev)) } := by
  refine ⟨_, upd_some hx _, ?_⟩
  simp only [xns.views, nextOf_update, kvOf_update, lockOf_update, pcOf_update]
  rw [update_same_val (kvOf s.mem) p _ (by simp [kvOf, hx]),
    update_same_val (nextOf s.mem) p _ (by simp [nextOf, hx]),
    update_same_val (lockOf s.mem) p _ (by simp [lockOf, hx])]

/-- A write of `percore_next`. -/
theorem upd_percore_next {s : xns K V} {p : Nat} {x : xelem K V} (hx : s.mem p = some x)
    (v : Nat) :
    ∃ s1, s.upd p (fun y => { y with percore_next := v }) = some s1 ∧
      s1.views = { s.views with
        pc := Function.update s.views.pc p (some (x.percore_c, v, x.percore_pprev)) } := by
  refine ⟨_, upd_some hx _, ?_⟩
  simp only [xns.views, nextOf_update, kvOf_update, lockOf_update, pcOf_update]
  rw [update_same_val (kvOf s.mem) p _ (by simp [kvOf, hx]),
    update_same_val (nextOf s.mem) p _ (by simp [nextOf, hx]),
    update_same_val (lockOf s.mem) p _ (by simp [lockOf, hx])]

/-- A write of `percore_pprev`. -/
theorem upd_percore_pprev {s : xns K V} {p : Nat} {x : xelem K V} (hx : s.mem p = some x)
    (v : Option PercoreRef) :
    ∃ s1, s.upd p (fun y => { y with percore_pprev := v }) = some s1 ∧
      s1.views = { s.views with
        pc := Function.update s.views.pc p (some (x.percore_c, x.percore_next, v)) } := by
  refine ⟨_, upd_some hx _, ?_⟩
  simp only [xns.views, nextOf_update, kvOf_update, lockOf_update, pcOf_update]
  rw [update_same_val (kvOf s.mem) p _ (by simp [kvOf, hx]),
    update_same_val (nextOf s.mem) p _ (by simp [nextOf, hx]),
    update_same_val (lockOf s.mem) p _ (by simp [lockOf, hx])]

/-- The abstraction invariant: `ch i` lists the nodes of bucket `i` and
`pl c` the nodes of the per-core list `c`, both in link order. -/
structure Abs (b : Build) (HF : K → Nat) (w : Views K V) (ch pl : Nat → List Nat) : Prop where
  chain : ∀ i, IsChain w.nx (w.table i) (ch i)
  nodup : ∀ i, (ch i).Nodup
  keyed : ∀ i a, a ∈ ch i → ∃ k v, w.kv a = some (k, v) ∧ h b HF k = i
  unlocked : ∀ i a, a ∈ ch i → w.lk a = some 0
  plist : ∀ c, IsPList w.pc c (.head c) (w.percore c) (pl c)
  pnodup : ∀ c, (pl c).Nodup
  pcpu : ∀ c a, a ∈ pl c → c < b.NCPU
  same : ∀ a, (∃ i, a ∈ ch i) ↔ (∃ c, a ∈ pl c)
  below : ∀ i a, a ∈ ch i → a < w.brk
  queued : ∀ a, a ∈ w.delayed → a < w.brk ∧ ∀ i, a ∉ ch i
  brk_pos : 0 < w.brk
  uniq : w.allowdup = false → ∀ i a a1 k v v1, a ∈ ch i → a1 ∈ ch i →
    w.kv a = some (k, v) → w.kv a1 = some (k, v1) → a = a1

theorem Abs.ctor (b : Build) (HF : K → Nat) (dup : Bool) :
    Abs b HF (xns.ctor dup : xns K V).views (fun _ => []) (fun _ => []) := by
  constructor <;> simp [xns.views, xns.ctor, IsChain, IsPList]

/-- `Walk m p xs`: following `next` from `p` in the heap `m` meets the nodes
`xs` (address and contents) and then null. -/
def Walk (m : Nat → Option (xelem K V)) : Nat → List (Nat × xelem K V) → Prop
  | p, [] => p = 0
  | p, e :: xs => p = e.1 ∧ e.1 ≠ 0 ∧ m e.1 = some e.2 ∧ Walk m e.2.next xs

/-- `PWalk m p xs`: the same along `percore_next`. -/
def PWalk (m : Nat → Option (xelem K V)) : Nat → List (Nat × xelem K V) → Prop
  | p, [] => p = 0
  | p, e :: xs => p = e.1 ∧ e.1 ≠ 0 ∧ m e.1 = some e.2 ∧ PWalk m e.2.percore_next xs

theorem Walk.of_chain {s : xns K V} {l : List Nat} :
    ∀ {p : Nat}, IsChain s.views.nx p l →
      ∃ xs, Walk s.mem p xs ∧ xs.map Prod.fst = l := by
  induction l with
  | nil => intro p hp; exact ⟨[], hp, rfl⟩
  | cons a l ih =>
    intro p hp
    obtain ⟨hpa, ha0, n, hn, hrest⟩ := hp
    obtain ⟨x, hx, hxn⟩ := mem_of_nx hn
    obtain ⟨xs, hxs, hmap⟩ := ih hrest
    refine ⟨(a, x) :: xs, ⟨hpa, ha0, hx, ?_⟩, by simp [hmap]⟩
    rw [hxn]; exact hxs

theorem PWalk.of_plist {s : xns K V} {c : Nat} {l : List Nat} :
    ∀ {r : PercoreRef} {p : Nat}, IsPList s.views.pc c r p l →
      ∃ xs, PWalk s.mem p xs ∧ xs.map Prod.fst = l := by
  induction l with
  | nil => intro r p hp; exact ⟨[], hp, rfl⟩
  | cons a l ih =>
    intro r p hp
    obtain ⟨hpa, ha0, n, hn, hrest⟩ := hp
    obtain ⟨x, hx, _, hxn, _⟩ := mem_of_pc hn
    obtain ⟨xs, hxs, hmap⟩ := ih hrest
    refine ⟨(a, x) :: xs, ⟨hpa, ha0, hx, ?_⟩, by simp [hmap]⟩
    rw [hxn]; exact hxs

theorem Walk.walk_mem {m : Nat → Option (xelem K V)} {xs : List (Nat × xelem K V)} :
    ∀ {p : Nat}, Walk m p xs → ∀ e ∈ xs, m e.1 = some e.2 := by
  induction xs with
  | nil => intro p _ e he; cases he
  | cons e0 xs ih =>
    intro p hp e he
    obtain ⟨_, _, hm, hrest⟩ := hp
    rcases List.mem_cons.1 he with h1 | h1
    · rw [h1]; exact hm
    · exact ih hrest e h1

theorem PWalk.pwalk_mem {m : Nat → Option (xelem K V)} {xs : List (Nat × xelem K V)} :
    ∀ {p : Nat}, PWalk m p xs → ∀ e ∈ xs, m e.1 = some e.2 := by
  induction xs with
  | nil => intro p _ e he; cases he
  | cons e0 xs ih =>
    intro p hp e he
    obtain ⟨_, _, hm, hrest⟩ := hp
    rcases List.mem_cons.1 he with h1 | h1
    · rw [h1]; exact hm
    · exact ih hrest e h1

/-- A duplicate-free list of addresses in `[1, n)` has fewer than `n`
elements. -/
theorem length_lt_of_nodup {l : List Nat} {n : Nat} (hn : 0 < n) (hnd : l.Nodup)
    (hb : ∀ a ∈ l, a ≠ 0 ∧ a < n) : l.length < n := by
  have hsub : l ⊆ List.range' 1 (n - 1) := by
    intro a ha
    obtain ⟨h0, hlt⟩ := hb a ha
    rw [List.mem_range'_1]
    constructor <;> omega
  have hle := (List.Nodup.subperm hnd hsub).length_le
  rw [List.length_range'] at hle
  omega

theorem Abs.chain_length {b : Build} {HF : K → Nat} {w : Views K V} {ch pl : Nat → List Nat}
    (A : Abs b HF w ch pl) (i : Nat) : (ch i).length < w.brk :=
  length_lt_of_nodup A.brk_pos (A.nodup i)
    (fun a ha => ⟨(A.chain i).ne_zero a ha, A.below i a ha⟩)

theorem Abs.plist_length {b : Build} {HF : K → Nat} {w : Views K V} {ch pl : Nat → List Nat}
    (A : Abs b HF w ch pl) (c : Nat) : (pl c).length < w.brk := by
  refine length_lt_of_nodup A.brk_pos (A.pnodup c) (fun a ha => ?_)
  obtain ⟨i, hi⟩ := (A.same a).2 ⟨c, ha⟩
  exact ⟨(A.chain i).ne_zero a hi, A.below i a hi⟩

/-- The per-core fields after `insert.link`. -/
def linkPc (pc : Nat → Option (Nat × Nat × Option PercoreRef)) (q c e : Nat) :
    Nat → Option (Nat × Nat × Option PercoreRef) :=
  Function.update
    (if q = 0 then pc
     else Function.update pc q ((pc q).map (fun t => (t.1, t.2.1, some (PercoreRef.next e)))))
    e (some (c, q, some (PercoreRef.head c)))

theorem linkPc_update (pc : Nat → Option (Nat × Nat × Option PercoreRef)) {q e : Nat} (c : Nat)
    (t : Option (Nat × Nat × Option PercoreRef)) (hne : q ≠ e) :
    linkPc (Function.update pc e t) q c e = linkPc pc q c e := by
  funext a
  unfold linkPc
  by_cases hq : q = 0
  · simp [hq]
  · by_cases ha : a = e
    · subst ha; simp
    · simp [hq, Function.update_noteq ha, Function.update_noteq hne]
      by_cases haq : a = q
      · subst haq; simp
      · simp [Function.update_noteq haq, Function.update_noteq ha]

theorem insert.link_views {s : xns K V} {c e : Nat} {x : xelem K V} (hx : s.mem e = some x)
    (hp : s.percore c ≠ 0 → ∃ y, s.mem (s.percore c) = some y) (hne : s.percore c ≠ e) :
    ∃ s1, insert.link s c e = some s1 ∧
      s1.views = { s.views with percore := Function.update s.percore c e,
                                pc := linkPc s.views.pc (s.percore c) c e } := by
  by_cases hq : s.percore c = 0
  · refine ⟨_, by simp [insert.link, xns.upd, hx, hq]; rfl, ?_⟩
    simp [xns.views, linkPc, hq, nextOf_update, kvOf_update, lockOf_update, pcOf_update]
    simp [nextOf, kvOf, lockOf, hx]
  · obtain ⟨y, hy⟩ := hp hq
    refine ⟨_, by simp [insert.link, xns.upd, hx, hq, hy, hne, hne.symm, Function.update_noteq]; rfl, ?_⟩
    simp [xns.views, linkPc, hq, nextOf_update, kvOf_update, lockOf_update, pcOf_update]
    refine ⟨?_, ?_, ?_, ?_⟩ <;>
      (funext a; simp only [Function.update_apply]; split_ifs <;>
        simp_all [nextOf, kvOf, lockOf, pcOf])

theorem Walk.walk_congr {m m1 : Nat → Option (xelem K V)} {xs : List (Nat × xelem K V)}
    (hagree : ∀ e ∈ xs, m1 e.1 = m e.1) :
    ∀ {p : Nat}, Walk m p xs → Walk m1 p xs := by
  induction xs with
  | nil => intro p hp; exact hp
  | cons e xs ih =>
    intro p hp
    obtain ⟨hpe, he0, hm, hrest⟩ := hp
    refine ⟨hpe, he0, ?_, ih (fun e1 h1 => hagree e1 (List.mem_cons_of_mem _ h1)) hrest⟩
    rw [hagree e (List.mem_cons_self _ _)]; exact hm

end Views

/-! ## The loops on a well-formed chain -/

section Loops

variable {K V : Type} [DecidableEq K]

theorem insert.scan_walk {s : xns K V} (key : K) {xs : List (Nat × xelem K V)} :
    ∀ {fuel : Nat} {p : Nat}, Walk s.mem p xs → xs.length < fuel →
      insert.scan s key fuel p = some (xs.any (fun e => decide (e.2.key = key))) := by
  induction xs with
  | nil =>
    intro fuel p hp hf
    cases fuel with
    | zero => cases hf
    | succ f => simp [insert.scan, show p = 0 from hp]
  | cons e xs ih =>
    intro fuel p hp hf
    obtain ⟨hpe, he0, hm, hrest⟩ := hp
    cases fuel with
    | zero => cases hf
    | succ f =>
      have hf1 : xs.length < f := by simpa using hf
      by_cases hk : e.2.key = key
      · simp [insert.scan, hpe, he0, hm, hk]
      · simp [insert.scan, hpe, he0, hm, hk, ih hrest hf1]

/-- The views after a successful `insert` of `(key, val)` in bucket `i` by
the worker `c`. -/
def Views.inserted (w : Views K V) (c i : Nat) (key : K) (val : V) : Views K V :=
  { w with
    table := Function.update w.table i w.brk
    percore := Function.update w.percore c w.brk
    nx := Function.update w.nx w.brk (some (w.table i))
    kv := Function.update w.kv w.brk (some (key, val))
    lk := Function.update w.lk w.brk (some 0)
    pc := linkPc w.pc (w.percore c) c w.brk
    brk := w.brk + 1 }

/-- The views after an `insert` of `(key, val)` that met an equal key. -/
def Views.rejected (w : Views K V) (key : K) (val : V) : Views K V :=
  { w with
    nx := Function.update w.nx w.brk (some 0)
    kv := Function.update w.kv w.brk (some (key, val))
    lk := Function.update w.lk w.brk (some 0)
    pc := Function.update w.pc w.brk (some (0, 0, none))
    brk := w.brk + 1
    delayed := w.brk :: w.delayed }

theorem insert_null (b : Build) (HF : K → Nat) (fuel : Nat) (s : xns K V) (c : Nat)
    (key : K) (val : V) :
    insert b HF fuel s c false key val = some (-1, s) := by
  simp [insert, new_xelem]

theorem insert.loop_dup {s : xns K V} (c : Nat) (key : K) (e i : Nat) {fuel : Nat} (n : Nat)
    {xs : List (Nat × xelem K V)} (hw : Walk s.mem (s.table i) xs) (hf : xs.length < fuel)
    (hdup : s.allowdup = false) (hany : xs.any (fun e => decide (e.2.key = key)) = true) :
    insert.loop c key e i fuel (n + 1) s = some (-1, gc_delayed s e) := by
  simp [insert.loop, hdup, insert.scan_walk key hw hf, hany]

theorem insert.loop_ok {s : xns K V} {c : Nat} (key : K) {e i : Nat} {fuel : Nat} (n : Nat)
    {xs : List (Nat × xelem K V)} (hw : Walk s.mem (s.table i) xs) (hf : xs.length < fuel)
    (hdup : s.allowdup = true ∨ xs.any (fun e => decide (e.2.key = key)) = false)
    {x : xelem K V} (hx : s.mem e = some x)
    (hp : s.percore c ≠ 0 → ∃ y, s.mem (s.percore c) = some y) (hne : s.percore c ≠ e) :
    ∃ s1, insert.loop c key e i fuel (n + 1) s = some (0, s1) ∧
      s1.views = { s.views with
        table := Function.update s.table i e
        nx := Function.update s.views.nx e (some (s.table i))
        percore := Function.update s.percore c e
        pc := linkPc s.views.pc (s.percore c) c e } := by
  have hscan : (if (!s.allowdup) = true then insert.scan s key fuel (s.table i) else some false)
      = some false := by
    rcases hdup with hd | hd
    · simp [hd]
    · cases hal : s.allowdup
      · simp [insert.scan_walk key hw hf, hd]
      · simp
  obtain ⟨s1, hl, hv⟩ := insert.link_views
    (s := { s with mem := Function.update s.mem e (some { x with next := s.table i }),
                   table := Function.update s.table i e })
    (c := c) (e := e) (x := { x with next := s.table i }) (by simp)
    (by
      intro hq
      obtain ⟨y, hy⟩ := hp hq
      by_cases hqe : s.percore c = e
      · exact absurd hqe hne
      · exact ⟨y, by simp [Function.update_noteq hqe, hy]⟩) hne
  refine ⟨s1, ?_, ?_⟩
  · simp only [insert.loop, hscan]
    simp [xns.upd, hx, loadLink, cmpxchLink, storeLink, hl]
  · rw [hv]
    simp only [xns.views, nextOf_update, kvOf_update, lockOf_update, pcOf_update,
      linkPc_update _ _ _ hne]
    rw [update_same_val (kvOf s.mem) e _ (by simp [kvOf, hx]),
      update_same_val (lockOf s.mem) e _ (by simp [lockOf, hx])]

theorem insert_dup (b : Build) (HF : K → Nat) {fuel : Nat} {s : xns K V} (c : Nat)
    (key : K) (val : V) {xs : List (Nat × xelem K V)}
    (hw : Walk s.mem (s.table (h b HF key)) xs) (hf : xs.length < fuel)
    (hfresh : ∀ e ∈ xs, e.1 ≠ s.brk) (hbrk : s.brk ≠ 0)
    (hdup : s.allowdup = false) (hany : xs.any (fun e => decide (e.2.key = key)) = true) :
    ∃ s1, insert b HF fuel s c true key val = some (-1, s1) ∧
      s1.views = s.views.rejected key val := by
  cases fuel with
  | zero => cases hf
  | succ n =>
    have hl := insert.loop_dup
      (s := { s with mem := Function.update s.mem s.brk (some (xelem.ctor key val)),
                     brk := s.brk + 1 })
      c key s.brk (h b HF key) n
      (Walk.walk_congr (fun e he => Function.update_noteq (hfresh e he) _ _) hw) hf hdup hany
    refine ⟨_, by simp only [insert, new_xelem, if_true, if_neg hbrk, hl]; rfl, ?_⟩
    simp [xns.views, Views.rejected, gc_delayed, nextOf_update, kvOf_update, lockOf_update,
      pcOf_update, xelem.ctor]

theorem insert_ok (b : Build) (HF : K → Nat) {fuel : Nat} {s : xns K V} {c : Nat}
    (key : K) (val : V) {xs : List (Nat × xelem K V)}
    (hw : Walk s.mem (s.table (h b HF key)) xs) (hf : xs.length < fuel)
    (hfresh : ∀ e ∈ xs, e.1 ≠ s.brk) (hbrk : s.brk ≠ 0)
    (hdup : s.allowdup = true ∨ xs.any (fun e => decide (e.2.key = key)) = false)
    (hp : s.percore c ≠ 0 → ∃ y, s.mem (s.percore c) = some y) (hne : s.percore c ≠ s.brk) :
    ∃ s1, insert b HF fuel s c true key val = some (0, s1) ∧
      s1.views = s.views.inserted c (h b HF key) key val := by
  cases fuel with
  | zero => cases hf
  | succ n =>
    obtain ⟨s1, hl, hv⟩ := insert.loop_ok
      (s := { s with mem := Function.update s.mem s.brk (some (xelem.ctor key val)),
                     brk := s.brk + 1 })
      (c := c) key (e := s.brk) (i := h b HF key) n
      (Walk.walk_congr (fun e he => Function.update_noteq (hfresh e he) _ _) hw) hf hdup
      (x := xelem.ctor key val) (by simp)
      (by
        intro hq
        obtain ⟨y, hy⟩ := hp hq
        exact ⟨y, by simp [Function.update_noteq hne, hy]⟩) hne
    refine ⟨s1, by simp only [insert, new_xelem, if_true, if_neg hbrk, hl], ?_⟩
    rw [hv]
    simp only [xns.views, Views.inserted, nextOf_update, kvOf_update, lockOf_update,
      pcOf_update, linkPc_update _ _ _ hne, Function.update_idem, xelem.ctor]

end Loops

/-! ## The invariant is kept by `insert` -/

section KeepInsert

variable {K V : Type}

theorem linkPc_apply (pc : Nat → Option (Nat × Nat × Option PercoreRef)) (q c e a : Nat) :
    linkPc pc q c e a =
      if a = e then some (c, q, some (PercoreRef.head c))
      else if q ≠ 0 ∧ a = q then
        (pc q).map (fun t => (t.1, t.2.1, some (PercoreRef.next e)))
      else pc a := by
  unfold linkPc
  by_cases ha : a = e
  · subst ha; simp
  · by_cases hq : q = 0
    · simp [ha, hq, Function.update_noteq ha]
    · by_cases haq : a = q
      · subst haq; simp [ha, hq, Function.update_noteq ha]
      · simp [ha, hq, haq, Function.update_noteq ha, Function.update_noteq haq]

theorem Abs.mem_plist {b : Build} {HF : K → Nat} {w : Views K V} {ch pl : Nat → List Nat}
    (A : Abs b HF w ch pl) {c a : Nat} (ha : a ∈ pl c) : a ≠ 0 ∧ a < w.brk := by
  obtain ⟨i, hi⟩ := (A.same a).2 ⟨c, ha⟩
  exact ⟨(A.chain i).ne_zero a hi, A.below i a hi⟩

theorem Abs.rejected {b : Build} {HF : K → Nat} {w : Views K V} {ch pl : Nat → List Nat}
    (A : Abs b HF w ch pl) (key : K) (val : V) : Abs b HF (w.rejected key val) ch pl := by
  have hch : ∀ i a, a ∈ ch i → a ≠ w.brk := fun i a ha => Nat.ne_of_lt (A.below i a ha)
  have hpl : ∀ c a, a ∈ pl c → a ≠ w.brk := fun c a ha => Nat.ne_of_lt (A.mem_plist ha).2
  refine
    { chain := fun i => IsChain.chain_congr (fun a ha => ?_) (A.chain i)
      nodup := A.nodup
      keyed := fun i a ha => ?_
      unlocked := fun i a ha => ?_
      plist := fun c => IsPList.plist_congr (fun a ha => ?_) (A.plist c)
      pnodup := A.pnodup
      pcpu := A.pcpu
      same := A.same
      below := fun i a ha => Nat.lt_succ_of_lt (A.below i a ha)
      queued := fun a ha => ?_
      brk_pos := Nat.succ_pos _
      uniq := fun hd i a a1 k v v1 ha ha1 hk hk1 => ?_ }
  · exact Function.update_noteq (hch i a ha) _ _
  · obtain ⟨k, v, hkv, hh⟩ := A.keyed i a ha
    exact ⟨k, v, by simp [Views.rejected, Function.update_noteq (hch i a ha), hkv], hh⟩
  · simp [Views.rejected, Function.update_noteq (hch i a ha), A.unlocked i a ha]
  · exact Function.update_noteq (hpl c a ha) _ _
  · rcases List.mem_cons.1 ha with h1 | h1
    · subst h1
      exact ⟨Nat.lt_succ_self _, fun i hi => hch i _ hi rfl⟩
    · exact ⟨Nat.lt_succ_of_lt (A.queued a h1).1, (A.queued a h1).2⟩
  · simp only [Views.rejected, Function.update_noteq (hch i a ha),
      Function.update_noteq (hch i a1 ha1)] at hk hk1
    exact A.uniq hd i a a1 k v v1 ha ha1 hk hk1

theorem IsPList.plist_head {pc : Nat → Option (Nat × Nat × Option PercoreRef)} {c : Nat}
    {r : PercoreRef} {p : Nat} {l : List Nat} (hl : IsPList pc c r p l) :
    p = 0 ∧ l = [] ∨ p ≠ 0 ∧ ∃ t, l = p :: t := by
  cases l with
  | nil => exact Or.inl ⟨hl, rfl⟩
  | cons a t =>
    obtain ⟨hpa, ha0, _⟩ := hl
    subst hpa
    exact Or.inr ⟨ha0, t, rfl⟩

theorem IsChain.chain_head {nx : Nat → Option Nat} {p : Nat} {l : List Nat}
    (hl : IsChain nx p l) : p = 0 ∧ l = [] ∨ p ≠ 0 ∧ ∃ t, l = p :: t := by
  cases l with
  | nil => exact Or.inl ⟨hl, rfl⟩
  | cons a t =>
    obtain ⟨hpa, ha0, _⟩ := hl
    subst hpa
    exact Or.inr ⟨ha0, t, rfl⟩

theorem Abs.inserted {b : Build} {HF : K → Nat} {w : Views K V} {ch pl : Nat → List Nat}
    (A : Abs b HF w ch pl) {c : Nat} (hc : c < b.NCPU) (key : K) (val : V)
    (hdup : w.allowdup = true ∨ ∀ a ∈ ch (h b HF key), ∀ v, w.kv a ≠ some (key, v)) :
    Abs b HF (w.inserted c (h b HF key) key val)
      (Function.update ch (h b HF key) (w.brk :: ch (h b HF key)))
      (Function.update pl c (w.brk :: pl c)) := by
  have hch : ∀ i a, a ∈ ch i → a ≠ w.brk := fun i a ha => Nat.ne_of_lt (A.below i a ha)
  have hpl : ∀ c a, a ∈ pl c → a ≠ w.brk := fun c a ha => Nat.ne_of_lt (A.mem_plist ha).2
  have hb0 : w.brk ≠ 0 := Nat.pos_iff_ne_zero.1 A.brk_pos
  have hmem : ∀ j a, a ∈ Function.update ch (h b HF key) (w.brk :: ch (h b HF key)) j →
      (a = w.brk ∧ j = h b HF key) ∨ a ∈ ch j := by
    intro j a ha
    by_cases hj : j = h b HF key
    · subst hj
      rw [Function.update_same] at ha
      rcases List.mem_cons.1 ha with h1 | h1
      · exact Or.inl ⟨h1, rfl⟩
      · exact Or.inr h1
    · rw [Function.update_noteq hj] at ha; exact Or.inr ha
  have hpmem : ∀ j a, a ∈ Function.update pl c (w.brk :: pl c) j →
      (a = w.brk ∧ j = c) ∨ a ∈ pl j := by
    intro j a ha
    by_cases hj : j = c
    · subst hj
      rw [Function.update_same] at ha
      rcases List.mem_cons.1 ha with h1 | h1
      · exact Or.inl ⟨h1, rfl⟩
      · exact Or.inr h1
    · rw [Function.update_noteq hj] at ha; exact Or.inr ha
  have hkv : ∀ a, a ≠ w.brk → (w.inserted c (h b HF key) key val).kv a = w.kv a :=
    fun a ha => Function.update_noteq ha _ _
  refine
    { chain := fun j => ?_
      nodup := fun j => ?_
      keyed := fun j a ha => ?_
      unlocked := fun j a ha => ?_
      plist := fun j => ?_
      pnodup := fun j => ?_
      pcpu := fun j a ha => ?_
      same := fun a => ?_
      below := fun j a ha => ?_
      queued := fun a ha => ?_
      brk_pos := Nat.succ_pos _
      uniq := fun hd j a a1 k v v1 ha ha1 hk hk1 => ?_ }
  · -- chain
    have hold : IsChain (w.inserted c (h b HF key) key val).nx (w.table j) (ch j) :=
      IsChain.chain_congr (fun a ha => Function.update_noteq (hch j a ha) _ _) (A.chain j)
    by_cases hj : j = h b HF key
    · subst hj
      simp only [Views.inserted, Function.update_same]
      exact ⟨rfl, hb0, w.table (h b HF key), Function.update_same _ _ _, hold⟩
    · simp only [Views.inserted, Function.update_noteq hj]
      exact hold
  · -- nodup
    by_cases hj : j = h b HF key
    · subst hj
      rw [Function.update_same]
      exact List.nodup_cons.2 ⟨fun hin => hch _ _ hin rfl, A.nodup _⟩
    · rw [Function.update_noteq hj]; exact A.nodup j
  · -- keyed
    rcases hmem j a ha with ⟨h1, h2⟩ | h1
    · subst h1; subst h2
      exact ⟨key, val, Function.update_same _ _ _, rfl⟩
    · obtain ⟨k, v, hk, hh⟩ := A.keyed j a h1
      exact ⟨k, v, (hkv a (hch j a h1)).trans hk, hh⟩
  · -- unlocked
    rcases hmem j a ha with ⟨h1, _⟩ | h1
    · subst h1; exact Function.update_same _ _ _
    · exact (Function.update_noteq (hch j a h1) _ _).trans (A.unlocked j a h1)
  · -- plist
    by_cases hj : j = c
    · subst hj
      simp only [Views.inserted, Function.update_same]
      refine ⟨rfl, hb0, w.percore j, by simp [linkPc_apply], ?_⟩
      have hP := A.plist j
      rcases hP.plist_head with ⟨hq0, hnil⟩ | ⟨hq0, t, hcons⟩
      · rw [hnil, hq0]; rfl
      · rw [hcons] at hP ⊢
        obtain ⟨_, _, n, hn, hrest⟩ := hP
        have hqin : w.percore j ∈ pl j := by rw [hcons]; exact List.mem_cons_self _ _
        have hnd : (w.percore j :: t).Nodup := by rw [← hcons]; exact A.pnodup j
        refine ⟨rfl, hq0, n, ?_, IsPList.plist_congr (fun a ha => ?_) hrest⟩
        · simp [linkPc_apply, hpl j _ hqin, hq0, hn]
        · have hain : a ∈ pl j := by rw [hcons]; exact List.mem_cons_of_mem _ ha
          have haq : a ≠ w.percore j := fun hh =>
            (List.nodup_cons.1 hnd).1 (hh ▸ ha)
          simp [linkPc_apply, hpl j a hain, haq]
    · simp only [Views.inserted, Function.update_noteq hj]
      refine IsPList.plist_congr (fun a ha => ?_) (A.plist j)
      have haq : ¬ (w.percore c ≠ 0 ∧ a = w.percore c) := by
        rintro ⟨hq0, hh⟩
        rcases (A.plist c).plist_head with ⟨hz, _⟩ | ⟨_, t, hcons⟩
        · exact hq0 hz
        · have hqin : w.percore c ∈ pl c := by rw [hcons]; exact List.mem_cons_self _ _
          obtain ⟨_, n1, r1, h1⟩ := (A.plist c).tagged _ hqin
          obtain ⟨_, n2, r2, h2⟩ := (A.plist j).tagged a ha
          rw [hh, h1] at h2
          simp only [Option.some.injEq, Prod.mk.injEq] at h2
          exact hj h2.1.symm
      simp [linkPc_apply, hpl j a ha, haq]
  · -- pnodup
    by_cases hj : j = c
    · subst hj
      rw [Function.update_same]
      exact List.nodup_cons.2 ⟨fun hin => hpl _ _ hin rfl, A.pnodup _⟩
    · rw [Function.update_noteq hj]; exact A.pnodup j
  · -- pcpu
    rcases hpmem j a ha with ⟨_, h2⟩ | h1
    · rw [h2]; exact hc
    · exact A.pcpu j a h1
  · -- same
    constructor
    · rintro ⟨j, hj⟩
      rcases hmem j a hj with ⟨h1, _⟩ | h1
      · exact ⟨c, by rw [Function.update_same, h1]; exact List.mem_cons_self _ _⟩
      · obtain ⟨c1, hc1⟩ := (A.same a).1 ⟨j, h1⟩
        refine ⟨c1, ?_⟩
        by_cases hcc : c1 = c
        · subst hcc; rw [Function.update_same]; exact List.mem_cons_of_mem _ hc1
        · rw [Function.update_noteq hcc]; exact hc1
    · rintro ⟨j, hj⟩
      rcases hpmem j a hj with ⟨h1, _⟩ | h1
      · exact ⟨h b HF key, by rw [Function.update_same, h1]; exact List.mem_cons_self _ _⟩
      · obtain ⟨i1, hi1⟩ := (A.same a).2 ⟨j, h1⟩
        refine ⟨i1, ?_⟩
        by_cases hcc : i1 = h b HF key
        · rw [hcc] at hi1 ⊢; rw [Function.update_same]; exact List.mem_cons_of_mem _ hi1
        · rw [Function.update_noteq hcc]; exact hi1
  · -- below
    rcases hmem j a ha with ⟨h1, _⟩ | h1
    · rw [h1]; exact Nat.lt_succ_self _
    · exact Nat.lt_succ_of_lt (A.below j a h1)
  · -- queued
    refine ⟨Nat.lt_succ_of_lt (A.queued a ha).1, fun j hj => ?_⟩
    rcases hmem j a hj with ⟨h1, _⟩ | h1
    · exact absurd (h1 ▸ (A.queued a ha).1) (Nat.lt_irrefl _)
    · exact (A.queued a ha).2 j h1
  · -- uniq
    have hal : w.allowdup = false := hd
    have hno : ∀ a ∈ ch (h b HF key), ∀ v, w.kv a ≠ some (key, v) := by
      rcases hdup with h1 | h1
      · rw [hal] at h1; cases h1
      · exact h1
    rcases hmem j a ha with ⟨h1, h2⟩ | h1 <;> rcases hmem j a1 ha1 with ⟨h3, h4⟩ | h3
    · rw [h1, h3]
    · exfalso
      subst h1; subst h2
      have hkk : (key, val) = (k, v) := by
        have := hk
        simp only [Views.inserted, Function.update_same, Option.some.injEq] at this
        exact this
      rw [hkv a1 (hch _ a1 h3)] at hk1
      cases hkk
      exact hno a1 h3 v1 hk1
    · exfalso
      subst h3; subst h4
      have hkk : (key, val) = (k, v1) := by
        have := hk1
        simp only [Views.inserted, Function.update_same, Option.some.injEq] at this
        exact this
      rw [hkv a (hch _ a h1)] at hk
      cases hkk
      exact hno a h1 v hk
    · rw [hkv a (hch j a h1)] at hk
      rw [hkv a1 (hch j a1 h3)] at hk1
      exact A.uniq hal j a a1 k v v1 h1 h3 hk hk1

end KeepInsert

/-! ## The writes of `remove` on the views -/

section RemoveViews

variable {K V : Type}

/-- `pe->load()` on the views. -/
def Views.loadLink (w : Views K V) : LinkRef → Option Nat
  | .bucket i => some (w.table i)
  | .next p => w.nx p

/-- `*pe = v` on the views. -/
def Views.storeLink (w : Views K V) : LinkRef → Nat → Views K V
  | .bucket i, v => { w with table := Function.update w.table i v }
  | .next p, v => { w with nx := Function.update w.nx p (some v) }

/-- `*pelock` on the views. -/
def Views.loadLock (w : Views K V) (fl : Int) : LockRef → Option Int
  | .fake => some fl
  | .elem p => w.lk p

/-- `*pelock = v` on the views. -/
def Views.storeLock (w : Views K V) : LockRef → Int → Views K V
  | .fake, _ => w
  | .elem p, v => { w with lk := Function.update w.lk p (some v) }

/-- The new value of `fakelock` after `*pelock = v`. -/
def LockRef.fakeAfter (fl : Int) : LockRef → Int → Int
  | .fake, v => v
  | .elem _, _ => fl

/-- Whether a `percore_pprev` value points into an allocated node or to
`percore[c]`. -/
def Views.validRef (w : Views K V) : PercoreRef → Prop
  | .head _ => True
  | .next p => ∃ t, w.pc p = some t

/-- `*pprev = v` on the views. -/
def Views.storePercore (w : Views K V) : PercoreRef → Nat → Views K V
  | .head c, v => { w with percore := Function.update w.percore c v }
  | .next p, v =>
    { w with pc := Function.update w.pc p ((w.pc p).map (fun t => (t.1, v, t.2.2))) }

/-- `p->percore_pprev = r` on the views. -/
def Views.setPprev (w : Views K V) (p : Nat) (r : Option PercoreRef) : Views K V :=
  { w with pc := Function.update w.pc p ((w.pc p).map (fun t => (t.1, t.2.1, r))) }

theorem loadLink_views (s : xns K V) (r : LinkRef) : loadLink s r = s.views.loadLink r := by
  cases r <;> rfl

theorem loadLock_views (s : xns K V) (fl : Int) (r : LockRef) :
    loadLock s fl r = s.views.loadLock fl r := by
  cases r <;> rfl

theorem storeLink_views {s : xns K V} {r : LinkRef} {n : Nat}
    (hr : s.views.loadLink r = some n) (v : Nat) :
    ∃ s1, storeLink s r v = some s1 ∧ s1.views = s.views.storeLink r v := by
  cases r with
  | bucket i => exact ⟨_, rfl, rfl⟩
  | next p =>
    obtain ⟨x, hx, _⟩ := mem_of_nx hr
    exact upd_next hx v

theorem storeLock_views {s : xns K V} {fl : Int} {r : LockRef} {n : Int}
    (hr : s.views.loadLock fl r = some n) (v : Int) :
    ∃ s1, storeLock s fl r v = some (s1, r.fakeAfter fl v) ∧
      s1.views = s.views.storeLock r v := by
  cases r with
  | fake => exact ⟨_, rfl, rfl⟩
  | elem p =>
    obtain ⟨x, hx, _⟩ := mem_of_lk hr
    obtain ⟨s1, h1, v1⟩ := upd_lock hx v
    exact ⟨s1, by simp [storeLock, h1, LockRef.fakeAfter], v1⟩

theorem storePercore_views {s : xns K V} {r : PercoreRef} (hr : s.views.validRef r)
    (v : Nat) :
    ∃ s1, storePercore s r v = some s1 ∧ s1.views = s.views.storePercore r v := by
  cases r with
  | head c => exact ⟨_, rfl, rfl⟩
  | next p =>
    obtain ⟨t, ht⟩ := hr
    obtain ⟨x, hx, h1, h2, h3⟩ := mem_of_pc ht
    obtain ⟨s1, hs1, v1⟩ := upd_percore_next hx v
    refine ⟨s1, hs1, ?_⟩
    rw [v1]
    simp [Views.storePercore, ht, h1, h3]

theorem setPprev_views {s : xns K V} {p : Nat} {t : Nat × Nat × Option PercoreRef}
    (ht : s.views.pc p = some t) (r : Option PercoreRef) :
    ∃ s1, s.upd p (fun y => { y with percore_pprev := r }) = some s1 ∧
      s1.views = s.views.setPprev p r := by
  obtain ⟨x, hx, h1, h2, h3⟩ := mem_of_pc ht
  obtain ⟨s1, hs1, v1⟩ := upd_percore_pprev hx r
  refine ⟨s1, hs1, ?_⟩
  rw [v1]
  simp [Views.setPprev, ht, h1, h2]

theorem cmpxchLink_views {s : xns K V} {r : LinkRef} {e : Nat}
    (hr : s.views.loadLink r = some e) (v : Nat) :
    ∃ s1, cmpxchLink s r e v = some (true, s1) ∧ s1.views = s.views.storeLink r v := by
  obtain ⟨s1, h1, v1⟩ := storeLink_views hr v
  exact ⟨s1, by simp [cmpxchLink, loadLink_views, hr, h1], v1⟩

theorem cmpxchLock_views {s : xns K V} {fl : Int} {r : LockRef}
    (hr : s.views.loadLock fl r = some 0) :
    ∃ s1, cmpxchLock s fl r 0 1 = some (true, s1, r.fakeAfter fl 1) ∧
      s1.views = s.views.storeLock r 1 := by
  obtain ⟨s1, h1, v1⟩ := storeLock_views hr 1
  exact ⟨s1, by simp [cmpxchLock, loadLock_views, hr, h1], v1⟩


@[simp] theorem Views.storeLock_nx (w : Views K V) (r : LockRef) (v : Int) :
    (w.storeLock r v).nx = w.nx := by cases r <;> rfl
@[simp] theorem Views.storeLock_pc (w : Views K V) (r : LockRef) (v : Int) :
    (w.storeLock r v).pc = w.pc := by cases r <;> rfl
@[simp] theorem Views.storeLock_kv (w : Views K V) (r : LockRef) (v : Int) :
    (w.storeLock r v).kv = w.kv := by cases r <;> rfl
@[simp] theorem Views.storeLock_table (w : Views K V) (r : LockRef) (v : Int) :
    (w.storeLock r v).table = w.table := by cases r <;> rfl
@[simp] theorem Views.storeLock_percore (w : Views K V) (r : LockRef) (v : Int) :
    (w.storeLock r v).percore = w.percore := by cases r <;> rfl
@[simp] theorem Views.storeLock_brk (w : Views K V) (r : LockRef) (v : Int) :
    (w.storeLock r v).brk = w.brk := by cases r <;> rfl
@[simp] theorem Views.storeLock_delayed (w : Views K V) (r : LockRef) (v : Int) :
    (w.storeLock r v).delayed = w.delayed := by cases r <;> rfl
@[simp] theorem Views.storeLock_allowdup (w : Views K V) (r : LockRef) (v : Int) :
    (w.storeLock r v).allowdup = w.allowdup := by cases r <;> rfl
@[simp] theorem Views.storeLock_loadLink (w : Views K V) (r : LockRef) (v : Int)
    (l : LinkRef) : (w.storeLock r v).loadLink l = w.loadLink l := by
  cases r <;> cases l <;> rfl

@[simp] theorem Views.storeLink_lk (w : Views K V) (r : LinkRef) (v : Nat) :
    (w.storeLink r v).lk = w.lk := by cases r <;> rfl
@[simp] theorem Views.storeLink_pc (w : Views K V) (r : LinkRef) (v : Nat) :
    (w.storeLink r v).pc = w.pc := by cases r <;> rfl
@[simp] theorem Views.storeLink_kv (w : Views K V) (r : LinkRef) (v : Nat) :
    (w.storeLink r v).kv = w.kv := by cases r <;> rfl
@[simp] theorem Views.storeLink_percore (w : Views K V) (r : LinkRef) (v : Nat) :
    (w.storeLink r v).percore = w.percore := by cases r <;> rfl
@[simp] theorem Views.storeLink_brk (w : Views K V) (r : LinkRef) (v : Nat) :
    (w.storeLink r v).brk = w.brk := by cases r <;> rfl
@[simp] theorem Views.storeLink_delayed (w : Views K V) (r : LinkRef) (v : Nat) :
    (w.storeLink r v).delayed = w.delayed := by cases r <;> rfl
@[simp] theorem Views.storeLink_allowdup (w : Views K V) (r : LinkRef) (v : Nat) :
    (w.storeLink r v).allowdup = w.allowdup := by cases r <;> rfl
@[simp] theorem Views.storeLink_loadLock (w : Views K V) (r : LinkRef) (v : Nat) (fl : Int)
    (l : LockRef) : (w.storeLink r v).loadLock fl l = w.loadLock fl l := by
  cases r <;> cases l <;> rfl
@[simp] theorem Views.storeLink_validRef (w : Views K V) (r : LinkRef) (v : Nat)
    (l : PercoreRef) : (w.storeLink r v).validRef l = w.validRef l := by
  cases r <;> cases l <;> rfl
@[simp] theorem Views.storeLock_validRef (w : Views K V) (r : LockRef) (v : Int)
    (l : PercoreRef) : (w.storeLock r v).validRef l = w.validRef l := by
  cases r <;> cases l <;> rfl

@[simp] theorem Views.storePercore_lk (w : Views K V) (r : PercoreRef) (v : Nat) :
    (w.storePercore r v).lk = w.lk := by cases r <;> rfl
@[simp] theorem Views.storePercore_nx (w : Views K V) (r : PercoreRef) (v : Nat) :
    (w.storePercore r v).nx = w.nx := by cases r <;> rfl
@[simp] theorem Views.storePercore_kv (w : Views K V) (r : PercoreRef) (v : Nat) :
    (w.storePercore r v).kv = w.kv := by cases r <;> rfl
@[simp] theorem Views.storePercore_table (w : Views K V) (r : PercoreRef) (v : Nat) :
    (w.storePercore r v).table = w.table := by cases r <;> rfl
@[simp] theorem Views.storePercore_brk (w : Views K V) (r : PercoreRef) (v : Nat) :
    (w.storePercore r v).brk = w.brk := by cases r <;> rfl
@[simp] theorem Views.storePercore_delayed (w : Views K V) (r : PercoreRef) (v : Nat) :
    (w.storePercore r v).delayed = w.delayed := by cases r <;> rfl
@[simp] theorem Views.storePercore_allowdup (w : Views K V) (r : PercoreRef) (v : Nat) :
    (w.storePercore r v).allowdup = w.allowdup := by cases r <;> rfl
@[simp] theorem Views.storePercore_loadLock (w : Views K V) (r : PercoreRef) (v : Nat)
    (fl : Int) (l : LockRef) : (w.storePercore r v).loadLock fl l = w.loadLock fl l := by
  cases r <;> cases l <;> rfl

@[simp] theorem Views.setPprev_loadLock (w : Views K V) (p : Nat) (r : Option PercoreRef)
    (fl : Int) (l : LockRef) : (w.setPprev p r).loadLock fl l = w.loadLock fl l := by
  cases l <;> rfl

theorem Views.storePercore_pc_of_ne (w : Views K V) {r : PercoreRef} (v : Nat) {a : Nat}
    (hr : r ≠ .next a) : (w.storePercore r v).pc a = w.pc a := by
  cases r with
  | head c => rfl
  | next p =>
    have hap : a ≠ p := fun hh => hr (by rw [hh])
    exact Function.update_noteq hap _ _

theorem Views.storePercore_pc_some (w : Views K V) (r : PercoreRef) (v : Nat) {a : Nat}
    {t : Nat × Nat × Option PercoreRef} (ht : w.pc a = some t) :
    ∃ t1, (w.storePercore r v).pc a = some t1 := by
  cases r with
  | head c => exact ⟨t, ht⟩
  | next p =>
    by_cases hap : a = p
    · subst hap; simp [Views.storePercore, ht]
    · exact ⟨t, (Function.update_noteq hap _ _).trans ht⟩

theorem Views.storeLock_loadLock_of_ne (w : Views K V) {e : Nat} (v : Int) (fl : Int)
    {r : LockRef} (hr : r ≠ .elem e) :
    (w.storeLock (.elem e) v).loadLock fl r = w.loadLock fl r := by
  cases r with
  | fake => rfl
  | elem p =>
    have hpe : p ≠ e := fun hh => hr (by rw [hh])
    exact Function.update_noteq hpe _ _

theorem Views.storeLock_loadLock_same (w : Views K V) (v : Int) (fl : Int) (r : LockRef) :
    (w.storeLock r v).loadLock (r.fakeAfter fl v) r = some v := by
  cases r with
  | fake => rfl
  | elem p => exact Function.update_same _ _ _

/-- The views after the matched node `e` has been claimed, cut out of its
chain through `pe` and out of its per-core list through `pp`, and passed to
`gc_delayed`; `n` is `e->next` and `pn` is `e->percore_next`. -/
def Views.claimed (w : Views K V) (pelock : LockRef) (pe : LinkRef) (e n : Nat)
    (pp : PercoreRef) (pn : Nat) : Views K V :=
  let w3 := ((w.storeLock (.elem e) 1).storeLock pelock 1).storeLink pe n
  let w4 := w3.storePercore pp pn
  let w5 := if pn ≠ 0 then w4.setPprev pn (some pp) else w4
  let w6 := w5.storeLock pelock 0
  { w6 with delayed := e :: w6.delayed }

theorem remove.claim_views {s : xns K V} {fl : Int} {pelock : LockRef} {pe : LinkRef}
    {e n c pn : Nat} {pp : PercoreRef}
    (hle : s.views.lk e = some 0) (hlp : s.views.loadLock fl pelock = some 0)
    (hpl : pelock ≠ .elem e) (hlink : s.views.loadLink pe = some e)
    (hnx : s.views.nx e = some n) (hpc : s.views.pc e = some (c, pn, some pp))
    (hpp : pp ≠ .next e) (hppv : s.views.validRef pp)
    (hpn : pn ≠ 0 → ∃ t, s.views.pc pn = some t) :
    ∃ s1, remove.claim s fl pelock pe e = some (.ret true s1) ∧
      s1.views = s.views.claimed pelock pe e n pp pn := by
  obtain ⟨s1, h1, v1⟩ := @cmpxchLock_views K V s fl (.elem e) hle
  have hfa : LockRef.fakeAfter fl (.elem e) 1 = fl := rfl
  rw [hfa] at h1
  have hlp1 : s1.views.loadLock fl pelock = some 0 := by
    rw [v1, Views.storeLock_loadLock_of_ne _ _ _ hpl]; exact hlp
  obtain ⟨s2, h2, v2⟩ := cmpxchLock_views hlp1
  have hnx2 : loadLink s2 (.next e) = some n := by
    show s2.views.nx e = some n
    rw [v2, v1]; simpa using hnx
  have hlink2 : s2.views.loadLink pe = some e := by
    rw [v2, v1]; simpa using hlink
  obtain ⟨s3, h3, v3⟩ := cmpxchLink_views hlink2 n
  have hpc3 : s3.views.pc e = some (c, pn, some pp) := by
    rw [v3, v2, v1]; simpa using hpc
  obtain ⟨x, hx, hxc, hxn, hxp⟩ := mem_of_pc hpc3
  have hppv3 : s3.views.validRef pp := by
    rw [v3, v2, v1]; simpa using hppv
  obtain ⟨s4, h4, v4⟩ := storePercore_views hppv3 pn
  have hpc4 : s4.views.pc e = some (c, pn, some pp) := by
    rw [v4, Views.storePercore_pc_of_ne _ _ hpp]; exact hpc3
  obtain ⟨x1, hx1, hx1c, hx1n, hx1p⟩ := mem_of_pc hpc4
  have hstep5 : ∃ s5, (if x1.percore_next ≠ 0 then
        s4.upd x1.percore_next (fun y => { y with percore_pprev := x1.percore_pprev })
      else some s4) = some s5 ∧
      s5.views = (if pn ≠ 0 then s4.views.setPprev pn (some pp) else s4.views) := by
    rw [hx1n, hx1p]
    by_cases hz : pn = 0
    · exact ⟨s4, by simp [hz], by simp [hz]⟩
    · obtain ⟨t, ht⟩ := hpn hz
      have ht3 : s3.views.pc pn = some t := by rw [v3, v2, v1]; simpa using ht
      obtain ⟨t4, ht4⟩ := Views.storePercore_pc_some s3.views pp pn ht3
      rw [← v4] at ht4
      obtain ⟨s5, h5, v5⟩ := setPprev_views ht4 (some pp)
      exact ⟨s5, by simp [hz, h5], by simp [hz, v5]⟩
  obtain ⟨s5, h5, v5⟩ := hstep5
  have hlp5 : s5.views.loadLock (pelock.fakeAfter fl 1) pelock = some 1 := by
    rw [v5]
    have : s4.views.loadLock (pelock.fakeAfter fl 1) pelock = some 1 := by
      rw [v4, v3, v2]; simp only [Views.storePercore_loadLock, Views.storeLink_loadLock]
      exact Views.storeLock_loadLock_same _ _ _ _
    split_ifs
    · rw [Views.setPprev_loadLock]; exact this
    · exact this
  obtain ⟨s6, h6, v6⟩ := storeLock_views hlp5 0
  refine ⟨gc_delayed s6 e, ?_, ?_⟩
  · have hun : remove.unlink s3 (pelock.fakeAfter fl 1) pelock e
        = some (.ret true (gc_delayed s6 e)) := by
      by_cases hz : x1.percore_next = 0
      · simp only [hz, ne_eq, not_true_eq_false, if_false, Option.some.injEq] at h5
        subst h5
        simp [remove.unlink, hx, hxp, hxn, h4, hx1, hz, h6]
      · simp only [ne_eq, hz, not_false_eq_true, if_true] at h5
        simp [remove.unlink, hx, hxp, hxn, h4, hx1, hz, h5, h6]
    simp only [remove.claim, h1, Option.bind_eq_bind, Option.some_bind, Bool.not_true,
      Bool.false_eq_true, if_false, h2, hnx2, h3, hun]
  · show ({ s6.views with delayed := e :: s6.delayed } : Views K V) = _
    have hd : s6.delayed = s6.views.delayed := rfl
    rw [hd, v6, v5, v4, v3, v2, v1]
    rfl

/-- The `pe` of `remove` after the walk has gone past the nodes `pre`. -/
def linkAt : LinkRef → List Nat → LinkRef
  | pe, [] => pe
  | _, a :: pre => linkAt (.next a) pre

/-- The `pelock` of `remove` after the walk has gone past the nodes `pre`. -/
def lockAt : LockRef → List Nat → LockRef
  | r, [] => r
  | _, a :: pre => lockAt (.elem a) pre

/-- The address of the per-core link that follows the nodes `pre`. -/
def refAt : PercoreRef → List Nat → PercoreRef
  | r, [] => r
  | _, a :: pre => refAt (.next a) pre

theorem linkAt_concat (pe : LinkRef) (pre : List Nat) (q : Nat) :
    linkAt pe (pre ++ [q]) = .next q := by
  induction pre generalizing pe with
  | nil => rfl
  | cons a pre ih => exact ih _

theorem lockAt_concat (r : LockRef) (pre : List Nat) (q : Nat) :
    lockAt r (pre ++ [q]) = .elem q := by
  induction pre generalizing r with
  | nil => rfl
  | cons a pre ih => exact ih _

theorem refAt_concat (r : PercoreRef) (pre : List Nat) (q : Nat) :
    refAt r (pre ++ [q]) = .next q := by
  induction pre generalizing r with
  | nil => rfl
  | cons a pre ih => exact ih _

theorem refAt_ne {a : Nat} :
    ∀ (pre : List Nat) {r : PercoreRef}, r ≠ .next a → a ∉ pre → refAt r pre ≠ .next a := by
  intro pre
  induction pre with
  | nil => intro r hr _; exact hr
  | cons y pre ih =>
    intro r _ ha
    refine ih (r := .next y) ?_ (fun hh => ha (List.mem_cons_of_mem _ hh))
    intro hh
    cases hh
    exact ha (List.mem_cons_self _ _)

theorem IsChain.chain_split {nx : Nat → Option Nat} {e : Nat} {post : List Nat} :
    ∀ (pre : List Nat) {p : Nat}, IsChain nx p (pre ++ e :: post) →
      ∃ n, nx e = some n ∧ IsChain nx n post := by
  intro pre
  induction pre with
  | nil =>
    intro p hp
    obtain ⟨_, _, n, hn, hrest⟩ := hp
    exact ⟨n, hn, hrest⟩
  | cons a pre ih =>
    intro p hp
    obtain ⟨_, _, n, _, hrest⟩ := hp
    exact ih hrest

theorem IsChain.link_at {w : Views K V} {e : Nat} {post : List Nat} :
    ∀ (pre : List Nat) {pe : LinkRef} {p : Nat}, w.loadLink pe = some p →
      IsChain w.nx p (pre ++ e :: post) → w.loadLink (linkAt pe pre) = some e := by
  intro pre
  induction pre with
  | nil =>
    intro pe p hl hp
    obtain ⟨hpe, _⟩ := hp
    rw [← hpe]; exact hl
  | cons a pre ih =>
    intro pe p _ hp
    obtain ⟨_, _, n, hn, hrest⟩ := hp
    exact @ih (.next a) n hn hrest

theorem IsChain.chain_cut {nx : Nat → Option Nat} {q e n : Nat} {post : List Nat} :
    ∀ (pre : List Nat) {p : Nat}, IsChain nx p (pre ++ q :: e :: post) →
      (pre ++ q :: e :: post).Nodup → nx e = some n →
      IsChain (Function.update nx q (some n)) p (pre ++ q :: post) := by
  intro pre
  induction pre with
  | nil =>
    intro p hp hnd hn
    obtain ⟨hpq, hq0, n1, _, hrest⟩ := hp
    obtain ⟨_, _, n2, hn2, hpost⟩ := hrest
    rw [hn] at hn2
    cases hn2
    refine ⟨hpq, hq0, n, Function.update_same _ _ _, IsChain.chain_congr (fun a ha => ?_) hpost⟩
    have hnd1 : (q :: e :: post).Nodup := hnd
    have haq : a ≠ q := fun hh =>
      (List.nodup_cons.1 hnd1).1 (hh ▸ List.mem_cons_of_mem _ ha)
    exact Function.update_noteq haq _ _
  | cons a pre ih =>
    intro p hp hnd hn
    obtain ⟨hpa, ha0, n1, hn1, hrest⟩ := hp
    have hnd1 : (a :: (pre ++ q :: e :: post)).Nodup := hnd
    have haq : a ≠ q := fun hh =>
      (List.nodup_cons.1 hnd1).1 (by rw [hh]; simp)
    exact ⟨hpa, ha0, n1, (Function.update_noteq haq _ _).trans hn1,
      ih hrest (List.nodup_cons.1 hnd1).2 hn⟩

/-- The per-core fields after the node with `percore_pprev = pp` and
`percore_next = pn` has been unlinked. -/
def unlinkPc (pc : Nat → Option (Nat × Nat × Option PercoreRef)) (pp : PercoreRef) (pn : Nat) :
    Nat → Option (Nat × Nat × Option PercoreRef) :=
  let pc1 : Nat → Option (Nat × Nat × Option PercoreRef) :=
    match pp with
    | .head _ => pc
    | .next q => Function.update pc q ((pc q).map (fun t => (t.1, pn, t.2.2)))
  if pn ≠ 0 then Function.update pc1 pn ((pc1 pn).map (fun t => (t.1, t.2.1, some pp))) else pc1

theorem unlinkPc_frame (pc : Nat → Option (Nat × Nat × Option PercoreRef)) {pp : PercoreRef}
    {pn a : Nat} (h1 : pp ≠ .next a) (h2 : a ≠ pn) : unlinkPc pc pp pn a = pc a := by
  unfold unlinkPc
  cases pp with
  | head c =>
    by_cases hz : pn = 0
    · simp [hz]
    · simp [hz, Function.update_noteq h2]
  | next q =>
    have haq : a ≠ q := fun hh => h1 (by rw [hh])
    by_cases hz : pn = 0
    · simp [hz, Function.update_noteq haq]
    · simp [hz, Function.update_noteq h2, Function.update_noteq haq]

theorem unlinkPc_next (pc : Nat → Option (Nat × Nat × Option PercoreRef)) {pp : PercoreRef}
    {pn c n : Nat} {r : Option PercoreRef} (h1 : pp ≠ .next pn) (h0 : pn ≠ 0)
    (hpc : pc pn = some (c, n, r)) : unlinkPc pc pp pn pn = some (c, n, some pp) := by
  unfold unlinkPc
  cases pp with
  | head c1 => simp [h0, hpc]
  | next q =>
    have haq : pn ≠ q := fun hh => h1 (by rw [hh])
    simp [h0, Function.update_noteq haq, hpc]

theorem unlinkPc_prev (pc : Nat → Option (Nat × Nat × Option PercoreRef))
    {q pn c n : Nat} {r : Option PercoreRef} (h2 : q ≠ pn)
    (hpc : pc q = some (c, n, r)) : unlinkPc pc (.next q) pn q = some (c, pn, r) := by
  unfold unlinkPc
  by_cases hz : pn = 0
  · simp [hz, hpc]
  · simp [hz, Function.update_noteq h2, hpc]

theorem IsPList.plist_split {pc : Nat → Option (Nat × Nat × Option PercoreRef)} {c e : Nat}
    {post : List Nat} :
    ∀ (pre : List Nat) {r : PercoreRef} {p : Nat}, IsPList pc c r p (pre ++ e :: post) →
      ∃ n, pc e = some (c, n, some (refAt r pre)) ∧ IsPList pc c (.next e) n post := by
  intro pre
  induction pre with
  | nil =>
    intro r p hp
    obtain ⟨_, _, n, hn, hrest⟩ := hp
    exact ⟨n, hn, hrest⟩
  | cons a pre ih =>
    intro r p hp
    obtain ⟨_, _, n, _, hrest⟩ := hp
    exact ih hrest

theorem IsPList.plist_cut {pc : Nat → Option (Nat × Nat × Option PercoreRef)} {c e pn : Nat}
    {post : List Nat} :
    ∀ (pre : List Nat) {r : PercoreRef} {p : Nat}, IsPList pc c r p (pre ++ e :: post) →
      (pre ++ e :: post).Nodup → (∀ a ∈ pre ++ e :: post, r ≠ .next a) →
      pc e = some (c, pn, some (refAt r pre)) →
      IsPList (unlinkPc pc (refAt r pre) pn) c r (if pre = [] then pn else p) (pre ++ post) := by
  intro pre
  induction pre with
  | nil =>
    intro r p hp hnd hr hpc
    obtain ⟨_, _, n, hn, hrest⟩ := hp
    rw [hpc] at hn
    simp only [Option.some.injEq, Prod.mk.injEq] at hn
    obtain ⟨_, hnn, _⟩ := hn
    subst hnn
    simp only [refAt, if_true, List.nil_append]
    have hnd1 : (e :: post).Nodup := hnd
    cases post with
    | nil => exact hrest
    | cons a post =>
      obtain ⟨hpa, ha0, n2, hn2, hrest2⟩ := hrest
      subst hpa
      have hra : r ≠ .next pn := hr pn (by simp)
      refine ⟨rfl, ha0, n2, unlinkPc_next pc hra ha0 hn2, IsPList.plist_congr (fun a1 ha1 => ?_) hrest2⟩
      have h1 : r ≠ .next a1 := hr a1 (by simp [ha1])
      have h2 : a1 ≠ pn := fun hh =>
        (List.nodup_cons.1 (List.nodup_cons.1 hnd1).2).1 (hh ▸ ha1)
      exact unlinkPc_frame pc h1 h2
  | cons a pre ih =>
    intro r p hp hnd hr hpc
    obtain ⟨hpa, ha0, n, hn, hrest⟩ := hp
    have hnd1 : (a :: (pre ++ e :: post)).Nodup := hnd
    have hnd2 := (List.nodup_cons.1 hnd1).2
    have hanot := (List.nodup_cons.1 hnd1).1
    have hr1 : ∀ a1 ∈ pre ++ e :: post, PercoreRef.next a ≠ .next a1 := by
      intro a1 ha1 hh
      cases hh
      exact hanot ha1
    have hIH := ih hrest hnd2 hr1 hpc
    have hpn : a ≠ pn := by
      intro hh
      obtain ⟨n4, hn4, hpost4⟩ := IsPList.plist_split pre hrest
      rw [hpc] at hn4
      simp only [Option.some.injEq, Prod.mk.injEq] at hn4
      rw [← hn4.2.1] at hpost4
      rcases hpost4.plist_head with ⟨hz, _⟩ | ⟨_, t, ht⟩
      · exact ha0 (hh.trans hz)
      · exact hanot (by rw [ht, hh]; simp)
    simp only [refAt, List.cons_append, reduceCtorEq, if_false]
    refine ⟨hpa, ha0, if pre = [] then pn else n, ?_, hIH⟩
    cases pre with
    | nil =>
      simp only [refAt, if_true]
      exact unlinkPc_prev pc hpn hn
    | cons a2 pre2 =>
      simp only [reduceCtorEq, if_false]
      have hne : refAt (PercoreRef.next a2) pre2 ≠ .next a := by
        refine refAt_ne pre2 ?_ ?_
        · intro hh
          cases hh
          exact hanot (by simp)
        · intro hh
          exact hanot (by simp [hh])
      rw [show refAt (PercoreRef.next a) (a2 :: pre2) = refAt (PercoreRef.next a2) pre2 from rfl]
      rw [unlinkPc_frame pc hne hpn]
      exact hn

theorem Views.claimed_nx (w : Views K V) (pelock : LockRef) (pe : LinkRef) (e n : Nat)
    (pp : PercoreRef) (pn : Nat) :
    (w.claimed pelock pe e n pp pn).nx = (w.storeLink pe n).nx := by
  unfold Views.claimed
  by_cases hz : pn = 0
  · cases pe <;> simp [hz, Views.storeLink]
  · cases pe <;> simp [hz, Views.storeLink, Views.setPprev]

theorem Views.claimed_table (w : Views K V) (pelock : LockRef) (pe : LinkRef) (e n : Nat)
    (pp : PercoreRef) (pn : Nat) :
    (w.claimed pelock pe e n pp pn).table = (w.storeLink pe n).table := by
  unfold Views.claimed
  by_cases hz : pn = 0
  · cases pe <;> simp [hz, Views.storeLink]
  · cases pe <;> simp [hz, Views.storeLink, Views.setPprev]

theorem Views.claimed_kv (w : Views K V) (pelock : LockRef) (pe : LinkRef) (e n : Nat)
    (pp : PercoreRef) (pn : Nat) :
    (w.claimed pelock pe e n pp pn).kv = w.kv := by
  unfold Views.claimed
  by_cases hz : pn = 0
  · simp [hz]
  · simp [hz, Views.setPprev]

theorem Views.claimed_brk (w : Views K V) (pelock : LockRef) (pe : LinkRef) (e n : Nat)
    (pp : PercoreRef) (pn : Nat) :
    (w.claimed pelock pe e n pp pn).brk = w.brk := by
  unfold Views.claimed
  by_cases hz : pn = 0
  · simp [hz]
  · simp [hz, Views.setPprev]

theorem Views.claimed_allowdup (w : Views K V) (pelock : LockRef) (pe : LinkRef) (e n : Nat)
    (pp : PercoreRef) (pn : Nat) :
    (w.claimed pelock pe e n pp pn).allowdup = w.allowdup := by
  unfold Views.claimed
  by_cases hz : pn = 0
  · simp [hz]
  · simp [hz, Views.setPprev]

theorem Views.claimed_delayed (w : Views K V) (pelock : LockRef) (pe : LinkRef) (e n : Nat)
    (pp : PercoreRef) (pn : Nat) :
    (w.claimed pelock pe e n pp pn).delayed = e :: w.delayed := by
  unfold Views.claimed
  by_cases hz : pn = 0
  · simp [hz]
  · simp [hz, Views.setPprev]

theorem Views.claimed_pc (w : Views K V) (pelock : LockRef) (pe : LinkRef) (e n : Nat)
    (pp : PercoreRef) (pn : Nat) :
    (w.claimed pelock pe e n pp pn).pc = unlinkPc w.pc pp pn := by
  unfold Views.claimed unlinkPc
  by_cases hz : pn = 0
  · cases pp <;> simp [hz, Views.storePercore]
  · cases pp <;> simp [hz, Views.setPprev, Views.storePercore]

theorem Views.claimed_percore (w : Views K V) (pelock : LockRef) (pe : LinkRef) (e n : Nat)
    (pp : PercoreRef) (pn : Nat) :
    (w.claimed pelock pe e n pp pn).percore = (w.storePercore pp pn).percore := by
  unfold Views.claimed
  by_cases hz : pn = 0
  · cases pp <;> simp [hz, Views.storePercore]
  · cases pp <;> simp [hz, Views.setPprev, Views.storePercore]

theorem Views.claimed_lk (w : Views K V) {pelock : LockRef} (pe : LinkRef) {e : Nat} (n : Nat)
    (pp : PercoreRef) (pn : Nat) {a : Nat} (hae : a ≠ e)
    (hl : w.loadLock 0 pelock = some 0) :
    (w.claimed pelock pe e n pp pn).lk a = w.lk a := by
  have h1 : (w.claimed pelock pe e n pp pn).lk
      = (((w.storeLock (.elem e) 1).storeLock pelock 1).storeLock pelock 0).lk := by
    unfold Views.claimed
    by_cases hz : pn = 0
    · cases pelock <;> simp [hz, Views.storeLock]
    · cases pelock <;> simp [hz, Views.setPprev, Views.storeLock]
  rw [h1]
  cases pelock with
  | fake => exact Function.update_noteq hae _ _
  | elem q =>
    by_cases haq : a = q
    · subst haq
      simp only [Views.storeLock, Function.update_same]
      exact hl.symm
    · simp only [Views.storeLock, Function.update_noteq haq, Function.update_noteq hae]

theorem Abs.bucket_unique {b : Build} {HF : K → Nat} {w : Views K V} {ch pl : Nat → List Nat}
    (A : Abs b HF w ch pl) {i j a : Nat} (hi : a ∈ ch i) (hj : a ∈ ch j) : i = j := by
  obtain ⟨k, v, hk, hh⟩ := A.keyed i a hi
  obtain ⟨k1, v1, hk1, hh1⟩ := A.keyed j a hj
  rw [hk] at hk1
  cases hk1
  exact hh.symm.trans hh1

theorem Abs.core_unique {b : Build} {HF : K → Nat} {w : Views K V} {ch pl : Nat → List Nat}
    (A : Abs b HF w ch pl) {c d a : Nat} (hc : a ∈ pl c) (hd : a ∈ pl d) : c = d := by
  obtain ⟨_, n, r, hn⟩ := (A.plist c).tagged a hc
  obtain ⟨_, n1, r1, hn1⟩ := (A.plist d).tagged a hd
  rw [hn] at hn1
  simp only [Option.some.injEq, Prod.mk.injEq] at hn1
  exact hn1.1

theorem mem_update_cut {ch : Nat → List Nat} {i : Nat} {pre post : List Nat} {e : Nat}
    (hch : ch i = pre ++ e :: post) (hnd : (ch i).Nodup)
    (hother : ∀ j, j ≠ i → e ∉ ch j) (j a : Nat) :
    a ∈ Function.update ch i (pre ++ post) j ↔ a ∈ ch j ∧ a ≠ e := by
  rw [hch] at hnd
  have he1 : e ∉ pre := fun hh => by
    have := List.nodup_append.1 hnd
    exact this.2.2 hh (List.mem_cons_self _ _) 
  have he2 : e ∉ post := fun hh => by
    have := (List.nodup_append.1 hnd).2.1
    exact (List.nodup_cons.1 this).1 hh
  by_cases hj : j = i
  · subst hj
    rw [Function.update_same, hch]
    simp only [List.mem_append, List.mem_cons]
    constructor
    · rintro (h1 | h1)
      · exact ⟨Or.inl h1, fun hh => he1 (hh ▸ h1)⟩
      · exact ⟨Or.inr (Or.inr h1), fun hh => he2 (hh ▸ h1)⟩
    · rintro ⟨h1 | h1 | h1, h2⟩
      · exact Or.inl h1
      · exact absurd h1 h2
      · exact Or.inr h1
  · rw [Function.update_noteq hj]
    exact ⟨fun h1 => ⟨h1, fun hh => hother j hj (hh ▸ h1)⟩, fun h1 => h1.1⟩

theorem Abs.claimed {b : Build} {HF : K → Nat} {w : Views K V} {ch pl : Nat → List Nat}
    (A : Abs b HF w ch pl) {i c e n pn : Nat} {pp : PercoreRef}
    {pre post ppre ppost : List Nat}
    (hch : ch i = pre ++ e :: post) (hpl : pl c = ppre ++ e :: ppost)
    (hn : w.nx e = some n) (hpc : w.pc e = some (c, pn, some pp)) :
    Abs b HF (w.claimed (lockAt .fake pre) (linkAt (.bucket i) pre) e n pp pn)
      (Function.update ch i (pre ++ post)) (Function.update pl c (ppre ++ ppost)) := by
  have hei : e ∈ ch i := by rw [hch]; simp
  have hec : e ∈ pl c := by rw [hpl]; simp
  have hnd : (pre ++ e :: post).Nodup := hch ▸ A.nodup i
  have hpnd : (ppre ++ e :: ppost).Nodup := hpl ▸ A.pnodup c
  have hCi : IsChain w.nx (w.table i) (pre ++ e :: post) := hch ▸ A.chain i
  have hPc : IsPList w.pc c (.head c) (w.percore c) (ppre ++ e :: ppost) := hpl ▸ A.plist c
  have hmem := mem_update_cut hch (A.nodup i)
    (fun j hj hh => hj (A.bucket_unique hh hei))
  have hpmem := mem_update_cut hpl (A.pnodup c)
    (fun j hj hh => hj (A.core_unique hh hec))
  -- the facts read off the two lists
  obtain ⟨n1, hn1, hpost⟩ := IsChain.chain_split pre hCi
  rw [hn] at hn1; cases hn1
  obtain ⟨pn1, hpn1, hppost⟩ := IsPList.plist_split ppre hPc
  rw [hpc] at hpn1
  simp only [Option.some.injEq, Prod.mk.injEq] at hpn1
  obtain ⟨_, hpn2, hpp⟩ := hpn1
  subst hpn2; subst hpp
  have hlock : w.loadLock 0 (lockAt .fake pre) = some 0 := by
    rcases List.eq_nil_or_concat pre with h0 | ⟨l, q, hq⟩
    · subst h0; rfl
    · rw [List.concat_eq_append] at hq
      subst hq
      rw [lockAt_concat]
      exact A.unlocked i q (by rw [hch]; simp)
  have hpnmem : pn = 0 ∨ pn ∈ ppost := by
    rcases hppost.plist_head with ⟨hz, _⟩ | ⟨_, t, ht⟩
    · exact Or.inl hz
    · exact Or.inr (by rw [ht]; simp)
  refine
    { chain := fun j => ?_
      nodup := fun j => ?_
      keyed := fun j a ha => ?_
      unlocked := fun j a ha => ?_
      plist := fun j => ?_
      pnodup := fun j => ?_
      pcpu := fun j a ha => A.pcpu j a ((hpmem j a).1 ha).1
      same := fun a => ?_
      below := fun j a ha => ?_
      queued := fun a ha => ?_
      brk_pos := ?_
      uniq := fun hd j a a1 k v v1 ha ha1 hk hk1 => ?_ }
  · -- chain
    rw [Views.claimed_nx, Views.claimed_table]
    by_cases hj : j = i
    · subst hj
      rw [Function.update_same]
      rcases List.eq_nil_or_concat pre with h0 | ⟨l, q, hq⟩
      · subst h0
        simp only [linkAt, Views.storeLink, Function.update_same, List.nil_append]
        exact hpost
      · rw [List.concat_eq_append] at hq
        subst hq
        rw [linkAt_concat]
        simp only [Views.storeLink, List.append_assoc, List.singleton_append]
        simp only [List.append_assoc, List.singleton_append] at hCi hnd
        exact IsChain.chain_cut l hCi hnd hn
    · rw [Function.update_noteq hj]
      have htab : (w.storeLink (linkAt (.bucket i) pre) n).table j = w.table j := by
        rcases List.eq_nil_or_concat pre with h0 | ⟨l, q, hq⟩
        · subst h0
          exact Function.update_noteq hj _ _
        · rw [List.concat_eq_append] at hq
          subst hq
          rw [linkAt_concat]; rfl
      rw [htab]
      refine IsChain.chain_congr (fun a ha => ?_) (A.chain j)
      rcases List.eq_nil_or_concat pre with h0 | ⟨l, q, hq⟩
      · subst h0; rfl
      · rw [List.concat_eq_append] at hq
        subst hq
        rw [linkAt_concat]
        have haq : a ≠ q := by
          intro hh
          have hqi : q ∈ ch i := by rw [hch]; simp
          exact hj (A.bucket_unique (hh ▸ ha) hqi)
        exact Function.update_noteq haq _ _
  · -- nodup
    by_cases hj : j = i
    · subst hj
      rw [Function.update_same]
      exact List.Nodup.sublist (List.Sublist.append_left (List.sublist_cons_self e post) pre) hnd
    · rw [Function.update_noteq hj]; exact A.nodup j
  · -- keyed
    rw [Views.claimed_kv]
    exact A.keyed j a ((hmem j a).1 ha).1
  · -- unlocked
    obtain ⟨h1, h2⟩ := (hmem j a).1 ha
    rw [Views.claimed_lk w _ n _ pn h2 hlock]
    exact A.unlocked j a h1
  · -- plist
    rw [Views.claimed_pc, Views.claimed_percore]
    by_cases hj : j = c
    · subst hj
      rw [Function.update_same]
      have hcut := IsPList.plist_cut ppre hPc hpnd (fun a _ hh => by cases hh) hpc
      have hhead : (w.storePercore (refAt (.head j) ppre) pn).percore j
          = if ppre = [] then pn else w.percore j := by
        rcases List.eq_nil_or_concat ppre with h0 | ⟨l, q, hq⟩
        · subst h0
          simp [refAt, Views.storePercore]
        · rw [List.concat_eq_append] at hq
          subst hq
          rw [refAt_concat]
          simp [Views.storePercore]
      rw [hhead]
      exact hcut
    · rw [Function.update_noteq hj]
      have hhead : (w.storePercore (refAt (.head c) ppre) pn).percore j = w.percore j := by
        rcases List.eq_nil_or_concat ppre with h0 | ⟨l, q, hq⟩
        · subst h0
          exact Function.update_noteq hj _ _
        · rw [List.concat_eq_append] at hq
          subst hq
          rw [refAt_concat]; rfl
      rw [hhead]
      refine IsPList.plist_congr (fun a ha => ?_) (A.plist j)
      refine unlinkPc_frame w.pc ?_ ?_
      · rcases List.eq_nil_or_concat ppre with h0 | ⟨l, q, hq⟩
        · subst h0
          intro hh; cases hh
        · rw [List.concat_eq_append] at hq
          subst hq
          rw [refAt_concat]
          intro hh
          cases hh
          have hqc : a ∈ pl c := by rw [hpl]; simp
          exact hj (A.core_unique ha hqc)
      · intro hh
        rcases hpnmem with hz | hin
        · exact (A.mem_plist ha).1 (hh.trans hz)
        · have hqc : a ∈ pl c := by rw [hpl, hh]; simp [hin]
          exact hj (A.core_unique ha hqc)
  · -- pnodup
    by_cases hj : j = c
    · subst hj
      rw [Function.update_same]
      exact List.Nodup.sublist
        (List.Sublist.append_left (List.sublist_cons_self e ppost) ppre) hpnd
    · rw [Function.update_noteq hj]; exact A.pnodup j
  · -- same
    constructor
    · rintro ⟨j, hj⟩
      obtain ⟨h1, h2⟩ := (hmem j a).1 hj
      obtain ⟨d, hd⟩ := (A.same a).1 ⟨j, h1⟩
      exact ⟨d, (hpmem d a).2 ⟨hd, h2⟩⟩
    · rintro ⟨j, hj⟩
      obtain ⟨h1, h2⟩ := (hpmem j a).1 hj
      obtain ⟨d, hd⟩ := (A.same a).2 ⟨j, h1⟩
      exact ⟨d, (hmem d a).2 ⟨hd, h2⟩⟩
  · -- below
    rw [Views.claimed_brk]
    exact A.below j a ((hmem j a).1 ha).1
  · -- queued
    rw [Views.claimed_delayed] at ha
    rw [Views.claimed_brk]
    rcases List.mem_cons.1 ha with h1 | h1
    · subst h1
      exact ⟨A.below i a hei, fun j hj => ((hmem j a).1 hj).2 rfl⟩
    · exact ⟨(A.queued a h1).1, fun j hj => (A.queued a h1).2 j ((hmem j a).1 hj).1⟩
  · rw [Views.claimed_brk]; exact A.brk_pos
  · -- uniq
    rw [Views.claimed_allowdup] at hd
    rw [Views.claimed_kv] at hk hk1
    exact A.uniq hd j a a1 k v v1 ((hmem j a).1 ha).1 ((hmem j a1).1 ha1).1 hk hk1

end RemoveViews

/-! ## The walk of `remove` -/

section RemoveWalk

variable {K V : Type} [DecidableEq K] [DecidableEq V]

theorem remove.inner_miss {s : xns K V} (key : K) (vp : Option V) (fl : Int)
    {xs : List (Nat × xelem K V)} :
    ∀ {fuel : Nat} {p : Nat} (pelock : LockRef) (pe : LinkRef), Walk s.mem p xs →
      (∀ e ∈ xs, ¬ (e.2.key = key ∧ (vp = none ∨ vp = some e.2.val))) →
      xs.length < fuel → loadLink s pe = some p →
      remove.inner key vp fuel s fl pelock pe = some (.ret false s) := by
  induction xs with
  | nil =>
    intro fuel p pelock pe hp _ hf hl
    cases fuel with
    | zero => cases hf
    | succ f => simp [remove.inner, hl, show p = 0 from hp]
  | cons e xs ih =>
    intro fuel p pelock pe hp hno hf hl
    obtain ⟨hpe, he0, hm, hrest⟩ := hp
    cases fuel with
    | zero => cases hf
    | succ f =>
      have hf1 : xs.length < f := by simpa using hf
      have hne := hno e (List.mem_cons_self _ _)
      have hnext : loadLink s (.next e.1) = some e.2.next := by simp [loadLink, hm]
      have hih := ih (.elem e.1) (.next e.1) hrest
        (fun e1 h1 => hno e1 (List.mem_cons_of_mem _ h1)) hf1 hnext
      simp only [remove.inner, hl, hpe, he0, if_false, hm, hne, hih]

theorem remove.inner_hit {s : xns K V} (key : K) (vp : Option V) (fl : Int)
    {e : Nat × xelem K V} {post : List (Nat × xelem K V)} :
    ∀ (pre : List (Nat × xelem K V)) {fuel : Nat} {p : Nat} (pelock : LockRef) (pe : LinkRef),
      Walk s.mem p (pre ++ e :: post) →
      (∀ y ∈ pre, ¬ (y.2.key = key ∧ (vp = none ∨ vp = some y.2.val))) →
      (e.2.key = key ∧ (vp = none ∨ vp = some e.2.val)) →
      pre.length < fuel → loadLink s pe = some p →
      remove.inner key vp fuel s fl pelock pe
        = remove.claim s fl (lockAt pelock (pre.map Prod.fst))
            (linkAt pe (pre.map Prod.fst)) e.1 := by
  intro pre
  induction pre with
  | nil =>
    intro fuel p pelock pe hp _ hhit hf hl
    obtain ⟨hpe, he0, hm, _⟩ := hp
    cases fuel with
    | zero => cases hf
    | succ f =>
      simp only [remove.inner, hl, hpe, he0, if_false, hm, hhit, List.map_nil, lockAt, linkAt]
      simp
  | cons y pre ih =>
    intro fuel p pelock pe hp hno hhit hf hl
    obtain ⟨hpe, he0, hm, hrest⟩ := hp
    cases fuel with
    | zero => cases hf
    | succ f =>
      have hf1 : pre.length < f := by simpa using hf
      have hne := hno y (List.mem_cons_self _ _)
      have hnext : loadLink s (.next y.1) = some y.2.next := by simp [loadLink, hm]
      have hih := ih (.elem y.1) (.next y.1) hrest
        (fun e1 h1 => hno e1 (List.mem_cons_of_mem _ h1)) hhit hf1 hnext
      simp only [remove.inner, hl, hpe, he0, if_false, hm, hne, hih, List.map_cons, lockAt,
        linkAt]

theorem remove_miss (b : Build) (HF : K → Nat) {fuel : Nat} {s : xns K V} (key : K)
    (vp : Option V) {xs : List (Nat × xelem K V)}
    (hw : Walk s.mem (s.table (h b HF key)) xs)
    (hno : ∀ e ∈ xs, ¬ (e.2.key = key ∧ (vp = none ∨ vp = some e.2.val)))
    (hf : xs.length < fuel) :
    remove b HF fuel s key vp = some (false, s) := by
  cases fuel with
  | zero => cases hf
  | succ n =>
    simp only [remove, remove.outer,
      remove.inner_miss key vp 0 .fake (.bucket (h b HF key)) hw hno hf rfl]

theorem remove_hit (b : Build) (HF : K → Nat) {fuel : Nat} {s : xns K V} (key : K)
    (vp : Option V) {pre post : List (Nat × xelem K V)} {e : Nat × xelem K V}
    (hw : Walk s.mem (s.table (h b HF key)) (pre ++ e :: post))
    (hno : ∀ y ∈ pre, ¬ (y.2.key = key ∧ (vp = none ∨ vp = some y.2.val)))
    (hhit : e.2.key = key ∧ (vp = none ∨ vp = some e.2.val))
    (hf : pre.length < fuel) {s1 : xns K V}
    (hclaim : remove.claim s 0 (lockAt .fake (pre.map Prod.fst))
      (linkAt (.bucket (h b HF key)) (pre.map Prod.fst)) e.1 = some (.ret true s1)) :
    remove b HF fuel s key vp = some (true, s1) := by
  cases fuel with
  | zero => cases hf
  | succ n =>
    simp only [remove, remove.outer,
      remove.inner_hit key vp 0 pre .fake (.bucket (h b HF key)) hw hno hhit hf rfl, hclaim]

end RemoveWalk

/-! ## More fuel does not change a result -/

section Fuel

variable {K V : Type} [DecidableEq K] [DecidableEq V]

theorem insert.scan_mono {s : xns K V} {key : K} :
    ∀ {f f1 : Nat} {p : Nat} {r : Bool}, f ≤ f1 → insert.scan s key f p = some r →
      insert.scan s key f1 p = some r := by
  intro f
  induction f with
  | zero => intro f1 p r _ hr; simp [insert.scan] at hr
  | succ f ih =>
    intro f1 p r hle hr
    cases f1 with
    | zero => omega
    | succ f1 =>
      have hle1 : f ≤ f1 := by omega
      unfold insert.scan at hr ⊢
      by_cases hp : p = 0
      · simpa [hp] using hr
      · simp only [hp, if_false] at hr ⊢
        cases hm : s.mem p with
        | none => simp [hm] at hr
        | some x =>
          simp only [hm] at hr ⊢
          by_cases hk : x.key = key
          · simpa [hk] using hr
          · simp only [hk, if_false] at hr ⊢
            exact ih hle1 hr

theorem bind_mono {α β : Type} {x : Option α} {f g : α → Option β} {r : β}
    (hfg : ∀ a, f a = some r → g a = some r) (hx : x.bind f = some r) :
    x.bind g = some r := by
  cases x with
  | none => simp at hx
  | some a => exact hfg a hx

theorem insert.loop_mono {c : Nat} {key : K} {e i : Nat} :
    ∀ {n n1 fuel fuel1 : Nat} {s : xns K V} {r : Int × xns K V}, n ≤ n1 → fuel ≤ fuel1 →
      insert.loop c key e i fuel n s = some r → insert.loop c key e i fuel1 n1 s = some r := by
  intro n
  induction n with
  | zero => intro n1 fuel fuel1 s r _ _ hr; simp [insert.loop] at hr
  | succ n ih =>
    intro n1 fuel fuel1 s r hle hfl hr
    cases n1 with
    | zero => omega
    | succ n1 =>
      have hle1 : n ≤ n1 := by omega
      unfold insert.loop at hr ⊢
      simp only at hr ⊢
      cases hal : s.allowdup with
      | true =>
        simp only [hal, Bool.not_true, Bool.false_eq_true, if_false] at hr ⊢
        refine bind_mono (fun s1 => bind_mono (fun en => bind_mono (fun x h1 => ?_))) hr
        obtain ⟨ok, s2⟩ := x
        cases ok with
        | true => simpa using h1
        | false =>
          simp only [Bool.false_eq_true, if_false] at h1 ⊢
          exact ih hle1 hfl h1
      | false =>
        simp only [hal, Bool.not_false, if_true] at hr ⊢
        cases hsc : insert.scan s key fuel (s.table i) with
        | none => simp [hsc] at hr
        | some d =>
          rw [insert.scan_mono hfl hsc]
          rw [hsc] at hr
          cases d with
          | true => exact hr
          | false =>
            simp only at hr ⊢
            refine bind_mono (fun s1 => bind_mono (fun en => bind_mono (fun x h1 => ?_))) hr
            obtain ⟨ok, s2⟩ := x
            cases ok with
            | true => simpa using h1
            | false =>
              simp only [Bool.false_eq_true, if_false] at h1 ⊢
              exact ih hle1 hfl h1

theorem insert_mono (b : Build) (HF : K → Nat) {fuel fuel1 : Nat} {s : xns K V} {c : Nat}
    {ok : Bool} {key : K} {val : V} {r : Int × xns K V} (hle : fuel ≤ fuel1)
    (hr : insert b HF fuel s c ok key val = some r) :
    insert b HF fuel1 s c ok key val = some r := by
  unfold insert at hr ⊢
  simp only at hr ⊢
  split_ifs at hr ⊢ with h0
  · exact hr
  · exact insert.loop_mono hle hle hr

theorem remove.inner_mono {key : K} {vp : Option V} :
    ∀ {f f1 : Nat} {s : xns K V} {fl : Int} {pelock : LockRef} {pe : LinkRef}
      {r : remove.Exit K V}, f ≤ f1 → remove.inner key vp f s fl pelock pe = some r →
      remove.inner key vp f1 s fl pelock pe = some r := by
  intro f
  induction f with
  | zero => intro f1 s fl pelock pe r _ hr; simp [remove.inner] at hr
  | succ f ih =>
    intro f1 s fl pelock pe r hle hr
    cases f1 with
    | zero => omega
    | succ f1 =>
      have hle1 : f ≤ f1 := by omega
      unfold remove.inner at hr ⊢
      cases hl : loadLink s pe with
      | none => simp [hl] at hr
      | some e =>
        simp only [hl] at hr ⊢
        by_cases he : e = 0
        · simpa [he] using hr
        · simp only [he, if_false] at hr ⊢
          cases hm : s.mem e with
          | none => simp [hm] at hr
          | some x =>
            simp only [hm] at hr ⊢
            split_ifs at hr ⊢ with hh
            · exact hr
            · exact ih hle1 hr

theorem remove.outer_mono {key : K} {vp : Option V} {i : Nat} :
    ∀ {n n1 fuel fuel1 : Nat} {s : xns K V} {r : Bool × xns K V}, n ≤ n1 → fuel ≤ fuel1 →
      remove.outer key vp i fuel n s = some r → remove.outer key vp i fuel1 n1 s = some r := by
  intro n
  induction n with
  | zero => intro n1 fuel fuel1 s r _ _ hr; simp [remove.outer] at hr
  | succ n ih =>
    intro n1 fuel fuel1 s r hle hfl hr
    cases n1 with
    | zero => omega
    | succ n1 =>
      have hle1 : n ≤ n1 := by omega
      unfold remove.outer at hr ⊢
      cases hin : remove.inner key vp fuel s 0 .fake (.bucket i) with
      | none => simp [hin] at hr
      | some x =>
        rw [remove.inner_mono hfl hin]
        rw [hin] at hr
        cases x with
        | ret r1 s1 => exact hr
        | brk s1 => exact ih hle1 hfl hr

theorem remove_mono (b : Build) (HF : K → Nat) {fuel fuel1 : Nat} {s : xns K V}
    {key : K} {vp : Option V} {r : Bool × xns K V} (hle : fuel ≤ fuel1)
    (hr : remove b HF fuel s key vp = some r) :
    remove b HF fuel1 s key vp = some r :=
  remove.outer_mono hle hle hr

end Fuel

/-! ## The operations on a state that satisfies the invariant -/

section Specs

variable {K V : Type} [DecidableEq K] [DecidableEq V]

/-- The node at `a` matches `remove(key, vp)`. -/
def Views.hit (w : Views K V) (key : K) (vp : Option V) (a : Nat) : Prop :=
  ∃ v, w.kv a = some (key, v) ∧ (vp = none ∨ vp = some v)

theorem Walk.kv {s : xns K V} {xs : List (Nat × xelem K V)} {p : Nat}
    (hw : Walk s.mem p xs) : ∀ e ∈ xs, s.views.kv e.1 = some (e.2.key, e.2.val) :=
  fun e he => kv_of_mem (hw.walk_mem e he)

theorem Walk.hit_iff {s : xns K V} {xs : List (Nat × xelem K V)} {p : Nat}
    (hw : Walk s.mem p xs) (key : K) (vp : Option V) {e : Nat × xelem K V} (he : e ∈ xs) :
    s.views.hit key vp e.1 ↔ (e.2.key = key ∧ (vp = none ∨ vp = some e.2.val)) := by
  unfold Views.hit
  rw [hw.kv e he]
  constructor
  · rintro ⟨v, hv, hvp⟩
    simp only [Option.some.injEq, Prod.mk.injEq] at hv
    rw [hv.2]; exact ⟨hv.1, hvp⟩
  · rintro ⟨hk, hvp⟩
    exact ⟨e.2.val, by rw [hk], hvp⟩

theorem exists_first {α : Type} (P : α → Prop) [DecidablePred P] (l : List α) :
    (∀ a ∈ l, ¬ P a) ∨ ∃ pre e post, l = pre ++ e :: post ∧ (∀ a ∈ pre, ¬ P a) ∧ P e := by
  induction l with
  | nil => exact Or.inl (fun a ha => by cases ha)
  | cons x l ih =>
    by_cases hx : P x
    · exact Or.inr ⟨[], x, l, rfl, (fun a ha => by cases ha), hx⟩
    · rcases ih with h1 | ⟨pre, e, post, hl, hpre, he⟩
      · refine Or.inl (fun a ha => ?_)
        rcases List.mem_cons.1 ha with h2 | h2
        · rw [h2]; exact hx
        · exact h1 a h2
      · refine Or.inr ⟨x :: pre, e, post, by rw [hl]; rfl, fun a ha => ?_, he⟩
        rcases List.mem_cons.1 ha with h2 | h2
        · rw [h2]; exact hx
        · exact hpre a h2

/-- What `insert` does on a state that satisfies the invariant. -/
theorem insert_spec {b : Build} {HF : K → Nat} {s : xns K V} {ch pl : Nat → List Nat}
    (A : Abs b HF s.views ch pl) {c : Nat} (hc : c < b.NCPU) {fuel : Nat}
    (hf : s.brk ≤ fuel) (key : K) (val : V) :
    (s.allowdup = false ∧ (∃ a ∈ ch (h b HF key), ∃ v, s.views.kv a = some (key, v)) ∧
      ∃ s1, insert b HF fuel s c true key val = some (-1, s1) ∧
        s1.views = s.views.rejected key val) ∨
    ((s.allowdup = true ∨ ∀ a ∈ ch (h b HF key), ∀ v, s.views.kv a ≠ some (key, v)) ∧
      ∃ s1, insert b HF fuel s c true key val = some (0, s1) ∧
        s1.views = s.views.inserted c (h b HF key) key val) := by
  obtain ⟨xs, hw, hmap⟩ := Walk.of_chain (A.chain (h b HF key))
  have hlen : xs.length < fuel := by
    have := A.chain_length (h b HF key)
    rw [← hmap, List.length_map] at this
    exact Nat.lt_of_lt_of_le this hf
  have hfresh : ∀ e ∈ xs, e.1 ≠ s.brk := by
    intro e he
    have : e.1 ∈ ch (h b HF key) := by rw [← hmap]; exact List.mem_map_of_mem _ he
    exact Nat.ne_of_lt (A.below _ _ this)
  have hbrk : s.brk ≠ 0 := Nat.pos_iff_ne_zero.1 A.brk_pos
  have hany : xs.any (fun e => decide (e.2.key = key)) = true ↔
      ∃ a ∈ ch (h b HF key), ∃ v, s.views.kv a = some (key, v) := by
    rw [List.any_eq_true]
    constructor
    · rintro ⟨e, he, hk⟩
      refine ⟨e.1, by rw [← hmap]; exact List.mem_map_of_mem _ he, e.2.val, ?_⟩
      rw [hw.kv e he, of_decide_eq_true hk]
    · rintro ⟨a, ha, v, hv⟩
      rw [← hmap] at ha
      obtain ⟨e, he, hea⟩ := List.mem_map.1 ha
      refine ⟨e, he, decide_eq_true ?_⟩
      rw [← hea, hw.kv e he] at hv
      simp only [Option.some.injEq, Prod.mk.injEq] at hv
      exact hv.1
  by_cases hcase : s.allowdup = false ∧ xs.any (fun e => decide (e.2.key = key)) = true
  · exact Or.inl ⟨hcase.1, hany.1 hcase.2,
      insert_dup b HF c key val hw hlen hfresh hbrk hcase.1 hcase.2⟩
  · have hdup : s.allowdup = true ∨ xs.any (fun e => decide (e.2.key = key)) = false := by
      cases hal : s.allowdup
      · right
        cases hx : xs.any (fun e => decide (e.2.key = key))
        · rfl
        · exact absurd ⟨hal, hx⟩ hcase
      · exact Or.inl rfl
    have hp : s.percore c ≠ 0 → ∃ y, s.mem (s.percore c) = some y := by
      intro hq
      rcases (A.plist c).plist_head with ⟨hz, _⟩ | ⟨_, t, ht⟩
      · exact absurd hz hq
      · obtain ⟨_, n, r, hn⟩ := (A.plist c).tagged (s.percore c)
          (by rw [ht]; exact List.mem_cons_self _ _)
        obtain ⟨y, hy, _⟩ := mem_of_pc hn
        exact ⟨y, hy⟩
    have hne : s.percore c ≠ s.brk := by
      rcases (A.plist c).plist_head with ⟨hz, _⟩ | ⟨_, t, ht⟩
      · have hz1 : s.percore c = 0 := hz
        rw [hz1]; exact hbrk.symm
      · exact Nat.ne_of_lt
          (A.mem_plist (c := c) (by rw [ht]; exact List.mem_cons_self _ _)).2
    refine Or.inr ⟨?_, insert_ok b HF key val hw hlen hfresh hbrk hdup hp hne⟩
    rcases hdup with h1 | h1
    · exact Or.inl h1
    · right
      intro a ha v hv
      have := hany.2 ⟨a, ha, v, hv⟩
      rw [h1] at this
      cases this

/-- What the first walk of `remove` does on a state that satisfies the
invariant: it ends with a `return`, never with a `break`. -/
theorem remove_inner_spec {b : Build} {HF : K → Nat} {s : xns K V} {ch pl : Nat → List Nat}
    (A : Abs b HF s.views ch pl) (key : K) (vp : Option V) {fuel : Nat}
    (hf : (ch (h b HF key)).length < fuel) :
    ((∀ a ∈ ch (h b HF key), ¬ s.views.hit key vp a) ∧
      remove.inner key vp fuel s 0 .fake (.bucket (h b HF key)) = some (.ret false s)) ∨
    (∃ pre e post c ppre ppost n pn pp s1,
      ch (h b HF key) = pre ++ e :: post ∧ (∀ a ∈ pre, ¬ s.views.hit key vp a) ∧
      s.views.hit key vp e ∧ pl c = ppre ++ e :: ppost ∧
      s.views.nx e = some n ∧ s.views.pc e = some (c, pn, some pp) ∧
      remove.inner key vp fuel s 0 .fake (.bucket (h b HF key)) = some (.ret true s1) ∧
      s1.views = s.views.claimed (lockAt .fake pre) (linkAt (.bucket (h b HF key)) pre)
        e n pp pn) := by
  obtain ⟨xs, hw, hmap⟩ := Walk.of_chain (A.chain (h b HF key))
  have hlen : xs.length < fuel := by
    rw [← hmap, List.length_map] at hf
    exact hf
  rcases exists_first (fun e : Nat × xelem K V =>
      e.2.key = key ∧ (vp = none ∨ vp = some e.2.val)) xs with hno | ⟨xpre, xe, xpost, hxs, hno, hhit⟩
  · left
    refine ⟨fun a ha => ?_,
      remove.inner_miss key vp 0 .fake (.bucket (h b HF key)) hw hno hlen rfl⟩
    rw [← hmap] at ha
    obtain ⟨e, he, hea⟩ := List.mem_map.1 ha
    rw [← hea, hw.hit_iff key vp he]
    exact hno e he
  · right
    subst hxs
    have hchi : ch (h b HF key) = xpre.map Prod.fst ++ xe.1 :: xpost.map Prod.fst := by
      rw [← hmap]; simp
    have hei : xe.1 ∈ ch (h b HF key) := by rw [hchi]; simp
    obtain ⟨c, hec⟩ := (A.same xe.1).1 ⟨_, hei⟩
    obtain ⟨ppre, ppost, hpl⟩ := List.append_of_mem hec
    have hnd : (xpre.map Prod.fst ++ xe.1 :: xpost.map Prod.fst).Nodup := hchi ▸ A.nodup _
    have hpnd : (ppre ++ xe.1 :: ppost).Nodup := hpl ▸ A.pnodup c
    have hCi : IsChain s.views.nx (s.views.table (h b HF key))
        (xpre.map Prod.fst ++ xe.1 :: xpost.map Prod.fst) := hchi ▸ A.chain _
    have hPc : IsPList s.views.pc c (.head c) (s.views.percore c) (ppre ++ xe.1 :: ppost) :=
      hpl ▸ A.plist c
    obtain ⟨n, hn, _⟩ := IsChain.chain_split _ hCi
    obtain ⟨pn, hpc, hppost⟩ := IsPList.plist_split ppre hPc
    have he1 : xe.1 ∉ xpre.map Prod.fst := fun hh =>
      (List.nodup_append.1 hnd).2.2 hh (List.mem_cons_self _ _)
    have hpe1 : xe.1 ∉ ppre := fun hh =>
      (List.nodup_append.1 hpnd).2.2 hh (List.mem_cons_self _ _)
    -- the preconditions of the claim
    have hle : s.views.lk xe.1 = some 0 := A.unlocked _ _ hei
    have hlp : s.views.loadLock 0 (lockAt .fake (xpre.map Prod.fst)) = some 0 := by
      rcases List.eq_nil_or_concat (xpre.map Prod.fst) with h0 | ⟨l, q, hq⟩
      · rw [h0]; rfl
      · rw [List.concat_eq_append] at hq
        rw [hq, lockAt_concat]
        exact A.unlocked _ q (by rw [hchi, hq]; simp)
    have hplk : lockAt .fake (xpre.map Prod.fst) ≠ .elem xe.1 := by
      rcases List.eq_nil_or_concat (xpre.map Prod.fst) with h0 | ⟨l, q, hq⟩
      · rw [h0]; intro hh; cases hh
      · rw [List.concat_eq_append] at hq
        rw [hq, lockAt_concat]
        intro hh
        cases hh
        exact he1 (by rw [hq]; simp)
    have hlink : s.views.loadLink (linkAt (.bucket (h b HF key)) (xpre.map Prod.fst))
        = some xe.1 := IsChain.link_at _ rfl hCi
    have hpp : refAt (.head c) ppre ≠ .next xe.1 :=
      refAt_ne ppre (fun hh => by cases hh) hpe1
    have hppv : s.views.validRef (refAt (.head c) ppre) := by
      rcases List.eq_nil_or_concat ppre with h0 | ⟨l, q, hq⟩
      · rw [h0]; exact trivial
      · rw [List.concat_eq_append] at hq
        rw [hq, refAt_concat]
        obtain ⟨_, n1, r1, h1⟩ := hPc.tagged q (by rw [hq]; simp)
        exact ⟨_, h1⟩
    have hpn : pn ≠ 0 → ∃ t, s.views.pc pn = some t := by
      intro hz
      rcases hppost.plist_head with ⟨hz0, _⟩ | ⟨_, t, ht⟩
      · exact absurd hz0 hz
      · obtain ⟨_, n1, r1, h1⟩ := hPc.tagged pn (by rw [ht]; simp)
        exact ⟨_, h1⟩
    obtain ⟨s1, hcl, hv⟩ := remove.claim_views hle hlp hplk hlink hn hpc hpp hppv hpn
    refine ⟨xpre.map Prod.fst, xe.1, xpost.map Prod.fst, c, ppre, ppost, n, pn, _, s1, hchi,
      fun a ha => ?_, ?_, hpl, hn, hpc, ?_, hv⟩
    · obtain ⟨y, hy, hya⟩ := List.mem_map.1 ha
      rw [← hya, hw.hit_iff key vp (List.mem_append_left _ hy)]
      exact hno y hy
    · rw [hw.hit_iff key vp (by simp)]
      exact hhit
    · exact (remove.inner_hit key vp 0 xpre .fake (.bucket (h b HF key)) hw hno hhit
        (Nat.lt_of_le_of_lt (by simp) hlen) rfl).trans hcl


/-- What `remove` does on a state that satisfies the invariant. -/
theorem remove_spec {b : Build} {HF : K → Nat} {s : xns K V} {ch pl : Nat → List Nat}
    (A : Abs b HF s.views ch pl) {fuel : Nat} (hf : s.brk ≤ fuel) (key : K) (vp : Option V) :
    ((∀ a ∈ ch (h b HF key), ¬ s.views.hit key vp a) ∧
      remove b HF fuel s key vp = some (false, s)) ∨
    (∃ pre e post c ppre ppost n pn pp s1,
      ch (h b HF key) = pre ++ e :: post ∧ (∀ a ∈ pre, ¬ s.views.hit key vp a) ∧
      s.views.hit key vp e ∧ pl c = ppre ++ e :: ppost ∧
      s.views.nx e = some n ∧ s.views.pc e = some (c, pn, some pp) ∧
      remove b HF fuel s key vp = some (true, s1) ∧
      s1.views = s.views.claimed (lockAt .fake pre) (linkAt (.bucket (h b HF key)) pre)
        e n pp pn) := by
  have hlen : (ch (h b HF key)).length < fuel :=
    Nat.lt_of_lt_of_le (A.chain_length (h b HF key)) hf
  have hrun : ∀ r s1, remove.inner key vp fuel s 0 .fake (.bucket (h b HF key))
      = some (.ret r s1) → remove b HF fuel s key vp = some (r, s1) := by
    intro r s1 hin
    cases fuel with
    | zero => cases hlen
    | succ n => simp only [remove, remove.outer, hin]
  rcases remove_inner_spec A key vp hlen with
    ⟨hno, h1⟩ | ⟨pre, e, post, c, ppre, ppost, n, pn, pp, s1, hch, hno, hhit, hpl, hn, hpc, h1, hv⟩
  · exact Or.inl ⟨hno, hrun _ _ h1⟩
  · exact Or.inr ⟨pre, e, post, c, ppre, ppost, n, pn, pp, s1, hch, hno, hhit, hpl, hn, hpc,
      hrun _ _ h1, hv⟩
end Specs

/-! ## Reachable states -/

section Reach

variable {K V : Type} [DecidableEq K] [DecidableEq V]

/-- The states of a table built by `xns(dup)` and then used through completed
calls of `insert` and `remove`, by any workers `c < NCPU`, with the
reclamation collaborator destroying queued nodes between calls. -/
inductive Reachable (b : Build) (HF : K → Nat) : xns K V → Prop where
  | ctor (dup : Bool) : Reachable b HF (xns.ctor dup)
  | insert {s s1 : xns K V} {fuel c : Nat} {ok : Bool} {key : K} {val : V} {r : Int} :
      Reachable b HF s → c < b.NCPU → insert b HF fuel s c ok key val = some (r, s1) →
      Reachable b HF s1
  | remove {s s1 : xns K V} {fuel : Nat} {key : K} {vp : Option V} {r : Bool} :
      Reachable b HF s → remove b HF fuel s key vp = some (r, s1) → Reachable b HF s1
  | collect {s : xns K V} (p : Nat) : Reachable b HF s → Reachable b HF (gc_collect s p)

theorem Abs.collected {b : Build} {HF : K → Nat} {s : xns K V} {ch pl : Nat → List Nat}
    (A : Abs b HF s.views ch pl) (p : Nat) : Abs b HF (gc_collect s p).views ch pl := by
  unfold gc_collect
  split_ifs with hp
  · have hch : ∀ i a, a ∈ ch i → a ≠ p := fun i a ha hh => (A.queued p hp).2 i (hh ▸ ha)
    have hpl : ∀ c a, a ∈ pl c → a ≠ p := fun c a ha => by
      obtain ⟨i, hi⟩ := (A.same a).2 ⟨c, ha⟩
      exact hch i a hi
    refine
      { chain := fun i => IsChain.chain_congr (fun a ha => ?_) (A.chain i)
        nodup := A.nodup
        keyed := fun i a ha => ?_
        unlocked := fun i a ha => ?_
        plist := fun c => IsPList.plist_congr (fun a ha => ?_) (A.plist c)
        pnodup := A.pnodup
        pcpu := A.pcpu
        same := A.same
        below := A.below
        queued := fun a ha => A.queued a (List.mem_of_mem_erase ha)
        brk_pos := A.brk_pos
        uniq := fun hd i a a1 k v v1 ha ha1 hk hk1 => ?_ }
    · simp only [xns.views, nextOf_update_none]
      exact Function.update_noteq (hch i a ha) _ _
    · obtain ⟨k, v, hkv, hh⟩ := A.keyed i a ha
      refine ⟨k, v, ?_, hh⟩
      simp only [xns.views, kvOf_update_none]
      exact (Function.update_noteq (hch i a ha) _ _).trans hkv
    · simp only [xns.views, lockOf_update_none]
      exact (Function.update_noteq (hch i a ha) _ _).trans (A.unlocked i a ha)
    · simp only [xns.views, pcOf_update_none]
      exact Function.update_noteq (hpl c a ha) _ _
    · simp only [xns.views, kvOf_update_none] at hk hk1
      rw [Function.update_noteq (hch i a ha)] at hk
      rw [Function.update_noteq (hch i a1 ha1)] at hk1
      exact A.uniq hd i a a1 k v v1 ha ha1 hk hk1
  · exact A

/-- Every reachable state satisfies the invariant. -/
theorem Reachable.abs {b : Build} {HF : K → Nat} {s : xns K V} (hr : Reachable b HF s) :
    ∃ ch pl, Abs b HF s.views ch pl := by
  induction hr with
  | ctor dup => exact ⟨_, _, Abs.ctor b HF dup⟩
  | @insert s s1 fuel c ok key val r _ hc hstep ih =>
    obtain ⟨ch, pl, A⟩ := ih
    cases ok with
    | false =>
      rw [insert_null] at hstep
      cases hstep
      exact ⟨ch, pl, A⟩
    | true =>
      have hstep1 := insert_mono b HF (Nat.le_max_left fuel s.brk) hstep
      rcases insert_spec A hc (Nat.le_max_right fuel s.brk) key val with
        ⟨_, _, s2, h2, hv⟩ | ⟨hdup, s2, h2, hv⟩
      · rw [h2] at hstep1
        cases hstep1
        exact ⟨ch, pl, hv ▸ A.rejected key val⟩
      · rw [h2] at hstep1
        cases hstep1
        exact ⟨_, _, hv ▸ A.inserted hc key val hdup⟩
  | @remove s s1 fuel key vp r _ hstep ih =>
    obtain ⟨ch, pl, A⟩ := ih
    have hstep1 := remove_mono b HF (Nat.le_max_left fuel s.brk) hstep
    rcases remove_spec A (Nat.le_max_right fuel s.brk) key vp with
      ⟨_, h2⟩ | ⟨pre, e, post, c, ppre, ppost, n, pn, pp, s2, hch, _, _, hpl, hn, hpc, h2, hv⟩
    · rw [h2] at hstep1
      cases hstep1
      exact ⟨ch, pl, A⟩
    · rw [h2] at hstep1
      cases hstep1
      exact ⟨_, _, hv ▸ A.claimed hch hpl hn hpc⟩
  | collect p _ ih =>
    obtain ⟨ch, pl, A⟩ := ih
    exact ⟨ch, pl, A.collected p⟩

end Reach

/-! ## Reading the table -/

section Observe

variable {K V : Type}

/-- The entries met by following `next` from `p`: address, key and value of
each node, in chain order. -/
def chainEntries (s : xns K V) : Nat → Nat → Option (List (Nat × K × V))
  | 0, _ => none
  | fuel + 1, p =>
    if p = 0 then some []
    else
      match s.mem p with
      | none => none
      | some x => (chainEntries s fuel x.next).map (fun l => (p, x.key, x.val) :: l)

/-- The entries met by following `percore_next` from `p`. -/
def coreEntries (s : xns K V) : Nat → Nat → Option (List (Nat × K × V))
  | 0, _ => none
  | fuel + 1, p =>
    if p = 0 then some []
    else
      match s.mem p with
      | none => none
      | some x => (coreEntries s fuel x.percore_next).map (fun l => (p, x.key, x.val) :: l)

/-- The entries of the buckets `0 .. n-1`, bucket after bucket. -/
def tableEntries (s : xns K V) (fuel : Nat) : Nat → Option (List (Nat × K × V))
  | 0 => some []
  | n + 1 =>
    match tableEntries s fuel n, chainEntries s fuel (s.table n) with
    | some l, some c => some (l ++ c)
    | _, _ => none

/-- The live entries: the entries of all `NHASH` bucket chains. -/
def liveEntries (b : Build) (s : xns K V) (fuel : Nat) : Option (List (Nat × K × V)) :=
  tableEntries s fuel (NHASH b)

/-- The entry stored in a node. -/
def entry (e : Nat × xelem K V) : Nat × K × V := (e.1, e.2.key, e.2.val)

/-- The entries at the addresses `l`, read through the views. -/
def ents (w : Views K V) (l : List Nat) : List (Nat × K × V) :=
  l.filterMap (fun a => (w.kv a).map (fun kv => (a, kv.1, kv.2)))

/-- The value `lookup` returns on a chain with the entries `l`. -/
def lookupIn [DecidableEq K] [Zero V] (key : K) : List (Nat × K × V) → V
  | [] => 0
  | e :: l => if e.2.1 = key then e.2.2 else lookupIn key l

/-- The callback run on the entries `l`, one after the other. -/
def visit {σ : Type} (cb : σ → K → V → Bool × σ) (init : σ) (l : List (Nat × K × V)) : σ :=
  l.foldl (fun acc e => (cb acc e.2.1 e.2.2).2) init

theorem Walk.walk_ents {s : xns K V} {xs : List (Nat × xelem K V)} :
    ∀ {p : Nat}, Walk s.mem p xs → ents s.views (xs.map Prod.fst) = xs.map entry := by
  induction xs with
  | nil => intro p _; rfl
  | cons e xs ih =>
    intro p hp
    obtain ⟨_, _, hm, hrest⟩ := hp
    have := ih hrest
    simp only [Xns.ents] at this ⊢
    simp [List.filterMap_cons, kv_of_mem hm, this, entry]

theorem PWalk.pwalk_ents {s : xns K V} {xs : List (Nat × xelem K V)} :
    ∀ {p : Nat}, PWalk s.mem p xs → ents s.views (xs.map Prod.fst) = xs.map entry := by
  induction xs with
  | nil => intro p _; rfl
  | cons e xs ih =>
    intro p hp
    obtain ⟨_, _, hm, hrest⟩ := hp
    have := ih hrest
    simp only [Xns.ents] at this ⊢
    simp [List.filterMap_cons, kv_of_mem hm, this, entry]

theorem chainEntries_walk {s : xns K V} {xs : List (Nat × xelem K V)} :
    ∀ {fuel p : Nat}, Walk s.mem p xs → xs.length < fuel →
      chainEntries s fuel p = some (xs.map entry) := by
  induction xs with
  | nil =>
    intro fuel p hp hf
    cases fuel with
    | zero => cases hf
    | succ f => simp [chainEntries, show p = 0 from hp]
  | cons e xs ih =>
    intro fuel p hp hf
    obtain ⟨hpe, he0, hm, hrest⟩ := hp
    cases fuel with
    | zero => cases hf
    | succ f =>
      have hf1 : xs.length < f := by simpa using hf
      simp [chainEntries, hpe, he0, hm, ih hrest hf1, entry]

theorem coreEntries_walk {s : xns K V} {xs : List (Nat × xelem K V)} :
    ∀ {fuel p : Nat}, PWalk s.mem p xs → xs.length < fuel →
      coreEntries s fuel p = some (xs.map entry) := by
  induction xs with
  | nil =>
    intro fuel p hp hf
    cases fuel with
    | zero => cases hf
    | succ f => simp [coreEntries, show p = 0 from hp]
  | cons e xs ih =>
    intro fuel p hp hf
    obtain ⟨hpe, he0, hm, hrest⟩ := hp
    cases fuel with
    | zero => cases hf
    | succ f =>
      have hf1 : xs.length < f := by simpa using hf
      simp [coreEntries, hpe, he0, hm, ih hrest hf1, entry]

theorem lookup.walk_chain [DecidableEq K] [Zero V] {s : xns K V} (key : K)
    {xs : List (Nat × xelem K V)} :
    ∀ {fuel p : Nat}, Walk s.mem p xs → xs.length < fuel →
      lookup.walk s key fuel p = some (lookupIn key (xs.map entry)) := by
  induction xs with
  | nil =>
    intro fuel p hp hf
    cases fuel with
    | zero => cases hf
    | succ f => simp [lookup.walk, lookupIn, show p = 0 from hp]
  | cons e xs ih =>
    intro fuel p hp hf
    obtain ⟨hpe, he0, hm, hrest⟩ := hp
    cases fuel with
    | zero => cases hf
    | succ f =>
      have hf1 : xs.length < f := by simpa using hf
      by_cases hk : e.2.key = key
      · simp [lookup.walk, lookupIn, hpe, he0, hm, hk, entry]
      · simp [lookup.walk, lookupIn, hpe, he0, hm, hk, entry, ih hrest hf1]

theorem enumerate_key.walk_keyed [DecidableEq K] {σ : Type} {cb : σ → K → V → Bool × σ}
    (hcb : ∀ acc k v, (cb acc k v).1 = false) {s : xns K V} (key : K)
    {xs : List (Nat × xelem K V)} :
    ∀ {fuel p : Nat} (init : σ), Walk s.mem p xs → xs.length < fuel →
      enumerate_key.walk cb s key fuel p init
        = some (visit cb init ((xs.map entry).filter (fun e => decide (e.2.1 = key)))) := by
  induction xs with
  | nil =>
    intro fuel p init hp hf
    cases fuel with
    | zero => cases hf
    | succ f => simp [enumerate_key.walk, visit, show p = 0 from hp]
  | cons e xs ih =>
    intro fuel p init hp hf
    obtain ⟨hpe, he0, hm, hrest⟩ := hp
    cases fuel with
    | zero => cases hf
    | succ f =>
      have hf1 : xs.length < f := by simpa using hf
      by_cases hk : e.2.key = key
      · simp [enumerate_key.walk, hpe, he0, hm, hk, entry, hcb, ih _ hrest hf1, visit]
      · simp [enumerate_key.walk, hpe, he0, hm, hk, entry, ih _ hrest hf1, visit]

theorem enumerate.list_walk {σ : Type} {cb : σ → K → V → Bool × σ}
    (hcb : ∀ acc k v, (cb acc k v).1 = false) {s : xns K V}
    {xs : List (Nat × xelem K V)} :
    ∀ {fuel p : Nat} (init : σ), PWalk s.mem p xs → xs.length < fuel →
      enumerate.list cb s fuel p init = some (false, visit cb init (xs.map entry)) := by
  induction xs with
  | nil =>
    intro fuel p init hp hf
    cases fuel with
    | zero => cases hf
    | succ f => simp [enumerate.list, visit, show p = 0 from hp]
  | cons e xs ih =>
    intro fuel p init hp hf
    obtain ⟨hpe, he0, hm, hrest⟩ := hp
    cases fuel with
    | zero => cases hf
    | succ f =>
      have hf1 : xs.length < f := by simpa using hf
      simp [enumerate.list, hpe, he0, hm, entry, hcb, ih _ hrest hf1, visit]

theorem mem_ents {w : Views K V} {l : List Nat} {e : Nat × K × V} :
    e ∈ ents w l ↔ e.1 ∈ l ∧ w.kv e.1 = some e.2 := by
  unfold ents
  rw [List.mem_filterMap]
  constructor
  · rintro ⟨a, ha, hk⟩
    cases hkv : w.kv a with
    | none => simp [hkv] at hk
    | some kv =>
      simp only [hkv, Option.map_some', Option.some.injEq] at hk
      subst hk
      exact ⟨ha, hkv⟩
  · rintro ⟨ha, hk⟩
    exact ⟨e.1, ha, by simp [hk]⟩

theorem ents_congr {w w1 : Views K V} {l : List Nat} (hagree : ∀ a ∈ l, w1.kv a = w.kv a) :
    ents w1 l = ents w l := by
  unfold ents
  induction l with
  | nil => rfl
  | cons a l ih =>
    simp only [List.filterMap_cons, hagree a (List.mem_cons_self _ _)]
    rw [ih (fun a1 h1 => hagree a1 (List.mem_cons_of_mem _ h1))]

theorem ents_append (w : Views K V) (l1 l2 : List Nat) :
    ents w (l1 ++ l2) = ents w l1 ++ ents w l2 := by
  simp [ents, List.filterMap_append]

theorem ents_cons {w : Views K V} {a : Nat} {k : K} {v : V} (l : List Nat)
    (hk : w.kv a = some (k, v)) : ents w (a :: l) = (a, k, v) :: ents w l := by
  simp [ents, List.filterMap_cons, hk]

theorem ents_map_fst {w : Views K V} {l : List Nat}
    (hall : ∀ a ∈ l, ∃ k v, w.kv a = some (k, v)) : (ents w l).map Prod.fst = l := by
  induction l with
  | nil => rfl
  | cons a l ih =>
    obtain ⟨k, v, hk⟩ := hall a (List.mem_cons_self _ _)
    rw [ents_cons l hk, List.map_cons, ih (fun a1 h1 => hall a1 (List.mem_cons_of_mem _ h1))]

theorem Abs.has_kv {b : Build} {HF : K → Nat} {w : Views K V} {ch pl : Nat → List Nat}
    (A : Abs b HF w ch pl) (i : Nat) : ∀ a ∈ ch i, ∃ k v, w.kv a = some (k, v) := by
  intro a ha
  obtain ⟨k, v, hk, _⟩ := A.keyed i a ha
  exact ⟨k, v, hk⟩

theorem Abs.has_kv_core {b : Build} {HF : K → Nat} {w : Views K V} {ch pl : Nat → List Nat}
    (A : Abs b HF w ch pl) (c : Nat) : ∀ a ∈ pl c, ∃ k v, w.kv a = some (k, v) := by
  intro a ha
  obtain ⟨i, hi⟩ := (A.same a).2 ⟨c, ha⟩
  exact A.has_kv i a hi

theorem Abs.bucket {b : Build} {HF : K → Nat} {s : xns K V} {ch pl : Nat → List Nat}
    (A : Abs b HF s.views ch pl) {fuel : Nat} (hf : s.brk ≤ fuel) (i : Nat) :
    chainEntries s fuel (s.table i) = some (ents s.views (ch i)) := by
  obtain ⟨xs, hw, hmap⟩ := Walk.of_chain (A.chain i)
  have hlen : xs.length < fuel := by
    have := A.chain_length i
    rw [← hmap, List.length_map] at this
    exact Nat.lt_of_lt_of_le this hf
  rw [← hmap, hw.walk_ents]
  exact chainEntries_walk hw hlen

theorem Abs.core {b : Build} {HF : K → Nat} {s : xns K V} {ch pl : Nat → List Nat}
    (A : Abs b HF s.views ch pl) {fuel : Nat} (hf : s.brk ≤ fuel) (c : Nat) :
    coreEntries s fuel (s.percore c) = some (ents s.views (pl c)) := by
  obtain ⟨xs, hw, hmap⟩ := PWalk.of_plist (A.plist c)
  have hlen : xs.length < fuel := by
    have := A.plist_length c
    rw [← hmap, List.length_map] at this
    exact Nat.lt_of_lt_of_le this hf
  rw [← hmap, hw.pwalk_ents]
  exact coreEntries_walk hw hlen

theorem Abs.table {b : Build} {HF : K → Nat} {s : xns K V} {ch pl : Nat → List Nat}
    (A : Abs b HF s.views ch pl) {fuel : Nat} (hf : s.brk ≤ fuel) (n : Nat) :
    tableEntries s fuel n = some ((List.range n).flatMap (fun i => ents s.views (ch i))) := by
  induction n with
  | zero => rfl
  | succ n ih =>
    simp only [tableEntries, ih, A.bucket hf n, List.range_succ, List.flatMap_append,
      List.flatMap_singleton]

theorem Abs.live {b : Build} {HF : K → Nat} {s : xns K V} {ch pl : Nat → List Nat}
    (A : Abs b HF s.views ch pl) {fuel : Nat} (hf : s.brk ≤ fuel) :
    liveEntries b s fuel
      = some ((List.range (NHASH b)).flatMap (fun i => ents s.views (ch i))) :=
  A.table hf _

theorem Abs.lookup [DecidableEq K] [Zero V] {b : Build} {HF : K → Nat} {s : xns K V}
    {ch pl : Nat → List Nat} (A : Abs b HF s.views ch pl) {fuel : Nat} (hf : s.brk ≤ fuel)
    (key : K) :
    lookup b HF fuel s key = some (lookupIn key (ents s.views (ch (h b HF key)))) := by
  obtain ⟨xs, hw, hmap⟩ := Walk.of_chain (A.chain (h b HF key))
  have hlen : xs.length < fuel := by
    have := A.chain_length (h b HF key)
    rw [← hmap, List.length_map] at this
    exact Nat.lt_of_lt_of_le this hf
  rw [← hmap, hw.walk_ents]
  exact lookup.walk_chain key hw hlen

theorem Abs.enumerate_key [DecidableEq K] {σ : Type} {cb : σ → K → V → Bool × σ}
    (hcb : ∀ acc k v, (cb acc k v).1 = false) {b : Build} {HF : K → Nat} {s : xns K V}
    {ch pl : Nat → List Nat} (A : Abs b HF s.views ch pl) {fuel : Nat} (hf : s.brk ≤ fuel)
    (key : K) (init : σ) :
    enumerate_key b HF fuel s key cb init
      = some (visit cb init
          ((ents s.views (ch (h b HF key))).filter (fun e => decide (e.2.1 = key)))) := by
  obtain ⟨xs, hw, hmap⟩ := Walk.of_chain (A.chain (h b HF key))
  have hlen : xs.length < fuel := by
    have := A.chain_length (h b HF key)
    rw [← hmap, List.length_map] at this
    exact Nat.lt_of_lt_of_le this hf
  rw [← hmap, hw.walk_ents]
  exact enumerate_key.walk_keyed hcb key init hw hlen

theorem visit_append {σ : Type} (cb : σ → K → V → Bool × σ) (init : σ)
    (l1 l2 : List (Nat × K × V)) :
    visit cb init (l1 ++ l2) = visit cb (visit cb init l1) l2 := by
  simp [visit, List.foldl_append]

theorem Abs.cores {σ : Type} {cb : σ → K → V → Bool × σ}
    (hcb : ∀ acc k v, (cb acc k v).1 = false) {b : Build} {HF : K → Nat} {s : xns K V}
    {ch pl : Nat → List Nat} (A : Abs b HF s.views ch pl) {fuel : Nat} (hf : s.brk ≤ fuel)
    (cpuoffset : Nat) :
    ∀ (n i : Nat) (init : σ),
      enumerate.cores b cb s fuel cpuoffset n i init
        = some (visit cb init ((List.range' i n).flatMap
            (fun j => ents s.views (pl ((j + cpuoffset) % b.NCPU))))) := by
  intro n
  induction n with
  | zero => intro i init; rfl
  | succ n ih =>
    intro i init
    obtain ⟨xs, hw, hmap⟩ := PWalk.of_plist (A.plist ((i + cpuoffset) % b.NCPU))
    have hlen : xs.length < fuel := by
      have := A.plist_length ((i + cpuoffset) % b.NCPU)
      rw [← hmap, List.length_map] at this
      exact Nat.lt_of_lt_of_le this hf
    have hlist := enumerate.list_walk hcb init hw hlen
    rw [← hw.pwalk_ents, hmap] at hlist
    simp only [enumerate.cores]
    rw [show s.percore = s.views.percore from rfl, hlist]
    simp only [ih, List.range'_succ, List.flatMap_cons, visit_append]

theorem Abs.enumerate {σ : Type} {cb : σ → K → V → Bool × σ}
    (hcb : ∀ acc k v, (cb acc k v).1 = false) {b : Build} {HF : K → Nat} {s : xns K V}
    {ch pl : Nat → List Nat} (A : Abs b HF s.views ch pl) {fuel : Nat} (hf : s.brk ≤ fuel)
    (cpuoffset : Nat) (init : σ) :
    enumerate b fuel s cpuoffset cb init
      = some (visit cb init ((List.range b.NCPU).flatMap
          (fun j => ents s.views (pl ((j + cpuoffset) % b.NCPU))))) := by
  rw [List.range_eq_range']
  exact A.cores hcb hf cpuoffset b.NCPU 0 init

end Observe

/-! ## The claims -/

section Claims

variable {K V : Type} [DecidableEq K] [DecidableEq V]

theorem filter_length_le_one {α : Type} {κ : Type} [DecidableEq κ] (f : α → κ) (k : κ) :
    ∀ {L : List α}, L.Pairwise (fun e1 e2 => f e1 ≠ f e2) →
      (L.filter (fun e => decide (f e = k))).length ≤ 1 := by
  intro L
  induction L with
  | nil => intro _; simp
  | cons x L ih =>
    intro hp
    obtain ⟨hx, hrest⟩ := List.pairwise_cons.1 hp
    by_cases hk : f x = k
    · have hnone : L.filter (fun e => decide (f e = k)) = [] := by
        rw [List.filter_eq_nil_iff]
        intro e he hh
        exact hx e he (hk.trans (of_decide_eq_true hh).symm)
      simp [List.filter_cons, hk, hnone]
    · simpa [List.filter_cons, hk] using ih hrest

/-- Keys of the live entries of a table without duplicates are pairwise
distinct. -/
theorem Abs.keys_distinct {b : Build} {HF : K → Nat} {w : Views K V} {ch pl : Nat → List Nat}
    (A : Abs b HF w ch pl) (hd : w.allowdup = false) (n : Nat) :
    ((List.range n).flatMap (fun i => ents w (ch i))).Pairwise
      (fun e1 e2 => e1.2.1 ≠ e2.2.1) := by
  rw [List.pairwise_flatMap]
  constructor
  · intro i _
    have hnd : ((ents w (ch i)).map Prod.fst).Nodup := by
      rw [ents_map_fst (A.has_kv i)]; exact A.nodup i
    have hpw : (ents w (ch i)).Pairwise (fun e1 e2 => e1.1 ≠ e2.1) :=
      List.pairwise_map.1 hnd
    refine List.Pairwise.imp_of_mem (fun {e1 e2} h1 h2 hne hk => ?_) hpw
    obtain ⟨ha1, hk1⟩ := mem_ents.1 h1
    obtain ⟨ha2, hk2⟩ := mem_ents.1 h2
    refine hne (A.uniq hd i e1.1 e2.1 e1.2.1 e1.2.2 e2.2.2 ha1 ha2 hk1 ?_)
    rw [hk2, hk]
  · refine List.Pairwise.imp (fun {i j} hij e1 h1 e2 h2 hk => ?_) (List.pairwise_lt_range n)
    obtain ⟨ha1, hk1⟩ := mem_ents.1 h1
    obtain ⟨ha2, hk2⟩ := mem_ents.1 h2
    obtain ⟨k1, v1, hkv1, hh1⟩ := A.keyed i e1.1 ha1
    obtain ⟨k2, v2, hkv2, hh2⟩ := A.keyed j e2.1 ha2
    have e1k : e1.2.1 = k1 := by
      rw [hk1] at hkv1; exact congrArg Prod.fst (Option.some.inj hkv1)
    have e2k : e2.2.1 = k2 := by
      rw [hk2] at hkv2; exact congrArg Prod.fst (Option.some.inj hkv2)
    rw [← e1k, hk, e2k] at hh1
    exact Nat.ne_of_lt hij (hh1.symm.trans hh2)

/-- C1 (uniqueness): in a table built with duplicates disallowed, after any
sequence of completed `insert` and `remove` calls, the bucket chains hold
at most one entry with any given key. -/
theorem C1_uniqueness {b : Build} {HF : K → Nat} {s : xns K V} (hr : Reachable b HF s)
    (hd : s.allowdup = false) :
    ∃ L, (∀ fuel, s.brk ≤ fuel → liveEntries b s fuel = some L) ∧
      ∀ k, (L.filter (fun e => decide (e.2.1 = k))).length ≤ 1 := by
  obtain ⟨ch, pl, A⟩ := hr.abs
  exact ⟨_, fun fuel hf => A.live hf,
    fun k => filter_length_le_one (fun e : Nat × K × V => e.2.1) k (A.keys_distinct hd _)⟩

/-- The three ways a completed `insert` can end, whatever fuel it was run
with. -/
theorem insert_cases {b : Build} {HF : K → Nat} {s s1 : xns K V} {ch pl : Nat → List Nat}
    (A : Abs b HF s.views ch pl) {c : Nat} (hc : c < b.NCPU) {fuel : Nat} {ok : Bool}
    {key : K} {val : V} {r : Int}
    (hstep : insert b HF fuel s c ok key val = some (r, s1)) :
    (r = -1 ∧ ok = false ∧ s1 = s) ∨
    (r = -1 ∧ ok = true ∧ s.allowdup = false ∧
      (∃ a ∈ ch (h b HF key), ∃ v, s.views.kv a = some (key, v)) ∧
      s1.views = s.views.rejected key val) ∨
    (r = 0 ∧ ok = true ∧
      (s.allowdup = true ∨ ∀ a ∈ ch (h b HF key), ∀ v, s.views.kv a ≠ some (key, v)) ∧
      s1.views = s.views.inserted c (h b HF key) key val) := by
  cases ok with
  | false =>
    rw [insert_null] at hstep
    cases hstep
    exact Or.inl ⟨rfl, rfl, rfl⟩
  | true =>
    have hstep1 := insert_mono b HF (Nat.le_max_left fuel s.brk) hstep
    rcases insert_spec A hc (Nat.le_max_right fuel s.brk) key val with
      ⟨hd, hex, s2, h2, hv⟩ | ⟨hdup, s2, h2, hv⟩
    · rw [h2] at hstep1
      cases hstep1
      exact Or.inr (Or.inl ⟨rfl, rfl, hd, hex, hv⟩)
    · rw [h2] at hstep1
      cases hstep1
      exact Or.inr (Or.inr ⟨rfl, rfl, hdup, hv⟩)

/-- The two ways a completed `remove` can end, whatever fuel it was run
with. -/
theorem remove_cases {b : Build} {HF : K → Nat} {s s1 : xns K V} {ch pl : Nat → List Nat}
    (A : Abs b HF s.views ch pl) {fuel : Nat} {key : K} {vp : Option V} {r : Bool}
    (hstep : remove b HF fuel s key vp = some (r, s1)) :
    (r = false ∧ s1 = s ∧ ∀ a ∈ ch (h b HF key), ¬ s.views.hit key vp a) ∨
    (r = true ∧ ∃ pre e post c ppre ppost n pn pp,
      ch (h b HF key) = pre ++ e :: post ∧ (∀ a ∈ pre, ¬ s.views.hit key vp a) ∧
      s.views.hit key vp e ∧ pl c = ppre ++ e :: ppost ∧
      s.views.nx e = some n ∧ s.views.pc e = some (c, pn, some pp) ∧
      s1.views = s.views.claimed (lockAt .fake pre) (linkAt (.bucket (h b HF key)) pre)
        e n pp pn) := by
  have hstep1 := remove_mono b HF (Nat.le_max_left fuel s.brk) hstep
  rcases remove_spec A (Nat.le_max_right fuel s.brk) key vp with
    ⟨hno, h2⟩ | ⟨pre, e, post, c, ppre, ppost, n, pn, pp, s2, hch, hno, hhit, hpl, hn, hpc, h2, hv⟩
  · rw [h2] at hstep1
    cases hstep1
    exact Or.inl ⟨rfl, rfl, hno⟩
  · rw [h2] at hstep1
    cases hstep1
    exact Or.inr ⟨rfl, pre, e, post, c, ppre, ppost, n, pn, pp, hch, hno, hhit, hpl, hn, hpc, hv⟩

theorem lookupIn_none [Zero V] (key : K) :
    ∀ (l : List (Nat × K × V)), (∀ e ∈ l, e.2.1 ≠ key) → lookupIn key l = 0 := by
  intro l
  induction l with
  | nil => intro _; rfl
  | cons e l ih =>
    intro hno
    simp only [lookupIn, hno e (List.mem_cons_self _ _), if_false]
    exact ih (fun e1 h1 => hno e1 (List.mem_cons_of_mem _ h1))

/-- C2 (insert-then-lookup): under either duplicate policy, when
`insert(k, v)` returns 0 on a reachable table, a `lookup(k)` run right after
it returns `v`. -/
theorem C2_insert_then_lookup [Zero V] {b : Build} {HF : K → Nat} {s s1 : xns K V}
    (hr : Reachable b HF s) {c : Nat} (hc : c < b.NCPU) {fuel : Nat} {ok : Bool}
    {k : K} {v : V} (hins : insert b HF fuel s c ok k v = some (0, s1)) :
    ∀ fuel1, s1.brk ≤ fuel1 → lookup b HF fuel1 s1 k = some v := by
  obtain ⟨ch, pl, A⟩ := hr.abs
  intro fuel1 hf1
  rcases insert_cases A hc hins with ⟨h0, _⟩ | ⟨h0, _⟩ | ⟨_, _, hdup, hv⟩
  · cases h0
  · cases h0
  · have A1 := A.inserted hc k v hdup
    rw [← hv] at A1
    rw [A1.lookup hf1 k, Function.update_same]
    have hk : s1.views.kv s.brk = some (k, v) := by
      rw [hv]; exact Function.update_same _ _ _
    rw [show s.views.brk = s.brk from rfl, ents_cons _ hk]
    simp [lookupIn]

/-- C3, as amended (remove-then-lookup): on a reachable table built with
duplicates disallowed, when `remove(k)` without a value filter returns true,
a `lookup(k)` run right after it returns the not-found result 0. -/
theorem C3_remove_then_lookup [Zero V] {b : Build} {HF : K → Nat} {s s1 : xns K V}
    (hr : Reachable b HF s) (hd : s.allowdup = false) {fuel : Nat} {k : K}
    (hrem : remove b HF fuel s k none = some (true, s1)) :
    ∀ fuel1, s1.brk ≤ fuel1 → lookup b HF fuel1 s1 k = some 0 := by
  obtain ⟨ch, pl, A⟩ := hr.abs
  intro fuel1 hf1
  rcases remove_cases A hrem with ⟨h0, _⟩ |
    ⟨_, pre, e, post, c, ppre, ppost, n, pn, pp, hch, _, hhit, hpl, hn, hpc, hv⟩
  · cases h0
  · have A1 := A.claimed hch hpl hn hpc
    rw [← hv] at A1
    rw [A1.lookup hf1 k, Function.update_same]
    refine congrArg some (lookupIn_none k _ (fun e1 he1 hk => ?_))
    obtain ⟨hin, hkv⟩ := mem_ents.1 he1
    rw [hv, Views.claimed_kv] at hkv
    obtain ⟨v, hev, _⟩ := hhit
    have hnd : (pre ++ e :: post).Nodup := hch ▸ A.nodup _
    have hin1 : e1.1 ∈ ch (h b HF k) := by
      rw [hch]
      rcases List.mem_append.1 hin with h1 | h1
      · exact List.mem_append_left _ h1
      · exact List.mem_append_right _ (List.mem_cons_of_mem _ h1)
    have hee : e1.1 = e := by
      refine A.uniq hd _ e1.1 e k e1.2.2 v hin1 (by rw [hch]; simp) ?_ hev
      rw [hkv, ← hk]
    rw [hee] at hin
    rcases List.mem_append.1 hin with h1 | h1
    · exact (List.nodup_append.1 hnd).2.2 h1 (List.mem_cons_self _ _)
    · exact (List.nodup_cons.1 (List.nodup_append.1 hnd).2.1).1 h1

theorem NHASH_pos (b : Build) : 0 < NHASH b := by
  unfold NHASH
  split <;> decide

theorem h_lt (b : Build) (HF : K → Nat) (key : K) : h b HF key < NHASH b :=
  Nat.mod_lt _ (NHASH_pos b)

/-- An entry is live exactly when it is in the chain of the bucket its key
hashes to. -/
theorem Abs.mem_live {b : Build} {HF : K → Nat} {w : Views K V} {ch pl : Nat → List Nat}
    (A : Abs b HF w ch pl) (e : Nat × K × V) :
    e ∈ (List.range (NHASH b)).flatMap (fun i => ents w (ch i))
      ↔ e ∈ ents w (ch (h b HF e.2.1)) := by
  rw [List.mem_flatMap]
  constructor
  · rintro ⟨i, _, hi⟩
    obtain ⟨hin, hkv⟩ := mem_ents.1 hi
    obtain ⟨k, v, hk, hh⟩ := A.keyed i e.1 hin
    rw [hkv] at hk
    have hek : e.2.1 = k := congrArg Prod.fst (Option.some.inj hk)
    rw [hek, hh]
    exact hi
  · intro hi
    exact ⟨_, List.mem_range.2 (h_lt b HF _), hi⟩

/-- C5 (outcome of insert): when the allocation succeeds, `insert(k, v)` on a
reachable table returns -1 exactly when duplicates are disallowed and a live
entry has key `k`, and returns 0 in every other case. -/
theorem C5_insert_outcome {b : Build} {HF : K → Nat} {s : xns K V}
    (hr : Reachable b HF s) {c : Nat} (hc : c < b.NCPU) (k : K) (v : V) :
    ∃ L, (∀ fuel, s.brk ≤ fuel → liveEntries b s fuel = some L) ∧
      ∀ fuel, s.brk ≤ fuel → ∃ r s1, insert b HF fuel s c true k v = some (r, s1) ∧
        (r = -1 ∨ r = 0) ∧
        (r = -1 ↔ (s.allowdup = false ∧ ∃ e ∈ L, e.2.1 = k)) := by
  obtain ⟨ch, pl, A⟩ := hr.abs
  refine ⟨_, fun fuel hf => A.live hf, fun fuel hf => ?_⟩
  have hiff : (∃ a ∈ ch (h b HF k), ∃ v1, s.views.kv a = some (k, v1)) ↔
      ∃ e ∈ (List.range (NHASH b)).flatMap (fun i => ents s.views (ch i)), e.2.1 = k := by
    constructor
    · rintro ⟨a, ha, v1, hv1⟩
      exact ⟨(a, k, v1), (A.mem_live _).2 (mem_ents.2 ⟨ha, hv1⟩), rfl⟩
    · rintro ⟨e, he, hek⟩
      have := (A.mem_live e).1 he
      rw [hek] at this
      obtain ⟨hin, hkv⟩ := mem_ents.1 this
      exact ⟨e.1, hin, e.2.2, by rw [hkv, ← hek]⟩
  rcases insert_spec A hc hf k v with ⟨hd, hex, s1, h1, _⟩ | ⟨hdup, s1, h1, _⟩
  · exact ⟨-1, s1, h1, Or.inl rfl, fun _ => ⟨hd, hiff.1 hex⟩, fun _ => rfl⟩
  · refine ⟨0, s1, h1, Or.inr rfl, ⟨fun h0 => (by cases h0), fun ⟨hd, hex⟩ => ?_⟩⟩
    rcases hdup with h2 | h2
    · rw [hd] at h2; cases h2
    · obtain ⟨a, ha, v1, hv1⟩ := hiff.2 hex
      exact absurd hv1 (h2 a ha v1)

/-- C6 (outcome of remove): on a reachable table `remove(k, vp)` returns true
exactly when a live entry has key `k` and, when a filter is given, the
filter's value; otherwise it returns false. -/
theorem C6_remove_outcome {b : Build} {HF : K → Nat} {s : xns K V}
    (hr : Reachable b HF s) (k : K) (vp : Option V) :
    ∃ L, (∀ fuel, s.brk ≤ fuel → liveEntries b s fuel = some L) ∧
      ∀ fuel, s.brk ≤ fuel → ∃ r s1, remove b HF fuel s k vp = some (r, s1) ∧
        (r = true ↔ ∃ e ∈ L, e.2.1 = k ∧ (vp = none ∨ vp = some e.2.2)) := by
  obtain ⟨ch, pl, A⟩ := hr.abs
  refine ⟨_, fun fuel hf => A.live hf, fun fuel hf => ?_⟩
  have hiff : (∃ a ∈ ch (h b HF k), s.views.hit k vp a) ↔
      ∃ e ∈ (List.range (NHASH b)).flatMap (fun i => ents s.views (ch i)),
        e.2.1 = k ∧ (vp = none ∨ vp = some e.2.2) := by
    constructor
    · rintro ⟨a, ha, v1, hv1, hvp⟩
      exact ⟨(a, k, v1), (A.mem_live _).2 (mem_ents.2 ⟨ha, hv1⟩), rfl, hvp⟩
    · rintro ⟨e, he, hek, hvp⟩
      have := (A.mem_live e).1 he
      rw [hek] at this
      obtain ⟨hin, hkv⟩ := mem_ents.1 this
      exact ⟨e.1, hin, e.2.2, by rw [hkv, ← hek], hvp⟩
  rcases remove_spec A hf k vp with
    ⟨hno, h1⟩ | ⟨pre, e, post, c, ppre, ppost, n, pn, pp, s1, hch, _, hhit, _, _, _, h1, _⟩
  · refine ⟨false, s, h1, ⟨fun h0 => (by cases h0), fun hex => ?_⟩⟩
    obtain ⟨a, ha, hhit⟩ := hiff.2 hex
    exact absurd hhit (hno a ha)
  · exact ⟨true, s1, h1, fun _ => hiff.1 ⟨e, by rw [hch]; simp, hhit⟩, fun _ => rfl⟩

/-- Every bucket chain and every per-core list holds the same entries, in the
same order, in `s1` as in `s`. -/
def Unchanged (s s1 : xns K V) : Prop :=
  ∀ j, ∃ L P,
    (∀ fuel, s.brk ≤ fuel →
      chainEntries s fuel (s.table j) = some L ∧ coreEntries s fuel (s.percore j) = some P) ∧
    (∀ fuel, s1.brk ≤ fuel →
      chainEntries s1 fuel (s1.table j) = some L ∧
        coreEntries s1 fuel (s1.percore j) = some P)

/-- C7 (failure atomicity): an `insert` that returns -1 (equal key met, or no
memory) and a `remove` that returns false leave every bucket chain and every
per-core list as they were. -/
theorem C7_failure_atomicity {b : Build} {HF : K → Nat} {s : xns K V}
    (hr : Reachable b HF s) :
    (∀ (c fuel : Nat) (ok : Bool) (k : K) (v : V) (s1 : xns K V), c < b.NCPU →
      insert b HF fuel s c ok k v = some (-1, s1) → Unchanged s s1) ∧
    (∀ (fuel : Nat) (k : K) (vp : Option V) (s1 : xns K V),
      remove b HF fuel s k vp = some (false, s1) → Unchanged s s1) := by
  obtain ⟨ch, pl, A⟩ := hr.abs
  have hsame : Unchanged s s := fun j =>
    ⟨_, _, fun fuel hf => ⟨A.bucket hf j, A.core hf j⟩, fun fuel hf => ⟨A.bucket hf j, A.core hf j⟩⟩
  constructor
  · intro c fuel ok k v s1 hc hins
    rcases insert_cases A hc hins with ⟨_, _, hs⟩ | ⟨_, _, _, _, hv⟩ | ⟨h0, _⟩
    · rw [hs]; exact hsame
    · have A1 := A.rejected k v
      rw [← hv] at A1
      have htab : s1.table = s.table := congrArg Views.table hv
      have hper : s1.percore = s.percore := congrArg Views.percore hv
      have hkv : ∀ a, a < s.brk → s1.views.kv a = s.views.kv a := by
        intro a ha
        rw [hv]
        exact Function.update_noteq (Nat.ne_of_lt ha) _ _
      intro j
      refine ⟨_, _, fun fuel hf => ⟨A.bucket hf j, A.core hf j⟩, fun fuel hf => ?_⟩
      rw [htab, hper]
      constructor
      · rw [← htab, A1.bucket hf j]
        exact congrArg some (ents_congr (fun a ha => hkv a (A.below j a ha)))
      · rw [← hper, A1.core hf j]
        exact congrArg some (ents_congr (fun a ha => hkv a (A.mem_plist ha).2))
    · cases h0
  · intro fuel k vp s1 hrem
    rcases remove_cases A hrem with ⟨_, hs, _⟩ | ⟨h0, _⟩
    · rw [hs]; exact hsame
    · cases h0

theorem Abs.ents_nodup {b : Build} {HF : K → Nat} {w : Views K V} {ch pl : Nat → List Nat}
    (A : Abs b HF w ch pl) (i : Nat) : (ents w (ch i)).Nodup := by
  refine List.Nodup.of_map Prod.fst ?_
  rw [ents_map_fst (A.has_kv i)]
  exact A.nodup i

theorem Abs.ents_nodup_core {b : Build} {HF : K → Nat} {w : Views K V}
    {ch pl : Nat → List Nat} (A : Abs b HF w ch pl) (c : Nat) : (ents w (pl c)).Nodup := by
  refine List.Nodup.of_map Prod.fst ?_
  rw [ents_map_fst (A.has_kv_core c)]
  exact A.pnodup c

theorem Abs.live_nodup {b : Build} {HF : K → Nat} {w : Views K V} {ch pl : Nat → List Nat}
    (A : Abs b HF w ch pl) (n : Nat) :
    ((List.range n).flatMap (fun i => ents w (ch i))).Nodup := by
  rw [List.nodup_flatMap]
  refine ⟨fun i _ => A.ents_nodup i, ?_⟩
  refine List.Pairwise.imp (fun {i j} hij => ?_) (List.pairwise_lt_range n)
  intro e h1 h2
  exact Nat.ne_of_lt hij (A.bucket_unique (mem_ents.1 h1).1 (mem_ents.1 h2).1)

theorem shift_inj {n c i j : Nat} (hi : i < n) (hj : j < n)
    (hh : (i + c) % n = (j + c) % n) : i = j := by
  have h1 : i ≡ j [MOD n] := Nat.ModEq.add_right_cancel' c hh
  have h2 : i % n = j % n := h1
  rwa [Nat.mod_eq_of_lt hi, Nat.mod_eq_of_lt hj] at h2

theorem shift_surj {n c d : Nat} (hd : d < n) : ∃ j, j < n ∧ (j + c) % n = d := by
  have hn : 0 < n := Nat.lt_of_le_of_lt (Nat.zero_le _) hd
  refine ⟨(d + (n - c % n)) % n, Nat.mod_lt _ hn, ?_⟩
  have hr : c % n < n := Nat.mod_lt _ hn
  have hc : c = n * (c / n) + c % n := (Nat.div_add_mod c n).symm
  rw [Nat.mod_add_mod]
  have hsum : d + (n - c % n) + c = d + n * (c / n + 1) := by
    have : n * (c / n + 1) = n * (c / n) + n := by ring
    omega
  rw [hsum, Nat.add_mul_mod_self_left, Nat.mod_eq_of_lt hd]

theorem Abs.visited_nodup {b : Build} {HF : K → Nat} {w : Views K V} {ch pl : Nat → List Nat}
    (A : Abs b HF w ch pl) (c : Nat) :
    ((List.range b.NCPU).flatMap (fun j => ents w (pl ((j + c) % b.NCPU)))).Nodup := by
  rw [List.nodup_flatMap]
  refine ⟨fun i _ => A.ents_nodup_core _, ?_⟩
  refine List.Pairwise.imp_of_mem (fun {i j} hi hj hij => ?_) (List.nodup_range b.NCPU)
  intro e h1 h2
  exact hij (shift_inj (List.mem_range.1 hi) (List.mem_range.1 hj)
    (A.core_unique (mem_ents.1 h1).1 (mem_ents.1 h2).1))

theorem Abs.visited_perm {b : Build} {HF : K → Nat} {w : Views K V} {ch pl : Nat → List Nat}
    (A : Abs b HF w ch pl) (c : Nat) :
    ((List.range b.NCPU).flatMap (fun j => ents w (pl ((j + c) % b.NCPU)))).Perm
      ((List.range (NHASH b)).flatMap (fun i => ents w (ch i))) := by
  rw [List.perm_ext_iff_of_nodup (A.visited_nodup c) (A.live_nodup _)]
  intro e
  rw [A.mem_live e, List.mem_flatMap]
  constructor
  · rintro ⟨j, _, hj⟩
    obtain ⟨hin, hkv⟩ := mem_ents.1 hj
    obtain ⟨i, hi⟩ := (A.same e.1).2 ⟨_, hin⟩
    obtain ⟨k, v, hk, hh⟩ := A.keyed i e.1 hi
    rw [hkv] at hk
    have hek : e.2.1 = k := congrArg Prod.fst (Option.some.inj hk)
    rw [hek, hh]
    exact mem_ents.2 ⟨hi, hkv⟩
  · intro hi
    obtain ⟨hin, hkv⟩ := mem_ents.1 hi
    obtain ⟨d, hd⟩ := (A.same e.1).1 ⟨_, hin⟩
    obtain ⟨j, hj, hjd⟩ := shift_surj (c := c) (A.pcpu d e.1 hd)
    exact ⟨j, List.mem_range.2 hj, mem_ents.2 ⟨by rw [hjd]; exact hd, hkv⟩⟩

/-- C8 (enumeration completeness): on a reachable table, whatever the id `c`
of the calling worker, `enumerate` with a callback that never asks to stop
calls it once for each live entry and for nothing else: the entries visited
are a permutation of the entries of all bucket chains. -/
theorem C8_enumeration_complete {b : Build} {HF : K → Nat} {s : xns K V}
    (hr : Reachable b HF s) (c : Nat) :
    ∃ visited live, (∀ fuel, s.brk ≤ fuel → liveEntries b s fuel = some live) ∧
      visited.Perm live ∧
      ∀ (σ : Type) (cb : σ → K → V → Bool × σ) (init : σ),
        (∀ acc k v, (cb acc k v).1 = false) →
        ∀ fuel, s.brk ≤ fuel → enumerate b fuel s c cb init = some (visit cb init visited) := by
  obtain ⟨ch, pl, A⟩ := hr.abs
  exact ⟨_, _, fun fuel hf => A.live hf, A.visited_perm c,
    fun σ cb init hcb fuel hf => A.enumerate hcb hf c init⟩

theorem filter_flatMap_single {α : Type} (f : Nat → List α) (p : α → Bool) (i0 : Nat)
    (hother : ∀ i, i ≠ i0 → (f i).filter p = []) :
    ∀ n, ((List.range n).flatMap f).filter p = if i0 < n then (f i0).filter p else [] := by
  intro n
  induction n with
  | zero => rfl
  | succ n ih =>
    rw [List.range_succ, List.flatMap_append, List.filter_append, ih]
    simp only [List.flatMap_cons, List.flatMap_nil, List.append_nil]
    by_cases h1 : i0 < n
    · have hne : n ≠ i0 := by omega
      simp [h1, hother n hne, Nat.lt_succ_of_lt h1]
    · by_cases h2 : i0 = n
      · subst h2; simp
      · have h3 : ¬ i0 < n + 1 := by omega
        simp [h1, h3, hother n (fun hh => h2 hh.symm)]

theorem Abs.live_filter_key {b : Build} {HF : K → Nat} {w : Views K V}
    {ch pl : Nat → List Nat} (A : Abs b HF w ch pl) (k : K) :
    ((List.range (NHASH b)).flatMap (fun i => ents w (ch i))).filter
        (fun e => decide (e.2.1 = k))
      = (ents w (ch (h b HF k))).filter (fun e => decide (e.2.1 = k)) := by
  rw [filter_flatMap_single (fun i => ents w (ch i)) _ (h b HF k) ?_ (NHASH b),
    if_pos (h_lt b HF k)]
  intro i hi
  rw [List.filter_eq_nil_iff]
  intro e he hk
  obtain ⟨hin, hkv⟩ := mem_ents.1 he
  obtain ⟨k1, v1, hk1, hh⟩ := A.keyed i e.1 hin
  rw [hkv] at hk1
  have hek : e.2.1 = k1 := congrArg Prod.fst (Option.some.inj hk1)
  rw [← hek, of_decide_eq_true hk] at hh
  exact hi hh.symm

/-- C10 (enumerate_key): on a reachable table, `enumerate_key(k, cb)` with a
callback that never asks to stop calls it on the live entries whose key is
`k`, once each, and on no entry with another key. -/
theorem C10_enumerate_key {b : Build} {HF : K → Nat} {s : xns K V}
    (hr : Reachable b HF s) (k : K) :
    ∃ live, (∀ fuel, s.brk ≤ fuel → liveEntries b s fuel = some live) ∧
      ∀ (σ : Type) (cb : σ → K → V → Bool × σ) (init : σ),
        (∀ acc k1 v, (cb acc k1 v).1 = false) →
        ∀ fuel, s.brk ≤ fuel →
          enumerate_key b HF fuel s k cb init
            = some (visit cb init (live.filter (fun e => decide (e.2.1 = k)))) := by
  obtain ⟨ch, pl, A⟩ := hr.abs
  refine ⟨_, fun fuel hf => A.live hf, fun σ cb init hcb fuel hf => ?_⟩
  rw [A.live_filter_key k]
  exact A.enumerate_key hcb hf k init

theorem ents_erase {w : Views K V} {a : Nat} {k : K} {v : V} (hk : w.kv a = some (k, v)) :
    ∀ (l : List Nat), ents w (l.erase a) = (ents w l).erase (a, k, v) := by
  intro l
  induction l with
  | nil => rfl
  | cons x l ih =>
    by_cases hx : x = a
    · subst hx
      rw [List.erase_cons_head, ents_cons l hk, List.erase_cons_head]
    · rw [List.erase_cons_tail (by simpa using hx)]
      cases hkx : w.kv x with
      | none =>
        have h1 : ∀ t, ents w (x :: t) = ents w t := fun t => by
          simp [ents, List.filterMap_cons, hkx]
        rw [h1, h1, ih]
      | some kvx =>
        obtain ⟨k1, v1⟩ := kvx
        rw [ents_cons _ hkx, ents_cons _ hkx, ih,
          List.erase_cons_tail (by simpa using fun hh _ _ => hx hh)]

theorem update_cut_erase {ch : Nat → List Nat} {i : Nat} {pre post : List Nat} {e : Nat}
    (hch : ch i = pre ++ e :: post) (hnd : (ch i).Nodup)
    (hother : ∀ j, j ≠ i → e ∉ ch j) (j : Nat) :
    Function.update ch i (pre ++ post) j = (ch j).erase e := by
  by_cases hj : j = i
  · subst hj
    rw [Function.update_same, hch]
    rw [hch] at hnd
    have he1 : e ∉ pre := fun hh =>
      (List.nodup_append.1 hnd).2.2 hh (List.mem_cons_self _ _)
    rw [List.erase_append_right _ he1, List.erase_cons_head]
  · rw [Function.update_noteq hj, List.erase_of_not_mem (hother j hj)]

/-- C9 (filtered remove): when `remove(k, v)` with a value filter returns
true on a reachable table, one entry `(a, k, v)` of the chain of bucket
`h(k)` is gone from that chain and from the one per-core list that held it,
and every chain and per-core list keeps its other entries in their order. -/
theorem C9_filtered_remove {b : Build} {HF : K → Nat} {s s1 : xns K V}
    (hr : Reachable b HF s) {fuel : Nat} {k : K} {v : V}
    (hrem : remove b HF fuel s k (some v) = some (true, s1)) :
    ∃ a c,
      (∃ L, (∀ fuel1, s.brk ≤ fuel1 →
          chainEntries s fuel1 (s.table (h b HF k)) = some L) ∧ (a, k, v) ∈ L) ∧
      ∀ j, ∃ L P,
        (∀ fuel1, s.brk ≤ fuel1 →
          chainEntries s fuel1 (s.table j) = some L ∧
            coreEntries s fuel1 (s.percore j) = some P) ∧
        (∀ fuel1, s1.brk ≤ fuel1 →
          chainEntries s1 fuel1 (s1.table j) = some (L.erase (a, k, v)) ∧
            coreEntries s1 fuel1 (s1.percore j) = some (P.erase (a, k, v))) ∧
        (j ≠ h b HF k → (a, k, v) ∉ L) ∧ (j ≠ c → (a, k, v) ∉ P) := by
  obtain ⟨ch, pl, A⟩ := hr.abs
  rcases remove_cases A hrem with ⟨h0, _⟩ |
    ⟨_, pre, e, post, c, ppre, ppost, n, pn, pp, hch, _, hhit, hpl, hn, hpc, hv⟩
  · cases h0
  · have A1 := A.claimed hch hpl hn hpc
    rw [← hv] at A1
    obtain ⟨v1, hkv1, hvp⟩ := hhit
    have hvv : v1 = v := by
      rcases hvp with h1 | h1
      · cases h1
      · exact (Option.some.inj h1).symm
    subst hvv
    have hei : e ∈ ch (h b HF k) := by rw [hch]; simp
    have hec : e ∈ pl c := by rw [hpl]; simp
    have hkv : s1.views.kv = s.views.kv := by rw [hv, Views.claimed_kv]
    have hents : ∀ l, ents s1.views l = ents s.views l := fun l =>
      ents_congr (fun a _ => by rw [hkv])
    refine ⟨e, c, ⟨_, fun fuel1 hf => A.bucket hf _, mem_ents.2 ⟨hei, hkv1⟩⟩, fun j => ?_⟩
    refine ⟨_, _, fun fuel1 hf => ⟨A.bucket hf j, A.core hf j⟩, fun fuel1 hf => ⟨?_, ?_⟩,
      fun hj hin => hj (A.bucket_unique (mem_ents.1 hin).1 hei),
      fun hj hin => hj (A.core_unique (mem_ents.1 hin).1 hec)⟩
    · rw [A1.bucket hf j, hents,
        update_cut_erase hch (A.nodup _) (fun j hj hh => hj (A.bucket_unique hh hei)),
        ents_erase hkv1]
    · rw [A1.core hf j, hents,
        update_cut_erase hpl (A.pnodup _) (fun j hj hh => hj (A.core_unique hh hec)),
        ents_erase hkv1]

theorem xns.dtor_loop_iff (s : xns K V) :
    ∀ (n i : Nat), xns.dtor_loop s n i = true ↔ ∃ j, i ≤ j ∧ j < i + n ∧ s.table j ≠ 0 := by
  intro n
  induction n with
  | zero =>
    intro i
    simp only [xns.dtor_loop, Bool.false_eq_true, false_iff]
    rintro ⟨j, h1, h2, _⟩
    omega
  | succ n ih =>
    intro i
    by_cases h0 : s.table i = 0
    · simp only [xns.dtor_loop, h0, ne_eq, not_true_eq_false, if_false, ih]
      constructor
      · rintro ⟨j, h1, h2, h3⟩
        exact ⟨j, by omega, by omega, h3⟩
      · rintro ⟨j, h1, h2, h3⟩
        have hji : j ≠ i := fun hh => h3 (hh ▸ h0)
        exact ⟨j, by omega, by omega, h3⟩
    · simp only [xns.dtor_loop, ne_eq, h0, not_false_eq_true, if_true, true_iff]
      exact ⟨i, Nat.le_refl _, by omega, h0⟩

theorem Abs.bucket_empty_iff {b : Build} {HF : K → Nat} {w : Views K V}
    {ch pl : Nat → List Nat} (A : Abs b HF w ch pl) (i : Nat) :
    w.table i ≠ 0 ↔ ents w (ch i) ≠ [] := by
  rcases (A.chain i).chain_head with ⟨hz, hnil⟩ | ⟨hz, t, ht⟩
  · rw [hnil]
    exact ⟨fun hh => absurd hz hh, fun hh => absurd rfl hh⟩
  · refine ⟨fun _ hh => ?_, fun _ => hz⟩
    obtain ⟨k, v, hk, _⟩ := A.keyed i (w.table i) (by rw [ht]; simp)
    rw [ht, ents_cons _ hk] at hh
    cases hh

/-- C11 (teardown): destroying a reachable table reaches the panic exactly
when some bucket chain holds a live entry; a freshly built table is
destroyed without panic. -/
theorem C11_teardown {b : Build} {HF : K → Nat} {s : xns K V} (hr : Reachable b HF s) :
    (∃ L, (∀ fuel, s.brk ≤ fuel → liveEntries b s fuel = some L) ∧
      (xns.dtor b s = true ↔ L ≠ [])) ∧
    ∀ dup, xns.dtor b (xns.ctor dup : xns K V) = false := by
  obtain ⟨ch, pl, A⟩ := hr.abs
  refine ⟨⟨_, fun fuel hf => A.live hf, ?_⟩, fun dup => ?_⟩
  · unfold xns.dtor
    rw [xns.dtor_loop_iff, ne_eq, List.flatMap_eq_nil_iff]
    constructor
    · rintro ⟨j, _, h2, h3⟩ hall
      exact (A.bucket_empty_iff j).1 h3 (hall j (List.mem_range.2 (by omega)))
    · intro hne
      by_contra hcon
      refine hne (fun j hj => ?_)
      by_contra hj0
      exact hcon ⟨j, Nat.zero_le _, by simpa using List.mem_range.1 hj,
        (A.bucket_empty_iff j).2 hj0⟩
  · cases hd : xns.dtor b (xns.ctor dup : xns K V) with
    | false => rfl
    | true =>
      unfold xns.dtor at hd
      rw [xns.dtor_loop_iff] at hd
      obtain ⟨j, _, _, h3⟩ := hd
      exact absurd rfl h3

/-- C12, as amended: `lookup(k)` returns 0 on a reachable table with no entry
for `k`, and returns `v` on a table in which `k` has just been inserted with
the value `v`; the two results differ exactly when `v` is not 0. -/
theorem C12_not_found_is_zero [Zero V] {b : Build} {HF : K → Nat} {s t t1 : xns K V}
    (hs : Reachable b HF s) {k : K} {L : List (Nat × K × V)}
    (hL : liveEntries b s s.brk = some L) (hno : ∀ e ∈ L, e.2.1 ≠ k)
    (ht : Reachable b HF t) {c : Nat} (hc : c < b.NCPU) {fuel : Nat} {ok : Bool} {v : V}
    (hins : insert b HF fuel t c ok k v = some (0, t1)) :
    ∀ f f1, s.brk ≤ f → t1.brk ≤ f1 →
      lookup b HF f s k = some 0 ∧ lookup b HF f1 t1 k = some v ∧
      (lookup b HF f s k ≠ lookup b HF f1 t1 k ↔ v ≠ 0) := by
  intro f f1 hf hf1
  obtain ⟨ch, pl, A⟩ := hs.abs
  obtain ⟨cht, plt, At⟩ := ht.abs
  have h1 : lookup b HF f s k = some 0 := by
    rw [A.lookup hf k]
    refine congrArg some (lookupIn_none k _ (fun e he => hno e ?_))
    rw [A.live (Nat.le_refl _)] at hL
    rw [← Option.some.inj hL]
    exact (A.mem_live e).2 (by
      obtain ⟨hin, hkv⟩ := mem_ents.1 he
      obtain ⟨k1, v1, hk1, hh⟩ := A.keyed _ e.1 hin
      rw [hkv] at hk1
      rw [congrArg Prod.fst (Option.some.inj hk1), hh]
      exact he)
  have h2 : lookup b HF f1 t1 k = some v := by
    rcases insert_cases At hc hins with ⟨h0, _⟩ | ⟨h0, _⟩ | ⟨_, _, hdup, hv⟩
    · cases h0
    · cases h0
    · have A1 := At.inserted hc k v hdup
      rw [← hv] at A1
      rw [A1.lookup hf1 k, Function.update_same]
      have hk : t1.views.kv t.brk = some (k, v) := by
        rw [hv]; exact Function.update_same _ _ _
      rw [show t.views.brk = t.brk from rfl, ents_cons _ hk]
      simp [lookupIn]
  refine ⟨h1, h2, ?_⟩
  rw [h1, h2]
  constructor
  · intro hne hv0
    exact hne (by rw [hv0])
  · intro hne hh
    exact hne (Option.some.inj hh).symm

/-- C14 (bucket table invariant): on a reachable table every entry of the
chain of bucket `i` has a key that hashes to `i`, no node occurs twice in a
chain, and no node is in two chains. -/
theorem C14_bucket_invariant {b : Build} {HF : K → Nat} {s : xns K V}
    (hr : Reachable b HF s) :
    ∃ chains : Nat → List (Nat × K × V),
      (∀ i fuel, s.brk ≤ fuel → chainEntries s fuel (s.table i) = some (chains i)) ∧
      (∀ fuel, s.brk ≤ fuel →
        liveEntries b s fuel = some ((List.range (NHASH b)).flatMap chains)) ∧
      (∀ i, ((chains i).map Prod.fst).Nodup) ∧
      (∀ i e, e ∈ chains i → i = (HF e.2.1 % 2 ^ 64) % NHASH b) ∧
      (∀ i j e1 e2, e1 ∈ chains i → e2 ∈ chains j → e1.1 = e2.1 → i = j) := by
  obtain ⟨ch, pl, A⟩ := hr.abs
  refine ⟨fun i => ents s.views (ch i), fun i fuel hf => A.bucket hf i,
    fun fuel hf => A.live hf, fun i => ?_, fun i e he => ?_, fun i j e1 e2 h1 h2 hh => ?_⟩
  · rw [ents_map_fst (A.has_kv i)]; exact A.nodup i
  · obtain ⟨hin, hkv⟩ := mem_ents.1 he
    obtain ⟨k1, v1, hk1, hh⟩ := A.keyed i e.1 hin
    rw [hkv] at hk1
    rw [congrArg Prod.fst (Option.some.inj hk1)]
    exact hh.symm
  · exact A.bucket_unique (mem_ents.1 h1).1 (hh ▸ (mem_ents.1 h2).1)

/-- The effect of a `remove` that returns true, on the chains and per-core
lists of the invariant: one node `a`, whose entry matches the call, is taken
out of its chain and of its per-core list. -/
theorem remove_true_effect {b : Build} {HF : K → Nat} {s s1 : xns K V}
    {ch pl : Nat → List Nat} (A : Abs b HF s.views ch pl) {fuel : Nat} {k : K}
    {vp : Option V} (hrem : remove b HF fuel s k vp = some (true, s1)) :
    ∃ a v1 c, s.views.kv a = some (k, v1) ∧ (vp = none ∨ vp = some v1) ∧
      a ∈ ch (h b HF k) ∧ a ∈ pl c ∧ s1.views.kv = s.views.kv ∧
      Abs b HF s1.views (fun j => (ch j).erase a) (fun j => (pl j).erase a) := by
  rcases remove_cases A hrem with ⟨h0, _⟩ |
    ⟨_, pre, e, post, c, ppre, ppost, n, pn, pp, hch, _, hhit, hpl, hn, hpc, hv⟩
  · cases h0
  · have A1 := A.claimed hch hpl hn hpc
    rw [← hv] at A1
    obtain ⟨v1, hkv1, hvp⟩ := hhit
    have hei : e ∈ ch (h b HF k) := by rw [hch]; simp
    have hec : e ∈ pl c := by rw [hpl]; simp
    have h1 : (fun j => (ch j).erase e) = Function.update ch (h b HF k) (pre ++ post) :=
      funext (fun j => (update_cut_erase hch (A.nodup _)
        (fun j hj hh => hj (A.bucket_unique hh hei)) j).symm)
    have h2 : (fun j => (pl j).erase e) = Function.update pl c (ppre ++ ppost) :=
      funext (fun j => (update_cut_erase hpl (A.pnodup _)
        (fun j hj hh => hj (A.core_unique hh hec)) j).symm)
    refine ⟨e, v1, c, hkv1, hvp, hei, hec, by rw [hv, Views.claimed_kv], ?_⟩
    rw [h1, h2]
    exact A1

theorem IsPList.ref_at {s : xns K V} {c e : Nat} {post : List Nat} :
    ∀ (pre : List Nat) {r : PercoreRef} {p : Nat}, loadPercore s r = some p →
      IsPList s.views.pc c r p (pre ++ e :: post) →
      loadPercore s (refAt r pre) = some e := by
  intro pre
  induction pre with
  | nil =>
    intro r p hl hp
    obtain ⟨hpe, _⟩ := hp
    rw [← hpe]; exact hl
  | cons a pre ih =>
    intro r p _ hp
    obtain ⟨_, _, n, hn, hrest⟩ := hp
    obtain ⟨x, hx, _, hxn, _⟩ := mem_of_pc hn
    have hl : loadPercore s (.next a) = some n := by simp [loadPercore, hx, hxn]
    exact @ih (.next a) n hl hrest

/-- C15 (per-worker index invariant): on a reachable table every live entry
is in exactly one per-core list, the list of the core recorded in its
`percore_c`; `insert` by the worker `c` links the new node, tagged `c`, at
the head of list `c` and leaves the other lists alone; a `remove` that
returns true, whoever calls it, takes the node out of the list of the core
recorded in its `percore_c` and leaves the other lists alone. -/
theorem C15_per_worker_invariant {b : Build} {HF : K → Nat} {s : xns K V}
    (hr : Reachable b HF s) :
    (∃ (lists : Nat → List (Nat × K × V)) (live : List (Nat × K × V)),
      (∀ c fuel, s.brk ≤ fuel → coreEntries s fuel (s.percore c) = some (lists c)) ∧
      (∀ fuel, s.brk ≤ fuel → liveEntries b s fuel = some live) ∧
      (∀ e, e ∈ live ↔ ∃ c, e ∈ lists c) ∧
      (∀ c, ((lists c).map Prod.fst).Nodup) ∧
      (∀ c e, e ∈ lists c → c < b.NCPU ∧ ∃ x, s.mem e.1 = some x ∧ x.percore_c = c)) ∧
    (∀ (c fuel : Nat) (ok : Bool) (k : K) (v : V) (s1 : xns K V), c < b.NCPU →
      insert b HF fuel s c ok k v = some (0, s1) →
      (∃ x, s1.mem s.brk = some x ∧ x.percore_c = c) ∧
      ∀ j, ∃ P,
        (∀ f, s.brk ≤ f → coreEntries s f (s.percore j) = some P) ∧
        (∀ f, s1.brk ≤ f → coreEntries s1 f (s1.percore j)
          = some (if j = c then (s.brk, k, v) :: P else P))) ∧
    (∀ (fuel : Nat) (k : K) (vp : Option V) (s1 : xns K V),
      remove b HF fuel s k vp = some (true, s1) →
      ∃ e c, (∃ x, s.mem e.1 = some x ∧ x.percore_c = c) ∧
        ∀ j, ∃ P,
          (∀ f, s.brk ≤ f → coreEntries s f (s.percore j) = some P) ∧
          (∀ f, s1.brk ≤ f → coreEntries s1 f (s1.percore j)
            = some (if j = c then P.erase e else P)) ∧
          (j = c → e ∈ P)) := by
  obtain ⟨ch, pl, A⟩ := hr.abs
  have htag : ∀ c a, a ∈ pl c → ∃ x, s.mem a = some x ∧ x.percore_c = c := by
    intro c a ha
    obtain ⟨_, n, r, hn⟩ := (A.plist c).tagged a ha
    obtain ⟨x, hx, hxc, _⟩ := mem_of_pc hn
    exact ⟨x, hx, hxc⟩
  refine ⟨⟨fun c => ents s.views (pl c), _, fun c fuel hf => A.core hf c,
    fun fuel hf => A.live hf, fun e => ?_, fun c => ?_, fun c e he => ?_⟩, ?_, ?_⟩
  · rw [A.mem_live e]
    constructor
    · intro he
      obtain ⟨hin, hkv⟩ := mem_ents.1 he
      obtain ⟨c, hc⟩ := (A.same e.1).1 ⟨_, hin⟩
      exact ⟨c, mem_ents.2 ⟨hc, hkv⟩⟩
    · rintro ⟨c, hc⟩
      obtain ⟨hin, hkv⟩ := mem_ents.1 hc
      obtain ⟨i, hi⟩ := (A.same e.1).2 ⟨c, hin⟩
      obtain ⟨k1, v1, hk1, hh⟩ := A.keyed i e.1 hi
      rw [hkv] at hk1
      rw [congrArg Prod.fst (Option.some.inj hk1), hh]
      exact mem_ents.2 ⟨hi, hkv⟩
  · rw [ents_map_fst (A.has_kv_core c)]; exact A.pnodup c
  · exact ⟨A.pcpu c e.1 (mem_ents.1 he).1, htag c e.1 (mem_ents.1 he).1⟩
  · intro c fuel ok k v s1 hc hins
    rcases insert_cases A hc hins with ⟨h0, _⟩ | ⟨h0, _⟩ | ⟨_, _, hdup, hv⟩
    · cases h0
    · cases h0
    · have A1 := A.inserted hc k v hdup
      rw [← hv] at A1
      have hpc : s1.views.pc s.brk = some (c, s.percore c, some (.head c)) := by
        rw [hv]
        simp [Views.inserted, linkPc_apply, show s.views.brk = s.brk from rfl]
        rfl
      obtain ⟨x, hx, hxc, _⟩ := mem_of_pc hpc
      have hkvnew : s1.views.kv s.brk = some (k, v) := by
        rw [hv]; exact Function.update_same _ _ _
      have hkvold : ∀ a, a < s.brk → s1.views.kv a = s.views.kv a := by
        intro a ha
        rw [hv]
        exact Function.update_noteq (Nat.ne_of_lt ha) _ _
      refine ⟨⟨x, hx, hxc⟩, fun j => ⟨_, fun f hf => A.core hf j, fun f hf => ?_⟩⟩
      rw [A1.core hf j]
      have hold : ents s1.views (pl j) = ents s.views (pl j) :=
        ents_congr (fun a ha => hkvold a (A.mem_plist ha).2)
      by_cases hj : j = c
      · subst hj
        rw [Function.update_same, if_pos rfl, show s.views.brk = s.brk from rfl,
          ents_cons _ hkvnew, hold]
      · rw [Function.update_noteq hj, if_neg hj, hold]
  · intro fuel k vp s1 hrem
    obtain ⟨a, v1, c, hkv, _, _, hac, hkveq, A1⟩ := remove_true_effect A hrem
    have hents : ∀ l, ents s1.views l = ents s.views l := fun l =>
      ents_congr (fun a _ => by rw [hkveq])
    refine ⟨(a, k, v1), c, htag c a hac, fun j => ⟨_, fun f hf => A.core hf j,
      fun f hf => ?_, fun hj => mem_ents.2 ⟨hj ▸ hac, hkv⟩⟩⟩
    rw [A1.core hf j, hents, ents_erase hkv]
    by_cases hj : j = c
    · rw [if_pos hj]
    · rw [if_neg hj, List.erase_of_not_mem]
      intro hin
      exact hj (A.core_unique (mem_ents.1 hin).1 hac)

/-- C19 (per-worker list well-formedness): on a reachable table the list at
`percore[c]` is finite and free of repetitions, and the `percore_pprev` of
each node designates the link that points to the node, which currently holds
it; a `remove(k, vp)` that returns true has matched a node `e` with key `k`
(and the value of the filter), which is in the list of the core `c` recorded
in its `percore_c` and whose `percore_pprev` designates the link holding it;
afterwards list `c` is the old list without `e`, which is no longer in it,
and every other list, which did not hold `e`, is unchanged. -/
theorem C19_percore_wellformed {b : Build} {HF : K → Nat} {s : xns K V}
    (hr : Reachable b HF s) :
    (∀ c, ∃ xs : List (Nat × xelem K V),
      PWalk s.mem (s.percore c) xs ∧ (xs.map Prod.fst).Nodup ∧
      (∀ fuel, s.brk ≤ fuel → coreEntries s fuel (s.percore c) = some (xs.map entry)) ∧
      ∀ pre e post, xs = pre ++ e :: post →
        e.2.percore_pprev = some (refAt (.head c) (pre.map Prod.fst)) ∧
        loadPercore s (refAt (.head c) (pre.map Prod.fst)) = some e.1) ∧
    (∀ (fuel : Nat) (k : K) (vp : Option V) (s1 : xns K V),
      remove b HF fuel s k vp = some (true, s1) →
      ∃ (e : Nat × K × V) (c : Nat) (x : xelem K V) (r : PercoreRef),
        e.2.1 = k ∧ (vp = none ∨ vp = some e.2.2) ∧
        s.mem e.1 = some x ∧ entry (e.1, x) = e ∧ x.percore_c = c ∧
        x.percore_pprev = some r ∧ loadPercore s r = some e.1 ∧
        ∀ j, ∃ P,
          (∀ f, s.brk ≤ f → coreEntries s f (s.percore j) = some P) ∧
          (∀ f, s1.brk ≤ f → coreEntries s1 f (s1.percore j) = some (P.erase e)) ∧
          (j = c → e ∈ P ∧ e ∉ P.erase e) ∧
          (j ≠ c → e ∉ P ∧ P.erase e = P)) := by
  obtain ⟨ch, pl, A⟩ := hr.abs
  have hinv : ∀ c, ∃ xs : List (Nat × xelem K V),
      xs.map Prod.fst = pl c ∧
      PWalk s.mem (s.percore c) xs ∧ (xs.map Prod.fst).Nodup ∧
      (∀ fuel, s.brk ≤ fuel → coreEntries s fuel (s.percore c) = some (xs.map entry)) ∧
      ∀ pre e post, xs = pre ++ e :: post →
        e.2.percore_pprev = some (refAt (.head c) (pre.map Prod.fst)) ∧
        loadPercore s (refAt (.head c) (pre.map Prod.fst)) = some e.1 := by
    intro c
    obtain ⟨xs, hw, hmap⟩ := PWalk.of_plist (A.plist c)
    refine ⟨xs, hmap, hw, by rw [hmap]; exact A.pnodup c, fun fuel hf => ?_,
      fun pre e post hxs => ?_⟩
    · rw [← hw.pwalk_ents, hmap]; exact A.core hf c
    · have hP : IsPList s.views.pc c (.head c) (s.views.percore c)
          (pre.map Prod.fst ++ e.1 :: post.map Prod.fst) := by
        have := A.plist c
        rw [← hmap, hxs] at this
        simpa using this
      obtain ⟨n, hn, _⟩ := IsPList.plist_split _ hP
      have hm : s.mem e.1 = some e.2 := hw.pwalk_mem e (by rw [hxs]; simp)
      rw [pc_of_mem hm] at hn
      simp only [Option.some.injEq, Prod.mk.injEq] at hn
      exact ⟨hn.2.2, IsPList.ref_at _ rfl hP⟩
  constructor
  · intro c
    obtain ⟨xs, _, h1, h2, h3, h4⟩ := hinv c
    exact ⟨xs, h1, h2, h3, h4⟩
  · intro fuel k vp s1 hrem
    obtain ⟨a, v1, c, hkv, hvp, _, hac, hkveq, A1⟩ := remove_true_effect A hrem
    have hents : ∀ l, ents s1.views l = ents s.views l := fun l =>
      ents_congr (fun a _ => by rw [hkveq])
    obtain ⟨xs, hmap, hw, _, _, hlink⟩ := hinv c
    have hax : a ∈ xs.map Prod.fst := by rw [hmap]; exact hac
    obtain ⟨y, hy, hya⟩ := List.mem_map.1 hax
    obtain ⟨pre, post, hsplit⟩ := List.append_of_mem hy
    obtain ⟨hpp, hslot⟩ := hlink pre y post hsplit
    have hm : s.mem a = some y.2 := by rw [← hya]; exact hw.pwalk_mem y hy
    have hkvy : (y.2.key, y.2.val) = (k, v1) := by
      have := kv_of_mem hm
      rw [hkv] at this
      exact (Option.some.inj this).symm
    have hyc : y.2.percore_c = c := by
      obtain ⟨_, n, r, hn⟩ := (A.plist c).tagged a hac
      obtain ⟨x, hx, hxc, _⟩ := mem_of_pc hn
      rw [hm] at hx
      rw [Option.some.inj hx]; exact hxc
    have hein : (a, k, v1) ∈ ents s.views (pl c) := mem_ents.2 ⟨hac, hkv⟩
    refine ⟨(a, k, v1), c, y.2, refAt (.head c) (pre.map Prod.fst), rfl, hvp, hm, ?_, hyc,
      hpp, by rw [← hya]; exact hslot, fun j => ⟨_, fun f hf => A.core hf j,
        fun f hf => ?_, fun hj => ?_, fun hj => ?_⟩⟩
    · show (a, y.2.key, y.2.val) = (a, k, v1)
      rw [hkvy]
    · rw [A1.core hf j, hents, ents_erase hkv]
    · subst hj
      exact ⟨hein, fun hmem => ((A.ents_nodup_core j).mem_erase_iff.1 hmem).1 rfl⟩
    · have hnot : (a, k, v1) ∉ ents s.views (pl j) := fun hin =>
        hj (A.core_unique (mem_ents.1 hin).1 hac)
      exact ⟨hnot, List.erase_of_not_mem hnot⟩

/-- C20 (claim bits are released): on a reachable table every live entry has
`next_lock` equal to 0, and the first walk of `remove` ends with a `return`
within one loop turn per node of the chain plus one: no `cmpxch` fails and
the outer loop never restarts. -/
theorem C20_claim_bits_released {b : Build} {HF : K → Nat} {s : xns K V}
    (hr : Reachable b HF s) :
    (∃ live, (∀ fuel, s.brk ≤ fuel → liveEntries b s fuel = some live) ∧
      ∀ e ∈ live, ∃ x, s.mem e.1 = some x ∧ x.next_lock = 0) ∧
    ∀ (k : K) (vp : Option V), ∃ L,
      (∀ fuel, s.brk ≤ fuel → chainEntries s fuel (s.table (h b HF k)) = some L) ∧
      ∀ fuel, L.length < fuel → ∃ r s1,
        remove.inner k vp fuel s 0 .fake (.bucket (h b HF k)) = some (.ret r s1) ∧
        remove.outer k vp (h b HF k) fuel 1 s = some (r, s1) := by
  obtain ⟨ch, pl, A⟩ := hr.abs
  constructor
  · refine ⟨_, fun fuel hf => A.live hf, fun e he => ?_⟩
    have hin := (mem_ents.1 ((A.mem_live e).1 he)).1
    exact mem_of_lk (A.unlocked _ e.1 hin)
  · intro k vp
    refine ⟨_, fun fuel hf => A.bucket hf _, fun fuel hf => ?_⟩
    have hlen : (ch (h b HF k)).length < fuel := by
      have := congrArg List.length (ents_map_fst (A.has_kv (h b HF k)))
      rw [List.length_map] at this
      rw [← this]; exact hf
    have hout : ∀ r s1, remove.inner k vp fuel s 0 .fake (.bucket (h b HF k))
        = some (.ret r s1) → remove.outer k vp (h b HF k) fuel 1 s = some (r, s1) := by
      intro r s1 hin
      simp only [remove.outer, hin]
    rcases remove_inner_spec A k vp hlen with
      ⟨_, h1⟩ | ⟨pre, e, post, c, ppre, ppost, n, pn, pp, s1, _, _, _, _, _, _, h1, _⟩
    · exact ⟨false, s, h1, hout _ _ h1⟩
    · exact ⟨true, s1, h1, hout _ _ h1⟩

/-- The entries of the buckets `n .. N-1`, given the entries `f i` of each
bucket. -/
def bucketsFrom {α : Type} (f : Nat → List α) (N n : Nat) : List α :=
  ((List.range N).drop n).flatMap f

theorem bucketsFrom_zero {α : Type} (f : Nat → List α) (N : Nat) :
    bucketsFrom f N 0 = (List.range N).flatMap f := rfl

theorem bucketsFrom_all {α : Type} (f : Nat → List α) {N n : Nat} (hn : N ≤ n) :
    bucketsFrom f N n = [] := by
  unfold bucketsFrom
  rw [List.drop_eq_nil_of_le (by simpa using hn)]
  rfl

theorem bucketsFrom_step {α : Type} (f : Nat → List α) {N n : Nat} (hn : n < N) :
    bucketsFrom f N n = f n ++ bucketsFrom f N (n + 1) := by
  unfold bucketsFrom
  rw [List.drop_eq_getElem_cons (by simpa using hn)]
  simp

theorem Walk.null {m : Nat → Option (xelem K V)} {xs : List (Nat × xelem K V)}
    (hw : Walk m 0 xs) : xs = [] := by
  cases xs with
  | nil => rfl
  | cons e t =>
    obtain ⟨h1, h2, _⟩ := hw
    exact absurd h1.symm h2

theorem iterator.skip_spec {b : Build} {HF : K → Nat} {s : xns K V}
    {ch pl : Nat → List Nat} (A : Abs b HF s.views ch pl) :
    ∀ (fuel : Nat) (it : iterator) (xs : List (Nat × xelem K V)), it.ns_ ≠ 0 →
      it.ndx_ ≤ NHASH b → Walk s.mem it.chain_ xs → NHASH b - it.ndx_ < fuel →
      ∃ it1 xs1, iterator.skip b s fuel it = some it1 ∧ it1.ns_ = it.ns_ ∧
        it1.ndx_ ≤ NHASH b ∧ Walk s.mem it1.chain_ xs1 ∧
        xs1.map entry ++ bucketsFrom (fun i => ents s.views (ch i)) (NHASH b) it1.ndx_
          = xs.map entry ++ bucketsFrom (fun i => ents s.views (ch i)) (NHASH b) it.ndx_ ∧
        (it1.chain_ = 0 → it1.ndx_ = NHASH b) := by
  intro fuel
  induction fuel with
  | zero => intro it xs _ _ _ hf; cases hf
  | succ fuel ih =>
    intro it xs hns hle hw hf
    by_cases hc : it.chain_ = 0 ∧ it.ndx_ < NHASH b
    · obtain ⟨hc0, hlt⟩ := hc
      rw [hc0] at hw
      have hxs := hw.null
      subst hxs
      obtain ⟨ws, hws, hmap⟩ := Walk.of_chain (A.chain it.ndx_)
      obtain ⟨it1, xs1, h1, h2, h3, h4, h5, h6⟩ :=
        ih { it with chain_ := s.table it.ndx_, ndx_ := it.ndx_ + 1 } ws hns hlt hws
          (by simp only; omega)
      refine ⟨it1, xs1, ?_, h2, h3, h4, ?_, h6⟩
      · simp only [iterator.skip, hc0, hlt, and_self, if_true, if_neg hns]
        exact h1
      · rw [h5, bucketsFrom_step _ hlt, ← hmap, hws.walk_ents]
        simp
    · refine ⟨it, xs, ?_, rfl, hle, hw, rfl, fun h0 => ?_⟩
      · simp only [iterator.skip, if_neg hc]
      · by_contra hne
        exact hc ⟨h0, by omega⟩

theorem iterate.loop_spec {b : Build} {HF : K → Nat} {s : xns K V}
    {ch pl : Nat → List Nat} (A : Abs b HF s.views ch pl) {fuel : Nat}
    (hfuel : NHASH b < fuel) :
    ∀ (n : Nat) (it : iterator) (xs : List (Nat × xelem K V)), it.ns_ ≠ 0 →
      it.ndx_ ≤ NHASH b → Walk s.mem it.chain_ xs → (it.chain_ = 0 → it.ndx_ = NHASH b) →
      (xs.map entry ++ bucketsFrom (fun i => ents s.views (ch i)) (NHASH b) it.ndx_).length
        < n →
      iterate.loop b s fuel n it
        = some ((xs.map entry ++ bucketsFrom (fun i => ents s.views (ch i)) (NHASH b)
            it.ndx_).map (fun e => e.2.2)) := by
  intro n
  induction n with
  | zero => intro it xs _ _ _ _ hn; cases hn
  | succ n ih =>
    intro it xs hns hle hw hend hn
    by_cases hc : it.chain_ = 0
    · have hxs : xs = [] := by rw [hc] at hw; exact hw.null
      subst hxs
      rw [bucketsFrom_all _ (Nat.le_of_eq (hend hc).symm)]
      simp [iterate.loop, iterator.ne, xns.end_, iterator.ctor_default, hc]
    · cases xs with
      | nil => exact absurd hw hc
      | cons e t =>
        obtain ⟨hpe, he0, hm, hrest⟩ := hw
        obtain ⟨it1, xs1, h1, h2, h3, h4, h5, h6⟩ :=
          iterator.skip_spec A fuel { it with chain_ := e.2.next } t hns hle hrest
            (by simp only; omega)
        have hinc : it.inc b s fuel = some it1 := by
          simp only [iterator.inc, if_neg hc]
          rw [hpe, hm]
          exact h1
        have hder : it.deref s = some e.2.val := by
          simp only [iterator.deref, if_neg hc]
          rw [hpe, hm]; rfl
        have hne : it.ne (xns.end_ b) = true := by
          simp only [iterator.ne, xns.end_, iterator.ctor_default, decide_eq_true_eq]
          exact fun hh => hc hh.symm
        have hlen : (xs1.map entry ++ bucketsFrom (fun i => ents s.views (ch i)) (NHASH b)
            it1.ndx_).length < n := by
          rw [h5]
          simp only [List.map_cons, List.cons_append, List.length_cons] at hn
          exact Nat.lt_of_succ_lt_succ hn
        have hrec := ih it1 xs1 (by rw [h2]; exact hns) h3 h4 h6 hlen
        rw [h5] at hrec
        simp only [iterate.loop, hne, if_true, hder, hinc, hrec, Option.bind_eq_bind,
          Option.some_bind, Option.pure_def, List.map_cons, List.cons_append, entry]

theorem Abs.live_addrs {b : Build} {HF : K → Nat} {w : Views K V} {ch pl : Nat → List Nat}
    (A : Abs b HF w ch pl) (n : Nat) :
    (((List.range n).flatMap (fun i => ents w (ch i))).map Prod.fst).Nodup ∧
    ((List.range n).flatMap (fun i => ents w (ch i))).length < w.brk := by
  have hmap : ((List.range n).flatMap (fun i => ents w (ch i))).map Prod.fst
      = (List.range n).flatMap ch := by
    rw [List.map_flatMap]
    exact List.flatMap_congr (fun i _ => ents_map_fst (A.has_kv i))
  have hnd : ((List.range n).flatMap ch).Nodup := by
    rw [List.nodup_flatMap]
    refine ⟨fun i _ => A.nodup i, ?_⟩
    refine List.Pairwise.imp (fun {i j} hij => ?_) (List.pairwise_lt_range n)
    intro a h1 h2
    exact Nat.ne_of_lt hij (A.bucket_unique h1 h2)
  refine ⟨by rw [hmap]; exact hnd, ?_⟩
  have := length_lt_of_nodup A.brk_pos hnd (fun a ha => by
    obtain ⟨i, _, hi⟩ := List.mem_flatMap.1 ha
    exact ⟨(A.chain i).ne_zero a hi, A.below i a hi⟩)
  rw [← hmap, List.length_map] at this
  exact this

/-- C17 (whole-table iteration): on a reachable table an iteration from
`begin()` with `operator++` until the iterator compares equal to `end()`
terminates and dereferences to the values of the live entries, each node
once, bucket after bucket in ascending index and in chain order inside a
bucket; `begin()` compares equal to `end()` exactly when the table is
empty. -/
theorem C17_iteration {b : Build} {HF : K → Nat} {s : xns K V} (hr : Reachable b HF s)
    {self : Nat} (hself : self ≠ 0) :
    ∃ chains : Nat → List (Nat × K × V),
      (∀ i fuel, s.brk ≤ fuel → chainEntries s fuel (s.table i) = some (chains i)) ∧
      (∀ fuel, s.brk ≤ fuel →
        liveEntries b s fuel = some ((List.range (NHASH b)).flatMap chains)) ∧
      (((List.range (NHASH b)).flatMap chains).map Prod.fst).Nodup ∧
      (∀ fuel junk, s.brk + NHASH b < fuel →
        iterate b s fuel junk self
          = some (((List.range (NHASH b)).flatMap chains).map (fun e => e.2.2))) ∧
      (∀ fuel junk ep, NHASH b < fuel →
        ∃ it ep1, xns.begin b s fuel junk self ep = some (it, ep1) ∧
          (it.ne (xns.end_ b) = false ↔ (List.range (NHASH b)).flatMap chains = [])) := by
  obtain ⟨ch, pl, A⟩ := hr.abs
  obtain ⟨ws, hws, hmap⟩ := Walk.of_chain (A.chain 0)
  have hstart : ws.map entry ++ bucketsFrom (fun i => ents s.views (ch i)) (NHASH b) 1
      = (List.range (NHASH b)).flatMap (fun i => ents s.views (ch i)) := by
    rw [← bucketsFrom_zero, bucketsFrom_step _ (NHASH_pos b), ← hmap, hws.walk_ents]
  have hbegin : ∀ fuel junk ep, NHASH b < fuel →
      ∃ it xs, xns.begin b s fuel junk self ep
          = some (it, if junk ≠ 0 then gc_begin_epoch ep else ep) ∧
        it.ns_ ≠ 0 ∧ it.ndx_ ≤ NHASH b ∧ Walk s.mem it.chain_ xs ∧
        xs.map entry ++ bucketsFrom (fun i => ents s.views (ch i)) (NHASH b) it.ndx_
          = (List.range (NHASH b)).flatMap (fun i => ents s.views (ch i)) ∧
        (it.chain_ = 0 → it.ndx_ = NHASH b) := by
    intro fuel junk ep hf
    obtain ⟨it1, xs1, h1, h2, h3, h4, h5, h6⟩ :=
      iterator.skip_spec A fuel { ns_ := self, chain_ := s.table 0, ndx_ := 1 } ws hself
        (NHASH_pos b) hws (by simp only; omega)
    refine ⟨it1, xs1, ?_, by rw [h2]; exact hself, h3, h4, by rw [h5]; exact hstart, h6⟩
    simp only [xns.begin, iterator.ctor, if_neg hself, h1, Option.map_some']
  refine ⟨fun i => ents s.views (ch i), fun i fuel hf => A.bucket hf i,
    fun fuel hf => A.live hf, (A.live_addrs _).1, fun fuel junk hf => ?_,
    fun fuel junk ep hf => ?_⟩
  · obtain ⟨it, xs, h1, h2, h3, h4, h5, h6⟩ := hbegin fuel junk 0 (by omega)
    have hlen := (A.live_addrs (NHASH b)).2
    have hrun := iterate.loop_spec A (show NHASH b < fuel by omega) fuel it xs h2 h3 h4 h6
      (by rw [h5]; exact Nat.lt_trans hlen (by show s.brk < fuel; omega))
    rw [h5] at hrun
    simp only [iterate, h1, Option.bind_eq_bind, Option.some_bind]
    exact hrun
  · obtain ⟨it, xs, h1, h2, h3, h4, h5, h6⟩ := hbegin fuel junk ep hf
    refine ⟨it, _, h1, ?_⟩
    simp only [iterator.ne, xns.end_, iterator.ctor_default, decide_eq_false_iff_not,
      not_not]
    rw [← h5]
    constructor
    · intro h0
      have hxs : xs = [] := by rw [← h0] at h4; exact h4.null
      rw [hxs, bucketsFrom_all _ (Nat.le_of_eq (h6 h0.symm).symm)]
      rfl
    · intro hnil
      have hxs : xs = [] := by
        cases xs with
        | nil => rfl
        | cons e t => simp at hnil
      rw [hxs] at h4
      exact h4.symm

theorem iterator.skip_total (b : Build) (s : xns K V) :
    ∀ (fuel : Nat) (it : iterator), it.ns_ ≠ 0 → NHASH b - it.ndx_ < fuel →
      ∃ it1, iterator.skip b s fuel it = some it1 ∧ it1.ns_ = it.ns_ := by
  intro fuel
  induction fuel with
  | zero => intro it _ hf; cases hf
  | succ fuel ih =>
    intro it hns hf
    by_cases hc : it.chain_ = 0 ∧ it.ndx_ < NHASH b
    · obtain ⟨it1, h1, h2⟩ :=
        ih { it with chain_ := s.table it.ndx_, ndx_ := it.ndx_ + 1 } hns
          (by simp only; omega)
      refine ⟨it1, ?_, h2⟩
      simp only [iterator.skip, if_pos hc, if_neg hns]
      exact h1
    · exact ⟨it, by simp only [iterator.skip, if_neg hc], rfl⟩

/-- C18, what the code does: `begin()` on a table at the address `self`
returns an iterator; when the storage of `ns_` held 0 the constructor has
opened no protected region, and the destructor closes one, so the thread
ends with one region fewer than it had; when the storage held anything else
the constructor opens one region and the destructor closes it; the iterator
of `end()` opens and closes none. -/
theorem C18_region_unbalanced (b : Build) (s : xns K V) (fuel self : Nat) (ep : Int)
    (hself : self ≠ 0) (hf : NHASH b < fuel) :
    (∃ it, xns.begin b s fuel 0 self ep = some (it, ep) ∧ iterator.dtor it ep = ep - 1) ∧
    (∀ junk, junk ≠ 0 →
      ∃ it, xns.begin b s fuel junk self ep = some (it, ep + 1) ∧
        iterator.dtor it (ep + 1) = ep) ∧
    iterator.dtor (xns.end_ b) ep = ep := by
  obtain ⟨it1, h1, h2⟩ :=
    iterator.skip_total b s fuel { ns_ := self, chain_ := s.table 0, ndx_ := 1 } hself
      (by simp only; omega)
  have hns : it1.ns_ ≠ 0 := by rw [h2]; exact hself
  refine ⟨⟨it1, ?_, ?_⟩, fun junk hj => ⟨it1, ?_, ?_⟩, ?_⟩
  · simp [xns.begin, iterator.ctor, hself, h1]
  · simp [iterator.dtor, hns, gc_end_epoch]
  · simp [xns.begin, iterator.ctor, hself, h1, hj, gc_begin_epoch]
  · simp [iterator.dtor, hns, gc_end_epoch]
  · simp [iterator.dtor, xns.end_, iterator.ctor_default]

end Claims

/-- A debug build with two cores, used to run the operations on concrete
tables. -/
def demoBuild : Build := { SPINLOCK_DEBUG := true, NCPU := 2 }

/-- The state left by a completed operation. -/
def stateOf {α : Type} (r : Option (α × xns Nat Nat)) : xns Nat Nat :=
  match r with
  | some x => x.2
  | none => xns.ctor false

/-- The table without duplicates after `insert(1, 5)` by worker 0 and
`insert(11, 7)` by worker 1; both keys hash to bucket 1. -/
def demoNodup : xns Nat Nat :=
  stateOf (insert demoBuild id 3
    (stateOf (insert demoBuild id 3 (xns.ctor false) 0 true 1 5)) 1 true 11 7)

theorem demoNodup_reachable : Reachable demoBuild id demoNodup :=
  @Reachable.insert Nat Nat _ _ demoBuild id _ _ 3 1 true 11 7 0
    (@Reachable.insert Nat Nat _ _ demoBuild id _ _ 3 0 true 1 5 0
      (Reachable.ctor false) (by decide) rfl)
    (by decide) rfl

theorem C1_uniqueness_witness :
    ∃ L, (∀ fuel, demoNodup.brk ≤ fuel → liveEntries demoBuild demoNodup fuel = some L) ∧
      ∀ k, (L.filter (fun e => decide (e.2.1 = k))).length ≤ 1 :=
  C1_uniqueness demoNodup_reachable rfl

theorem C2_insert_then_lookup_witness :
    insert demoBuild id 3 (xns.ctor false) 0 true 1 5
      = some (0, stateOf (insert demoBuild id 3 (xns.ctor false) 0 true 1 5)) ∧
    (stateOf (insert demoBuild id 3 (xns.ctor false) 0 true 1 5)).brk ≤ 3 ∧
    lookup demoBuild id 3
      (stateOf (insert demoBuild id 3 (xns.ctor false) 0 true 1 5)) 1 = some 5 :=
  ⟨rfl, by decide,
    C2_insert_then_lookup (Reachable.ctor false) (by decide : 0 < demoBuild.NCPU)
      (show insert demoBuild id 3 (xns.ctor false) 0 true 1 5 = some (0, _) from rfl)
      3 (by decide)⟩

/-- The table with duplicates allowed after `insert(1, 5)` by worker 0 and
`insert(1, 7)` by worker 1. -/
def demoDup : xns Nat Nat :=
  stateOf (insert demoBuild id 3
    (stateOf (insert demoBuild id 3 (xns.ctor true) 0 true 1 5)) 1 true 1 7)

theorem demoDup_reachable : Reachable demoBuild id demoDup :=
  @Reachable.insert Nat Nat _ _ demoBuild id _ _ 3 1 true 1 7 0
    (@Reachable.insert Nat Nat _ _ demoBuild id _ _ 3 0 true 1 5 0
      (Reachable.ctor true) (by decide) rfl)
    (by decide) rfl

/-- On the table `demoDup`, which allows duplicates and holds `(1, 5)` and
`(1, 7)`, `remove(1)` returns true and the `lookup(1)` that follows returns
5, not the not-found result 0. -/
theorem C3_counterexample :
    Reachable demoBuild id demoDup ∧
    remove demoBuild id 3 demoDup 1 none
      = some (true, stateOf (remove demoBuild id 3 demoDup 1 none)) ∧
    (stateOf (remove demoBuild id 3 demoDup 1 none)).brk ≤ 3 ∧
    lookup demoBuild id 3 (stateOf (remove demoBuild id 3 demoDup 1 none)) 1 = some 5 ∧
    (some 5 : Option Nat) ≠ some 0 :=
  ⟨demoDup_reachable, rfl, by decide, rfl, by decide⟩

theorem C3_remove_then_lookup_witness :
    demoNodup.allowdup = false ∧
    remove demoBuild id 3 demoNodup 1 none
      = some (true, stateOf (remove demoBuild id 3 demoNodup 1 none)) ∧
    (stateOf (remove demoBuild id 3 demoNodup 1 none)).brk ≤ 3 ∧
    lookup demoBuild id 3 (stateOf (remove demoBuild id 3 demoNodup 1 none)) 1 = some 0 :=
  ⟨rfl, rfl, by decide,
    C3_remove_then_lookup demoNodup_reachable rfl
      (show remove demoBuild id 3 demoNodup 1 none = some (true, _) from rfl) 3 (by decide)⟩

theorem C5_insert_outcome_witness :
    ∃ L, (∀ fuel, demoNodup.brk ≤ fuel → liveEntries demoBuild demoNodup fuel = some L) ∧
      ∀ fuel, demoNodup.brk ≤ fuel →
        ∃ r s1, insert demoBuild id fuel demoNodup 1 true 11 9 = some (r, s1) ∧
          (r = -1 ∨ r = 0) ∧
          (r = -1 ↔ (demoNodup.allowdup = false ∧ ∃ e ∈ L, e.2.1 = 11)) :=
  C5_insert_outcome demoNodup_reachable (by decide : 1 < demoBuild.NCPU) 11 9

theorem C6_remove_outcome_witness :
    ∃ L, (∀ fuel, demoDup.brk ≤ fuel → liveEntries demoBuild demoDup fuel = some L) ∧
      ∀ fuel, demoDup.brk ≤ fuel →
        ∃ r s1, remove demoBuild id fuel demoDup 1 (some 5) = some (r, s1) ∧
          (r = true ↔ ∃ e ∈ L, e.2.1 = 1 ∧ ((some 5 : Option Nat) = none ∨ some 5 = some e.2.2)) :=
  C6_remove_outcome demoDup_reachable 1 (some 5)

theorem C7_failure_atomicity_witness :
    Unchanged demoNodup (stateOf (insert demoBuild id 3 demoNodup 0 true 11 9)) ∧
    Unchanged demoNodup (stateOf (remove demoBuild id 3 demoNodup 21 none)) :=
  ⟨(C7_failure_atomicity demoNodup_reachable).1 0 3 true 11 9 _ (by decide)
      (show insert demoBuild id 3 demoNodup 0 true 11 9 = some (-1, _) from rfl),
    (C7_failure_atomicity demoNodup_reachable).2 3 21 none _
      (show remove demoBuild id 3 demoNodup 21 none = some (false, _) from rfl)⟩

theorem C8_enumeration_complete_witness :
    ∃ visited live,
      (∀ fuel, demoNodup.brk ≤ fuel → liveEntries demoBuild demoNodup fuel = some live) ∧
      visited.Perm live ∧
      ∀ (σ : Type) (cb : σ → Nat → Nat → Bool × σ) (init : σ),
        (∀ acc k v, (cb acc k v).1 = false) →
        ∀ fuel, demoNodup.brk ≤ fuel →
          enumerate demoBuild fuel demoNodup 1 cb init = some (visit cb init visited) :=
  C8_enumeration_complete demoNodup_reachable 1

theorem C10_enumerate_key_witness :
    ∃ live, (∀ fuel, demoNodup.brk ≤ fuel → liveEntries demoBuild demoNodup fuel = some live) ∧
      ∀ (σ : Type) (cb : σ → Nat → Nat → Bool × σ) (init : σ),
        (∀ acc k1 v, (cb acc k1 v).1 = false) →
        ∀ fuel, demoNodup.brk ≤ fuel →
          enumerate_key demoBuild id fuel demoNodup 1 cb init
            = some (visit cb init (live.filter (fun e => decide (e.2.1 = 1)))) :=
  C10_enumerate_key demoNodup_reachable 1

/-- The scenario of the spec on `demoDup` (which holds `(1, 5)` and
`(1, 7)`): `remove(1, 5)` takes out one entry, and `enumerate_key(1)` then
yields `(1, 7)` only. -/
theorem C9_filtered_remove_witness :
    (∃ a c,
      (∃ L, (∀ fuel1, demoDup.brk ≤ fuel1 →
          chainEntries demoDup fuel1 (demoDup.table (h demoBuild id 1)) = some L) ∧
        (a, 1, 5) ∈ L) ∧
      ∀ j, ∃ L P,
        (∀ fuel1, demoDup.brk ≤ fuel1 →
          chainEntries demoDup fuel1 (demoDup.table j) = some L ∧
            coreEntries demoDup fuel1 (demoDup.percore j) = some P) ∧
        (∀ fuel1, (stateOf (remove demoBuild id 3 demoDup 1 (some 5))).brk ≤ fuel1 →
          chainEntries (stateOf (remove demoBuild id 3 demoDup 1 (some 5))) fuel1
              ((stateOf (remove demoBuild id 3 demoDup 1 (some 5))).table j)
            = some (L.erase (a, 1, 5)) ∧
          coreEntries (stateOf (remove demoBuild id 3 demoDup 1 (some 5))) fuel1
              ((stateOf (remove demoBuild id 3 demoDup 1 (some 5))).percore j)
            = some (P.erase (a, 1, 5))) ∧
        (j ≠ h demoBuild id 1 → (a, 1, 5) ∉ L) ∧ (j ≠ c → (a, 1, 5) ∉ P)) ∧
    enumerate_key demoBuild id 3 (stateOf (remove demoBuild id 3 demoDup 1 (some 5))) 1
      (fun acc k v => (false, acc ++ [(k, v)])) [] = some [(1, 7)] :=
  ⟨C9_filtered_remove demoDup_reachable
      (show remove demoBuild id 3 demoDup 1 (some 5) = some (true, _) from rfl), rfl⟩

theorem C11_teardown_witness :
    ((∃ L, (∀ fuel, demoNodup.brk ≤ fuel → liveEntries demoBuild demoNodup fuel = some L) ∧
      (xns.dtor demoBuild demoNodup = true ↔ L ≠ [])) ∧
    ∀ dup, xns.dtor demoBuild (xns.ctor dup : xns Nat Nat) = false) ∧
    xns.dtor demoBuild demoNodup = true :=
  ⟨C11_teardown demoNodup_reachable, rfl⟩

/-- With 0 stored under key 1 the result of `lookup(1)` is the same as on
the empty table: both are 0. -/
theorem C12_counterexample :
    insert demoBuild id 3 (xns.ctor false) 0 true 1 0
      = some (0, stateOf (insert demoBuild id 3 (xns.ctor false) 0 true 1 0)) ∧
    lookup demoBuild id 3 (xns.ctor false : xns Nat Nat) 1 = some 0 ∧
    lookup demoBuild id 3 (stateOf (insert demoBuild id 3 (xns.ctor false) 0 true 1 0)) 1
      = some 0 :=
  ⟨rfl, rfl, rfl⟩

theorem C12_not_found_is_zero_witness :
    liveEntries demoBuild (xns.ctor false : xns Nat Nat) 1 = some [] ∧
    insert demoBuild id 3 (xns.ctor false) 0 true 1 5
      = some (0, stateOf (insert demoBuild id 3 (xns.ctor false) 0 true 1 5)) ∧
    (lookup demoBuild id 3 (xns.ctor false : xns Nat Nat) 1 = some 0 ∧
      lookup demoBuild id 3 (stateOf (insert demoBuild id 3 (xns.ctor false) 0 true 1 5)) 1
        = some 5 ∧
      (lookup demoBuild id 3 (xns.ctor false : xns Nat Nat) 1
          ≠ lookup demoBuild id 3
              (stateOf (insert demoBuild id 3 (xns.ctor false) 0 true 1 5)) 1
        ↔ (5 : Nat) ≠ 0)) :=
  ⟨rfl, rfl,
    C12_not_found_is_zero (Reachable.ctor false)
      (show liveEntries demoBuild (xns.ctor false : xns Nat Nat) 1 = some [] from rfl)
      (fun e he => by cases he) (Reachable.ctor false) (by decide : 0 < demoBuild.NCPU)
      (show insert demoBuild id 3 (xns.ctor false) 0 true 1 5 = some (0, _) from rfl)
      3 3 (by decide) (by decide)⟩

theorem C14_bucket_invariant_witness :
    ∃ chains : Nat → List (Nat × Nat × Nat),
      (∀ i fuel, demoNodup.brk ≤ fuel →
        chainEntries demoNodup fuel (demoNodup.table i) = some (chains i)) ∧
      (∀ fuel, demoNodup.brk ≤ fuel →
        liveEntries demoBuild demoNodup fuel
          = some ((List.range (NHASH demoBuild)).flatMap chains)) ∧
      (∀ i, ((chains i).map Prod.fst).Nodup) ∧
      (∀ i e, e ∈ chains i → i = (id e.2.1 % 2 ^ 64) % NHASH demoBuild) ∧
      (∀ i j e1 e2, e1 ∈ chains i → e2 ∈ chains j → e1.1 = e2.1 → i = j) :=
  C14_bucket_invariant demoNodup_reachable

theorem C15_per_worker_invariant_witness :
    (∃ x, (stateOf (insert demoBuild id 3 demoDup 1 true 21 3)).mem demoDup.brk = some x ∧
        x.percore_c = 1) ∧
    (∀ j, ∃ P,
      (∀ f, demoDup.brk ≤ f → coreEntries demoDup f (demoDup.percore j) = some P) ∧
      (∀ f, (stateOf (insert demoBuild id 3 demoDup 1 true 21 3)).brk ≤ f →
        coreEntries (stateOf (insert demoBuild id 3 demoDup 1 true 21 3)) f
            ((stateOf (insert demoBuild id 3 demoDup 1 true 21 3)).percore j)
          = some (if j = 1 then (demoDup.brk, 21, 3) :: P else P))) :=
  (C15_per_worker_invariant demoDup_reachable).2.1 1 3 true 21 3 _ (by decide)
    (show insert demoBuild id 3 demoDup 1 true 21 3 = some (0, _) from rfl)

theorem C19_percore_wellformed_witness :
    ∃ (e : Nat × Nat × Nat) (c : Nat) (x : xelem Nat Nat) (r : PercoreRef),
      e.2.1 = 1 ∧ ((none : Option Nat) = none ∨ none = some e.2.2) ∧
      demoDup.mem e.1 = some x ∧ entry (e.1, x) = e ∧ x.percore_c = c ∧
      x.percore_pprev = some r ∧ loadPercore demoDup r = some e.1 ∧
      ∀ j, ∃ P,
        (∀ f, demoDup.brk ≤ f → coreEntries demoDup f (demoDup.percore j) = some P) ∧
        (∀ f, (stateOf (remove demoBuild id 3 demoDup 1 none)).brk ≤ f →
          coreEntries (stateOf (remove demoBuild id 3 demoDup 1 none)) f
              ((stateOf (remove demoBuild id 3 demoDup 1 none)).percore j)
            = some (P.erase e)) ∧
        (j = c → e ∈ P ∧ e ∉ P.erase e) ∧
        (j ≠ c → e ∉ P ∧ P.erase e = P) :=
  (C19_percore_wellformed demoDup_reachable).2 3 1 none _
    (show remove demoBuild id 3 demoDup 1 none = some (true, _) from rfl)

theorem C20_claim_bits_released_witness :
    (∃ live, (∀ fuel, demoDup.brk ≤ fuel → liveEntries demoBuild demoDup fuel = some live) ∧
      ∀ e ∈ live, ∃ x, demoDup.mem e.1 = some x ∧ x.next_lock = 0) ∧
    ∀ (k : Nat) (vp : Option Nat), ∃ L,
      (∀ fuel, demoDup.brk ≤ fuel →
        chainEntries demoDup fuel (demoDup.table (h demoBuild id k)) = some L) ∧
      ∀ fuel, L.length < fuel → ∃ r s1,
        remove.inner k vp fuel demoDup 0 .fake (.bucket (h demoBuild id k))
          = some (.ret r s1) ∧
        remove.outer k vp (h demoBuild id k) fuel 1 demoDup = some (r, s1) :=
  C20_claim_bits_released demoDup_reachable

theorem C17_iteration_witness :
    (∃ chains : Nat → List (Nat × Nat × Nat),
      (∀ i fuel, demoNodup.brk ≤ fuel →
        chainEntries demoNodup fuel (demoNodup.table i) = some (chains i)) ∧
      (∀ fuel, demoNodup.brk ≤ fuel →
        liveEntries demoBuild demoNodup fuel
          = some ((List.range (NHASH demoBuild)).flatMap chains)) ∧
      (((List.range (NHASH demoBuild)).flatMap chains).map Prod.fst).Nodup ∧
      (∀ fuel junk, demoNodup.brk + NHASH demoBuild < fuel →
        iterate demoBuild demoNodup fuel junk 1
          = some (((List.range (NHASH demoBuild)).flatMap chains).map (fun e => e.2.2))) ∧
      (∀ fuel junk ep, NHASH demoBuild < fuel →
        ∃ it ep1, xns.begin demoBuild demoNodup fuel junk 1 ep = some (it, ep1) ∧
          (it.ne (xns.end_ demoBuild) = false
            ↔ (List.range (NHASH demoBuild)).flatMap chains = []))) ∧
    iterate demoBuild demoNodup 14 0 1 = some [7, 5] :=
  ⟨C17_iteration demoNodup_reachable (by decide), rfl⟩

theorem C18_region_unbalanced_witness :
    ((∃ it, xns.begin demoBuild demoNodup 11 0 1 0 = some (it, 0) ∧
        iterator.dtor it 0 = 0 - 1) ∧
      (∀ junk, junk ≠ 0 →
        ∃ it, xns.begin demoBuild demoNodup 11 junk 1 0 = some (it, 0 + 1) ∧
          iterator.dtor it (0 + 1) = 0) ∧
      iterator.dtor (xns.end_ demoBuild) 0 = 0) ∧
    (xns.begin demoBuild demoNodup 11 0 1 0).map (fun r => iterator.dtor r.1 r.2)
      = some (-1) :=
  ⟨C18_region_unbalanced demoBuild demoNodup 11 1 0 (by decide) (by decide), by decide⟩

end Xns
